import Mathlib

/-!
A shallow embedding of the `sdset` crate (set operations over sorted,
deduplicated slices) together with proofs about it.

Rust slices become `List`s, `usize` becomes `Nat`, fallible functions
return `Except`/`Option`.  Each definition mirrors the corresponding Rust
function of the crate; the comment above a definition names its source.
Loops are embedded as recursive functions; loops whose termination relies
on the sortedness precondition take a `fuel` argument that the public
wrapper instantiates with a bound that is never reached on valid input.
-/

deriving instance DecidableEq for Except

namespace Sdset

/-- Rust's `Ord::cmp` on a linearly ordered type: `Less`, `Equal` or `Greater`. -/
def ordCmp {α : Type} [LinearOrder α] (x y : α) : Ordering :=
  if x < y then .lt else if x = y then .eq else .gt

theorem ordCmp_eq_lt {α : Type} [LinearOrder α] {x y : α} :
    ordCmp x y = .lt ↔ x < y := by
  unfold ordCmp
  split
  · simp [*]
  · split <;> simp_all

theorem ordCmp_eq_eq {α : Type} [LinearOrder α] {x y : α} :
    ordCmp x y = .eq ↔ x = y := by
  unfold ordCmp
  split
  · constructor
    · intro h; cases h
    · intro h; subst h; exact absurd ‹x < x› (lt_irrefl x)
  · split <;> simp_all

theorem ordCmp_eq_gt {α : Type} [LinearOrder α] {x y : α} :
    ordCmp x y = .gt ↔ y < x := by
  unfold ordCmp
  split
  · constructor
    · intro h; cases h
    · intro h; exact absurd (lt_trans h ‹x < y›) (lt_irrefl y)
  · split
    · subst ‹x = y›; simp [lt_irrefl]
    · simp only [true_iff]
      rcases lt_trichotomy x y with h | h | h
      · exact absurd h ‹¬ x < y›
      · exact absurd h ‹¬ x = y›
      · exact h

/-- The loop of Rust's `<[T]>::binary_search_by` (used by
`exponential_search_by` on the probed sub-slice): classic two-pointer
binary search; `.ok` is Rust's `Ok(index)`, `.error` Rust's
`Err(insertion_point)`.  The out-of-bounds arm is unreachable whenever
`right ≤ s.length`, which every caller guarantees. -/
def binarySearchGo {α : Type} (f : α → Ordering) (s : List α) :
    Nat → Nat → Nat → Except Nat Nat
  | 0, left, _right => .error left
  | fuel + 1, left, right =>
    if left < right then
      match s[left + (right - left) / 2]? with
      | none => .error left
      | some v =>
        match f v with
        | .lt => binarySearchGo f s fuel (left + (right - left) / 2 + 1) right
        | .gt => binarySearchGo f s fuel left (left + (right - left) / 2)
        | .eq => .ok (left + (right - left) / 2)
    else
      .error left

/-- Rust's `<[T]>::binary_search_by` on a whole slice.  The window size
`right - left` strictly shrinks every iteration, so `length + 1` fuel is
never exhausted. -/
def binary_search_by {α : Type} (f : α → Ordering) (s : List α) : Except Nat Nat :=
  binarySearchGo f s (s.length + 1) 0 s.length

/-- The doubling-probe loop of `exponential_search_by` (src/lib.rs):
`while index < slice.len() && f(&slice[index]) == Ordering::Less { index *= 2 }`.
The index at least doubles every iteration (it starts at 1), so the
`length + 1` fuel passed by `exponential_search_by` is never exhausted. -/
def expSearchIndex {α : Type} (f : α → Ordering) (s : List α) :
    Nat → Nat → Nat
  | 0, index => index
  | fuel + 1, index =>
    if s[index]?.map f = some .lt then
      expSearchIndex f s fuel (index * 2)
    else
      index

/-- `exponential_search_by` (src/lib.rs): exponential probe, then binary
search on `slice[half_bound..bound]`, results shifted by `half_bound`. -/
def exponential_search_by {α : Type} (f : α → Ordering) (s : List α) : Except Nat Nat :=
  let index := expSearchIndex f s (s.length + 1) 1
  let half_bound := index / 2
  let bound := min (index + 1) s.length
  match binary_search_by f ((s.drop half_bound).take (bound - half_bound)) with
  | .ok pos => .ok (half_bound + pos)
  | .error pos => .error (half_bound + pos)

/-- `exponential_search` (src/lib.rs). -/
def exponential_search {α : Type} [LinearOrder α] (s : List α) (elem : α) : Except Nat Nat :=
  exponential_search_by (fun x => ordCmp x elem) s

/-- `exponential_search_by_key` (src/lib.rs). -/
def exponential_search_by_key {α K : Type} [LinearOrder K]
    (s : List α) (b : K) (f : α → K) : Except Nat Nat :=
  exponential_search_by (fun k => ordCmp (f k) b) s

/-- `exponential_offset_ge_by` (src/lib.rs): suffix from the search result. -/
def exponential_offset_ge_by {α : Type} (f : α → Ordering) (s : List α) : List α :=
  match exponential_search_by f s with
  | .ok pos => s.drop pos
  | .error pos => s.drop pos

/-- `exponential_offset_ge` (src/lib.rs). -/
def exponential_offset_ge {α : Type} [LinearOrder α] (s : List α) (elem : α) : List α :=
  exponential_offset_ge_by (fun x => ordCmp x elem) s

/-- `exponential_offset_ge_by_key` (src/lib.rs). -/
def exponential_offset_ge_by_key {α K : Type} [LinearOrder K]
    (s : List α) (b : K) (f : α → K) : List α :=
  exponential_offset_ge_by (fun x => ordCmp (f x) b) s

/-- Modelled from the spec: `exponential_offset_ge_maybe`, called by
`multi::Difference::extend_collection`, is absent from the crate sources
provided; the specification describes the step as "for each other,
exponential-advance to first element ≥ head(base)" and `offset_ge` as the
"skip-ahead primitive that returns the suffix ≥ a pivot", i.e. exactly
`exponential_offset_ge`. -/
def exponential_offset_ge_maybe {α : Type} [LinearOrder α] (s : List α) (elem : α) : List α :=
  exponential_offset_ge s elem

/-! ### The `Set` layer (src/set.rs) -/

/-- `Error` (src/set.rs): validation failures of the checked constructors. -/
inductive Error : Type
  | NotSort
  | NotDedup
deriving DecidableEq, Repr

/-- `is_sort_dedup` (src/set.rs): scan the adjacent pairs (`slice.windows(2)`)
left to right; `Less` continues, `Equal` fails with `NotDedup`, `Greater`
fails with `NotSort`. -/
def is_sort_dedup {α : Type} [LinearOrder α] : List α → Except Error Unit
  | x :: y :: rest =>
    match ordCmp x y with
    | .lt => is_sort_dedup (y :: rest)
    | .eq => .error .NotDedup
    | .gt => .error .NotSort
  | _ => .ok ()

/-- `Set::new` (src/set.rs): validate, then wrap the same slice
(`Set` is a `repr(transparent)` view, embedded as the underlying list). -/
def Set.new {α : Type} [LinearOrder α] (slice : List α) : Except Error (List α) :=
  (is_sort_dedup slice).map (fun _ => slice)

/-- `SetBuf::new` (src/set.rs): validate, then wrap the same buffer. -/
def SetBuf.new {α : Type} [LinearOrder α] (vec : List α) : Except Error (List α) :=
  (is_sort_dedup vec).map (fun _ => vec)

/-- Rust's `std::ops::Bound`, used by `Set::range`. -/
inductive Bound (α : Type) : Type
  | Included (x : α)
  | Excluded (x : α)
  | Unbounded

/-- The `left` cut index of `Set::range` (src/set.rs), computed from the
start bound by `exponential_search_by(|e| e.borrow().cmp(x))`. -/
def Set.rangeLeft {α : Type} [LinearOrder α] (s : List α) (lo : Bound α) : Nat :=
  match lo with
  | .Included x =>
    match exponential_search_by (fun e => ordCmp e x) s with
    | .ok index => index
    | .error index => index
  | .Excluded x =>
    match exponential_search_by (fun e => ordCmp e x) s with
    | .ok index => index + 1
    | .error index => index
  | .Unbounded => 0

/-- The `right` cut index of `Set::range` (src/set.rs), computed from the
end bound. -/
def Set.rangeRight {α : Type} [LinearOrder α] (s : List α) (hi : Bound α) : Nat :=
  match hi with
  | .Included x =>
    match exponential_search_by (fun e => ordCmp e x) s with
    | .ok index => index + 1
    | .error index => index
  | .Excluded x =>
    match exponential_search_by (fun e => ordCmp e x) s with
    | .ok index => index
    | .error index => index
  | .Unbounded => s.length

/-- `Set::range` (src/set.rs): compute the `left`/`right` cut indices, then
return the sub-slice `&self[left..right]`.  `none` models the panic of the
Rust range indexing when `left > right` or `right > len`. -/
def Set.range {α : Type} [LinearOrder α] (s : List α) (lo hi : Bound α) : Option (List α) :=
  let left := Set.rangeLeft s lo
  let right := Set.rangeRight s hi
  if left ≤ right ∧ right ≤ s.length then some ((s.drop left).take (right - left)) else none

/-- Whether an element lies above the lower endpoint of a range
(the filter semantics of §Range of the spec). -/
def Bound.satLower {α : Type} [LinearOrder α] (lo : Bound α) (e : α) : Bool :=
  match lo with
  | .Included x => decide (x ≤ e)
  | .Excluded x => decide (x < e)
  | .Unbounded => true

/-- Whether an element lies below the upper endpoint of a range. -/
def Bound.satUpper {α : Type} [LinearOrder α] (hi : Bound α) (e : α) : Bool :=
  match hi with
  | .Included x => decide (e ≤ x)
  | .Excluded x => decide (e < x)
  | .Unbounded => true

/-! ### Collectors (src/collection.rs)

The operators are generic over the output collection: the Rust
`extend_collection` methods receive the collection and the emission
functions (`Collection::extend_from_slice` / `Collection::extend` /
`Collection::push`) as parameters.  The embedding passes the state type `σ`
and the emission functions explicitly.  All collectors used by the claims
(`Vec`, `Counter`) are infallible (`Error = Infallible`), so no error
channel is threaded. -/

/-- `usize::MAX` on a 64-bit target. -/
def USIZE_MAX : Nat := 2 ^ 64 - 1

/-- Rust's `usize::saturating_add`. -/
def saturating_add (a b : Nat) : Nat := min (a + b) USIZE_MAX

/-- `impl Collection for Vec`: `push` appends one element. -/
def Vec.push {α : Type} (output : List α) (elem : α) : List α :=
  output ++ [elem]

/-- `impl Collection for Vec`: `extend_from_slice` appends a run. -/
def Vec.extend_from_slice {α : Type} (output : List α) (elems : List α) : List α :=
  output ++ elems

/-- `impl Collection for Counter` (src/collection.rs): `push` saturating-adds 1. -/
def Counter.push {α : Type} (count : Nat) (_elem : α) : Nat :=
  saturating_add count 1

/-- `impl Collection for Counter` (src/collection.rs): `extend_from_slice`
saturating-adds the run length. -/
def Counter.extend_from_slice {α : Type} (count : Nat) (elems : List α) : Nat :=
  saturating_add count elems.length

/-! ### Duo operators (src/duo)

Each loop takes a `fuel` argument bounding its iteration count; the
public `extend_collection` wrapper passes `|a| + |b| + 1`, which is never
exhausted on sorted input since every iteration consumes at least one
input element (for union and symmetric difference this holds for arbitrary
input).  The `output.reserve(..)` calls of the source only pre-allocate
and never change a collection's contents, so they are not modelled. -/

namespace duo

/-- The loop of `duo::Union::extend_collection` (src/duo/union.rs). -/
def Union.extendCollectionGo {α σ : Type} [LinearOrder α]
    (extend : σ → List α → σ) : Nat → List α → List α → σ → σ
  | 0, _, _, output => output
  | fuel + 1, a, b, output =>
    match a, b with
    | first_a :: _, first_b :: _ =>
      match ordCmp first_a first_b with
      | .lt =>
        let off := (a.takeWhile (fun x => decide (x < first_b))).length
        Union.extendCollectionGo extend fuel (a.drop off) b (extend output (a.take off))
      | .eq =>
        let off := ((a.zip b).takeWhile (fun p => decide (p.1 = p.2))).length
        Union.extendCollectionGo extend fuel (a.drop off) (b.drop off)
          (extend output (a.take off))
      | .gt =>
        let off := (b.takeWhile (fun x => decide (x < first_a))).length
        Union.extendCollectionGo extend fuel a (b.drop off) (extend output (b.take off))
    | _, _ => extend (extend output a) b

/-- `duo::Union::extend_collection` (src/duo/union.rs). -/
def Union.extend_collection {α σ : Type} [LinearOrder α]
    (extend : σ → List α → σ) (a b : List α) (output : σ) : σ :=
  Union.extendCollectionGo extend (a.length + b.length + 1) a b output

/-- The loop of `duo::Intersection::extend_collection` (src/duo/intersection.rs). -/
def Intersection.extendCollectionGo {α σ : Type} [LinearOrder α]
    (extend : σ → List α → σ) : Nat → List α → List α → σ → σ
  | 0, _, _, output => output
  | fuel + 1, a, b, output =>
    match a, b with
    | first_a :: _, first_b :: _ =>
      if first_a = first_b then
        let off := ((a.zip b).takeWhile (fun p => decide (p.1 = p.2))).length
        Intersection.extendCollectionGo extend fuel (a.drop off) (b.drop off)
          (extend output (a.take off))
      else if first_a < first_b then
        Intersection.extendCollectionGo extend fuel (exponential_offset_ge a first_b) b output
      else
        Intersection.extendCollectionGo extend fuel a (exponential_offset_ge b first_a) output
    | _, _ => output

/-- `duo::Intersection::extend_collection` (src/duo/intersection.rs). -/
def Intersection.extend_collection {α σ : Type} [LinearOrder α]
    (extend : σ → List α → σ) (a b : List α) (output : σ) : σ :=
  Intersection.extendCollectionGo extend (a.length + b.length + 1) a b output

/-- The loop of `duo::Difference::extend_collection` (src/duo/difference.rs). -/
def Difference.extendCollectionGo {α σ : Type} [LinearOrder α]
    (extend : σ → List α → σ) : Nat → List α → List α → σ → σ
  | 0, _, _, output => output
  | fuel + 1, a, b, output =>
    match a.head? with
    | some first =>
      let b' := exponential_offset_ge b first
      match b'.head? with
      | some mn =>
        if mn = first then
          Difference.extendCollectionGo extend fuel (a.drop 1) (b'.drop 1) output
        else
          let off := (a.takeWhile (fun x => decide (x < mn))).length
          Difference.extendCollectionGo extend fuel (a.drop off) b'
            (extend output (a.take off))
      | none => extend output a
    | none => output

/-- `duo::Difference::extend_collection` (src/duo/difference.rs). -/
def Difference.extend_collection {α σ : Type} [LinearOrder α]
    (extend : σ → List α → σ) (a b : List α) (output : σ) : σ :=
  Difference.extendCollectionGo extend (a.length + b.length + 1) a b output

/-- The loop of `duo::SymmetricDifference::extend_collection`
(src/duo/symmetric_difference.rs). -/
def SymmetricDifference.extendCollectionGo {α σ : Type} [LinearOrder α]
    (extend : σ → List α → σ) : Nat → List α → List α → σ → σ
  | 0, _, _, output => output
  | fuel + 1, a, b, output =>
    match a.head?, b.head? with
    | some ha, some hb =>
      match ordCmp ha hb with
      | .lt =>
        let off := (a.takeWhile (fun e => decide (e < hb))).length
        SymmetricDifference.extendCollectionGo extend fuel (a.drop off) b
          (extend output (a.take off))
      | .eq =>
        let off := ((a.zip b).takeWhile (fun p => decide (p.1 = p.2))).length
        SymmetricDifference.extendCollectionGo extend fuel (a.drop off) (b.drop off) output
      | .gt =>
        let off := (b.takeWhile (fun e => decide (e < ha))).length
        SymmetricDifference.extendCollectionGo extend fuel a (b.drop off)
          (extend output (b.take off))
    | some _, none => extend output a
    | none, some _ => extend output b
    | none, none => output

/-- `duo::SymmetricDifference::extend_collection` (src/duo/symmetric_difference.rs). -/
def SymmetricDifference.extend_collection {α σ : Type} [LinearOrder α]
    (extend : σ → List α → σ) (a b : List α) (output : σ) : σ :=
  SymmetricDifference.extendCollectionGo extend (a.length + b.length + 1) a b output

/-- The loop of `duo::DifferenceByKey::extend_collection`
(src/duo/difference_by_key.rs): compare through the key projections `f`, `g`;
on a key match drop a single `a` element and do not advance `b`
("cannot advance b since we support duplicate relations"). -/
def DifferenceByKey.extendCollectionGo {T U K σ : Type} [LinearOrder K]
    (f : T → K) (g : U → K) (extend : σ → List T → σ) :
    Nat → List T → List U → σ → σ
  | 0, _, _, output => output
  | fuel + 1, a, b, output =>
    match a.head?.map f with
    | some first_a =>
      let b' := exponential_offset_ge_by_key b first_a g
      match b'.head?.map g with
      | some mn =>
        if mn = first_a then
          DifferenceByKey.extendCollectionGo f g extend fuel (a.drop 1) b' output
        else
          let off := (a.takeWhile (fun x => decide (f x < mn))).length
          DifferenceByKey.extendCollectionGo f g extend fuel (a.drop off) b'
            (extend output (a.take off))
      | none => extend output a
    | none => output

/-- `duo::DifferenceByKey::extend_collection` (src/duo/difference_by_key.rs). -/
def DifferenceByKey.extend_collection {T U K σ : Type} [LinearOrder K]
    (f : T → K) (g : U → K) (extend : σ → List T → σ)
    (a : List T) (b : List U) (output : σ) : σ :=
  DifferenceByKey.extendCollectionGo f g extend (a.length + b.length + 1) a b output

end duo

/-! ### The two-minimums frontier primitive (src/two_minimums.rs) -/

/-- `Minimums` (src/two_minimums.rs). -/
inductive Minimums (T : Type) : Type
  | Nothing
  | One (f : T)
  | Two (f s : T)

/-- The body of the `two_minimums` fold (src/two_minimums.rs); the Rust
`match` arms in order: `One(f) | Two(f, _) if min < f.1`, then
`One(f) if min >= f.1`, then `Two(f, s) if min < s.1`, then `Nothing`,
then `other => other`. -/
def twoMinimumsStep {α : Type} [LinearOrder α]
    (minimums : Minimums (Nat × α)) (current : Nat × α) : Minimums (Nat × α) :=
  match minimums with
  | .Nothing => .One current
  | .One f => if current.2 < f.2 then .Two current f else .Two f current
  | .Two f s =>
    if current.2 < f.2 then .Two current f
    else if current.2 < s.2 then .Two f current
    else .Two f s

/-- `two_minimums` (src/two_minimums.rs): fold over the heads of the
non-empty slices, paired with their indices. -/
def two_minimums {α : Type} [LinearOrder α] (slices : List (List α)) :
    Minimums (Nat × α) :=
  (slices.enum.filterMap (fun p => p.2.head?.map (fun v => (p.1, v)))).foldl
    twoMinimumsStep .Nothing

/-! ### Multi operators (src/multi)

Fuel as for the duo operators: the wrappers pass (total input length + 1),
enough because every iteration consumes at least one input element. -/

namespace multi

/-- The loop of `multi::Union::extend_collection` (src/multi/union.rs).
`slices.getD i []` embeds the Rust indexing `self.slices[i]`; `two_minimums`
only returns indices of (non-empty) slices, so the default is never taken. -/
def Union.extendCollectionGo {α σ : Type} [LinearOrder α]
    (extend : σ → List α → σ) (push : σ → α → σ) :
    Nat → List (List α) → σ → σ
  | 0, _, output => output
  | fuel + 1, slices, output =>
    match two_minimums slices with
    | .Two (i, f) (_, s) =>
      let slice_i := slices.getD i []
      let off := (slice_i.takeWhile (fun e => decide (e < s))).length
      let output := if f ≠ s then extend output (slice_i.take off) else output
      let slices := if f ≠ s then slices.set i (slice_i.drop off) else slices
      let output := push output s
      let slices := slices.map (fun sl => if sl.head? = some s then sl.drop 1 else sl)
      Union.extendCollectionGo extend push fuel slices output
    | .One (i, _) => extend output (slices.getD i [])
    | .Nothing => output

/-- `multi::Union::extend_collection` (src/multi/union.rs). -/
def Union.extend_collection {α σ : Type} [LinearOrder α]
    (extend : σ → List α → σ) (push : σ → α → σ)
    (slices : List (List α)) (output : σ) : σ :=
  Union.extendCollectionGo extend push ((slices.map List.length).sum + 1) slices output

/-- `Equality` (src/multi/intersection.rs). -/
inductive Equality (α : Type) : Type
  | NotEqual (max : α)
  | Equal (max : α)

/-- The head reads `s[0]` performed by `test_equality`
(src/multi/intersection.rs): `some` list of heads when every slice is
non-empty, `none` embedding the index panic on an empty slice. -/
def headsOf {α : Type} : List (List α) → Option (List α)
  | [] => some []
  | s :: ss =>
    match s.head? with
    | some h => (headsOf ss).map (fun t => h :: t)
    | none => none

/-- `test_equality` (src/multi/intersection.rs): one pass over the heads
tracking an all-equal flag (a `usize` 1/0 in the source) and the running
maximum.  Its precondition is that `slices` and every slice are non-empty;
`none` embeds the out-of-bounds panic otherwise (no caller reaches it). -/
def test_equality {α : Type} [LinearOrder α] (slices : List (List α)) :
    Option (Equality α) :=
  match headsOf slices with
  | some heads =>
    match heads with
    | h :: _ =>
      let r := heads.foldl
        (fun (p : Nat × α) x => (if x ≠ p.2 then 0 else p.1, if p.2 < x then x else p.2))
        (1, h)
      some (if r.1 ≠ 0 then .Equal r.2 else .NotEqual r.2)
    | [] => none
  | none => none

/-- The loop of `multi::Intersection::extend_collection`
(src/multi/intersection.rs).  The source checks emptiness of each slice as
it advances it and returns from inside the loop; the slices it leaves
un-advanced at that point are never read again, so checking after the full
pass is equivalent. -/
def Intersection.extendCollectionGo {α σ : Type} [LinearOrder α]
    (push : σ → α → σ) : Nat → List (List α) → σ → σ
  | 0, _, output => output
  | fuel + 1, slices, output =>
    match test_equality slices with
    | some (.Equal x) =>
      let output := push output x
      let slices := slices.map (List.drop 1)
      if slices.any List.isEmpty then output
      else Intersection.extendCollectionGo push fuel slices output
    | some (.NotEqual mx) =>
      let slices := slices.map (fun s => exponential_offset_ge s mx)
      if slices.any List.isEmpty then output
      else Intersection.extendCollectionGo push fuel slices output
    | none => output

/-- `multi::Intersection::extend_collection` (src/multi/intersection.rs):
`if self.slices.is_empty() { return Ok(()) }`,
`if self.slices.iter().any(|s| s.is_empty()) { return Ok(()) }`, then loop. -/
def Intersection.extend_collection {α σ : Type} [LinearOrder α]
    (push : σ → α → σ) (slices : List (List α)) (output : σ) : σ :=
  if slices.isEmpty then output
  else if slices.any List.isEmpty then output
  else Intersection.extendCollectionGo push ((slices.map List.length).sum + 1) slices output

/-- The loop of `multi::SymmetricDifference::extend_collection`
(src/multi/symmetric_difference.rs). -/
def SymmetricDifference.extendCollectionGo {α σ : Type} [LinearOrder α]
    (extend : σ → List α → σ) (push : σ → α → σ) :
    Nat → List (List α) → σ → σ
  | 0, _, output => output
  | fuel + 1, slices, output =>
    match two_minimums slices with
    | .Two (i, f) (_, s) =>
      if f ≠ s then
        let slice_i := slices.getD i []
        let off := (slice_i.takeWhile (fun e => decide (e < s))).length
        SymmetricDifference.extendCollectionGo extend push fuel
          (slices.set i (slice_i.drop off)) (extend output (slice_i.take off))
      else
        let count := slices.countP (fun sl => decide (sl.head? = some f))
        let slices := slices.map (fun sl => if sl.head? = some f then sl.drop 1 else sl)
        SymmetricDifference.extendCollectionGo extend push fuel slices
          (if count % 2 ≠ 0 then push output f else output)
    | .One (i, _) => extend output (slices.getD i [])
    | .Nothing => output

/-- `multi::SymmetricDifference::extend_collection`
(src/multi/symmetric_difference.rs). -/
def SymmetricDifference.extend_collection {α σ : Type} [LinearOrder α]
    (extend : σ → List α → σ) (push : σ → α → σ)
    (slices : List (List α)) (output : σ) : σ :=
  SymmetricDifference.extendCollectionGo extend push
    ((slices.map List.length).sum + 1) slices output

/-- The loop of `multi::Difference::extend_collection`
(src/multi/difference.rs): advance every other slice to its first element
≥ `head(base)`, dropping the ones that become empty, and take the minimum
of the remaining heads.  The source removes exhausted slices with
`swap_remove`, which permutes `others`; every later step depends only on
the multiset of remaining slices (each is re-advanced and only the minimum
head is used), so the filtered order used here is equivalent. -/
def Difference.extendCollectionGo {α σ : Type} [LinearOrder α]
    (extend : σ → List α → σ) : Nat → List α → List (List α) → σ → σ
  | 0, _, _, output => output
  | fuel + 1, base, others, output =>
    match base.head? with
    | some first =>
      let others := (others.map (fun o => exponential_offset_ge_maybe o first)).filter
        (fun o => !o.isEmpty)
      match (others.filterMap List.head?).min? with
      | some mn =>
        if mn = first then
          Difference.extendCollectionGo extend fuel (base.drop 1) others output
        else
          let off := (base.takeWhile (fun e => decide (e < mn))).length
          Difference.extendCollectionGo extend fuel (base.drop off) others
            (extend output (base.take off))
      | none => extend output base
    | none => output

/-- `multi::Difference::extend_collection` (src/multi/difference.rs). -/
def Difference.extend_collection {α σ : Type} [LinearOrder α]
    (extend : σ → List α → σ) (base : List α) (others : List (List α))
    (output : σ) : σ :=
  Difference.extendCollectionGo extend (base.length + 1) base others output

/-- `multi::Difference::new` (src/multi/difference.rs): the first slice is the
base (or `[]`), the non-empty remaining slices are the others. -/
def Difference.new {α : Type} (slices : List (List α)) : List α × List (List α) :=
  (slices.headD [],
    if slices.length < 2 then []
    else (slices.drop 1).filter (fun s => decide (s.length > 0)))

end multi

/-! ### Driving the operators into a fresh `Vec` (`SetOperation::into_set_buf`) -/

/-- Duo union driven into a fresh growable buffer. -/
def duoUnionVec {α : Type} [LinearOrder α] (a b : List α) : List α :=
  duo.Union.extend_collection Vec.extend_from_slice a b []

/-- Duo intersection driven into a fresh growable buffer. -/
def duoIntersectionVec {α : Type} [LinearOrder α] (a b : List α) : List α :=
  duo.Intersection.extend_collection Vec.extend_from_slice a b []

/-- Duo difference driven into a fresh growable buffer. -/
def duoDifferenceVec {α : Type} [LinearOrder α] (a b : List α) : List α :=
  duo.Difference.extend_collection Vec.extend_from_slice a b []

/-- Duo symmetric difference driven into a fresh growable buffer. -/
def duoSymmetricDifferenceVec {α : Type} [LinearOrder α] (a b : List α) : List α :=
  duo.SymmetricDifference.extend_collection Vec.extend_from_slice a b []

/-- Duo difference-by-key driven into a fresh growable buffer. -/
def duoDifferenceByKeyVec {T U K : Type} [LinearOrder K]
    (f : T → K) (g : U → K) (a : List T) (b : List U) : List T :=
  duo.DifferenceByKey.extend_collection f g Vec.extend_from_slice a b []

/-- Multi union driven into a fresh growable buffer. -/
def multiUnionVec {α : Type} [LinearOrder α] (slices : List (List α)) : List α :=
  multi.Union.extend_collection Vec.extend_from_slice Vec.push slices []

/-- Multi intersection driven into a fresh growable buffer. -/
def multiIntersectionVec {α : Type} [LinearOrder α] (slices : List (List α)) : List α :=
  multi.Intersection.extend_collection Vec.push slices []

/-- Multi symmetric difference driven into a fresh growable buffer. -/
def multiSymmetricDifferenceVec {α : Type} [LinearOrder α] (slices : List (List α)) : List α :=
  multi.SymmetricDifference.extend_collection Vec.extend_from_slice Vec.push slices []

/-- Multi difference (first slice as base) driven into a fresh growable buffer. -/
def multiDifferenceVec {α : Type} [LinearOrder α] (slices : List (List α)) : List α :=
  multi.Difference.extend_collection Vec.extend_from_slice
    (multi.Difference.new slices).1 (multi.Difference.new slices).2 []

/-! ### Driving the operators into a fresh `Counter` (`SetOperation` with the
`Counter` collector, src/collection.rs) -/

/-- Duo union driven into a fresh counter. -/
def duoUnionCounter {α : Type} [LinearOrder α] (a b : List α) : Nat :=
  duo.Union.extend_collection Counter.extend_from_slice a b 0

/-- Duo intersection driven into a fresh counter. -/
def duoIntersectionCounter {α : Type} [LinearOrder α] (a b : List α) : Nat :=
  duo.Intersection.extend_collection Counter.extend_from_slice a b 0

/-- Duo difference driven into a fresh counter. -/
def duoDifferenceCounter {α : Type} [LinearOrder α] (a b : List α) : Nat :=
  duo.Difference.extend_collection Counter.extend_from_slice a b 0

/-- Duo symmetric difference driven into a fresh counter. -/
def duoSymmetricDifferenceCounter {α : Type} [LinearOrder α] (a b : List α) : Nat :=
  duo.SymmetricDifference.extend_collection Counter.extend_from_slice a b 0

/-- Duo difference-by-key driven into a fresh counter. -/
def duoDifferenceByKeyCounter {T U K : Type} [LinearOrder K]
    (f : T → K) (g : U → K) (a : List T) (b : List U) : Nat :=
  duo.DifferenceByKey.extend_collection f g Counter.extend_from_slice a b 0

/-- Multi union driven into a fresh counter. -/
def multiUnionCounter {α : Type} [LinearOrder α] (slices : List (List α)) : Nat :=
  multi.Union.extend_collection Counter.extend_from_slice Counter.push slices 0

/-- Multi intersection driven into a fresh counter. -/
def multiIntersectionCounter {α : Type} [LinearOrder α] (slices : List (List α)) : Nat :=
  multi.Intersection.extend_collection Counter.push slices 0

/-- Multi symmetric difference driven into a fresh counter. -/
def multiSymmetricDifferenceCounter {α : Type} [LinearOrder α]
    (slices : List (List α)) : Nat :=
  multi.SymmetricDifference.extend_collection Counter.extend_from_slice Counter.push
    slices 0

/-- Multi difference (first slice as base) driven into a fresh counter. -/
def multiDifferenceCounter {α : Type} [LinearOrder α] (slices : List (List α)) : Nat :=
  multi.Difference.extend_collection Counter.extend_from_slice
    (multi.Difference.new slices).1 (multi.Difference.new slices).2 0

/-! ### Correctness of the search kernels on sorted input -/

theorem countP_eq_of_forall_split {α : Type} (s : List α) (p : α → Bool) (n : Nat)
    (hn : n ≤ s.length)
    (h1 : ∀ i (h : i < s.length), i < n → p s[i])
    (h2 : ∀ i (h : i < s.length), n ≤ i → ¬ p s[i]) :
    s.countP p = n := by
  induction s generalizing n with
  | nil => simp only [List.countP_nil]; simp at hn; omega
  | cons y t ih =>
    cases n with
    | zero =>
      rw [List.countP_eq_zero]
      intro a ha
      rcases List.mem_iff_getElem.1 ha with ⟨i, hi, rfl⟩
      exact h2 i hi (Nat.zero_le i)
    | succ m =>
      have hy : p y := h1 0 (by simp) (Nat.succ_pos m)
      rw [List.countP_cons_of_pos _ _ hy]
      have : t.countP p = m := by
        refine ih m (by simpa using hn) ?_ ?_
        · intro i hi him
          have := h1 (i + 1) (by simpa using hi) (by omega)
          simpa using this
        · intro i hi him
          have := h2 (i + 1) (by simpa using hi) (by omega)
          simpa using this
      omega

theorem sorted_getElem_lt {α : Type} [LinearOrder α] {s : List α}
    (hs : s.Sorted (· < ·)) {i j : Nat} (hi : i < s.length) (hj : j < s.length)
    (hij : i < j) : s[i] < s[j] :=
  List.pairwise_iff_getElem.1 hs i j hi hj hij

theorem binarySearchGo_sorted {α : Type} [LinearOrder α] {s : List α} (x : α)
    (hs : s.Sorted (· < ·)) :
    ∀ fuel left right, right - left < fuel → left ≤ right → right ≤ s.length →
    (∀ i (h : i < s.length), i < left → s[i] < x) →
    (∀ i (h : i < s.length), right ≤ i → x < s[i]) →
    binarySearchGo (fun e => ordCmp e x) s fuel left right =
      if x ∈ s then .ok (s.countP (fun e => decide (e < x)))
      else .error (s.countP (fun e => decide (e < x))) := by
  intro fuel
  induction fuel with
  | zero => intro left right hd; omega
  | succ fuel ih =>
    intro left right hd hlr hrlen hleft hright
    by_cases hlt : left < right
    · have hmid : left + (right - left) / 2 < s.length := by omega
      rcases ho : ordCmp (s[left + (right - left) / 2]) x with _ | _ | _
      · -- s[mid] < x : recurse right half
        rw [binarySearchGo, if_pos hlt, List.getElem?_eq_getElem hmid]
        simp only [ho]
        have hmx : s[left + (right - left) / 2] < x := ordCmp_eq_lt.1 ho
        refine ih (left + (right - left) / 2 + 1) right (by omega) (by omega) hrlen ?_ hright
        intro i hi him
        rcases Nat.lt_succ_iff_lt_or_eq.1 him with h | h
        · exact lt_trans (sorted_getElem_lt hs hi hmid h) hmx
        · subst h; exact hmx
      · -- s[mid] = x : found
        rw [binarySearchGo, if_pos hlt, List.getElem?_eq_getElem hmid]
        simp only [ho]
        have hmx : s[left + (right - left) / 2] = x := ordCmp_eq_eq.1 ho
        have hxmem : x ∈ s := hmx ▸ List.getElem_mem hmid
        have hcnt : s.countP (fun e => decide (e < x)) = left + (right - left) / 2 := by
          refine countP_eq_of_forall_split s _ _ (le_of_lt hmid) ?_ ?_
          · intro i hi him
            simpa using hmx ▸ sorted_getElem_lt hs hi hmid him
          · intro i hi him
            rcases Nat.eq_or_lt_of_le him with h | h
            · have : s[i] = x := h ▸ hmx
              simp [this]
            · simp only [decide_eq_true_eq, not_lt]
              exact le_of_lt (hmx ▸ sorted_getElem_lt hs hmid hi h)
        rw [if_pos hxmem, hcnt]
      · -- x < s[mid] : recurse left half
        rw [binarySearchGo, if_pos hlt, List.getElem?_eq_getElem hmid]
        simp only [ho]
        have hmx : x < s[left + (right - left) / 2] := ordCmp_eq_gt.1 ho
        refine ih left (left + (right - left) / 2) (by omega) (by omega) (by omega) hleft ?_
        intro i hi him
        rcases Nat.eq_or_lt_of_le him with h | h
        · subst h; exact hmx
        · exact lt_trans hmx (sorted_getElem_lt hs hmid hi h)
    · rw [binarySearchGo, if_neg hlt]
      have hlr' : left = right := by omega
      have hnot : x ∉ s := by
        intro hx
        rcases List.mem_iff_getElem.1 hx with ⟨i, hi, hix⟩
        rcases Nat.lt_or_ge i left with h | h
        · exact absurd hix (ne_of_lt (hleft i hi h))
        · exact absurd hix (ne_of_gt (hright i hi (hlr' ▸ h)))
      have hcnt : s.countP (fun e => decide (e < x)) = left := by
        refine countP_eq_of_forall_split s _ left (hlr' ▸ hrlen) ?_ ?_
        · intro i hi him
          simpa using hleft i hi him
        · intro i hi him
          simp only [decide_eq_true_eq, not_lt]
          exact le_of_lt (hright i hi (hlr' ▸ him))
      rw [if_neg hnot, hcnt]

theorem binary_search_by_sorted {α : Type} [LinearOrder α] {s : List α} (x : α)
    (hs : s.Sorted (· < ·)) :
    binary_search_by (fun e => ordCmp e x) s =
      if x ∈ s then .ok (s.countP (fun e => decide (e < x)))
      else .error (s.countP (fun e => decide (e < x))) := by
  refine binarySearchGo_sorted x hs _ 0 s.length (by omega) (Nat.zero_le _) le_rfl ?_ ?_
  · intro i _ h; omega
  · intro i hi h; omega

theorem expSearchIndex_spec {α : Type} (f : α → Ordering) (s : List α) :
    ∀ fuel idx, 0 < idx → s.length < idx + fuel →
      (expSearchIndex f s fuel idx = idx ∨
        ∃ h : (expSearchIndex f s fuel idx) / 2 < s.length,
          f (s[(expSearchIndex f s fuel idx) / 2]) = .lt)
      ∧ ¬ ((s[expSearchIndex f s fuel idx]?).map f = some .lt)
      ∧ 0 < expSearchIndex f s fuel idx := by
  intro fuel
  induction fuel with
  | zero =>
    intro idx hpos hlen
    have hnone : s[idx]? = none := List.getElem?_eq_none (by omega)
    refine ⟨Or.inl rfl, ?_, hpos⟩
    have hz : expSearchIndex f s 0 idx = idx := rfl
    rw [hz, hnone]
    simp
  | succ fuel ih =>
    intro idx hpos hlen
    rw [expSearchIndex]
    split
    · rename_i hcond
      have hlenidx : idx < s.length := by
        rcases Option.map_eq_some'.1 hcond with ⟨v, hv, -⟩
        exact (List.getElem?_eq_some.1 hv).1
      have hrec := ih (idx * 2) (by omega) (by omega)
      refine ⟨?_, hrec.2.1, hrec.2.2⟩
      rcases hrec.1 with h | h
      · right
        rw [h]
        have h2 : idx * 2 / 2 = idx := by omega
        rcases Option.map_eq_some'.1 hcond with ⟨v, hv, hfv⟩
        have hveq : s[idx] = v := by
          rw [List.getElem?_eq_getElem hlenidx] at hv
          exact Option.some.inj hv
        refine ⟨by omega, ?_⟩
        simp only [h2]
        rw [hveq]
        exact hfv
      · exact Or.inr h
    · rename_i hcond
      exact ⟨Or.inl rfl, hcond, hpos⟩

theorem exponential_search_by_sorted {α : Type} [LinearOrder α] (s : List α) (x : α)
    (hs : s.Sorted (· < ·)) :
    exponential_search_by (fun e => ordCmp e x) s =
      if x ∈ s then .ok (s.countP (fun e => decide (e < x)))
      else .error (s.countP (fun e => decide (e < x))) := by
  obtain ⟨hdis, hstop, hpos⟩ :=
    expSearchIndex_spec (fun e => ordCmp e x) s (s.length + 1) 1 Nat.one_pos (by omega)
  simp only [exponential_search_by]
  set idx := expSearchIndex (fun e => ordCmp e x) s (s.length + 1) 1 with hidxdef
  set half := idx / 2 with hhalfdef
  set bound := min (idx + 1) s.length with hbounddef
  set w := (s.drop half).take (bound - half) with hwdef
  have hhalf_le : half ≤ s.length := by
    rcases hdis with h | ⟨h, -⟩ <;> omega
  have hhalfbound : half ≤ bound := by omega
  have hbound_le : bound ≤ s.length := by omega
  have hbefore : ∀ i (hi : i < s.length), i < half → s[i] < x := by
    rcases hdis with h | ⟨hh, hlt⟩
    · intro i hi hih
      rw [hhalfdef, h] at hih
      omega
    · intro i hi hih
      have hhx : s[half] < x := ordCmp_eq_lt.1 hlt
      exact lt_trans (sorted_getElem_lt hs hi hh hih) hhx
  have hafter : ∀ i (hi : i < s.length), bound ≤ i → x < s[i] := by
    intro i hi hbi
    by_cases hidxlen : idx < s.length
    · have hbeq : bound = idx + 1 := by omega
      have hnotlt : ¬ (s[idx] < x) := by
        intro hcon
        exact hstop (by
          rw [List.getElem?_eq_getElem hidxlen]
          simp [ordCmp_eq_lt.2 hcon])
      exact lt_of_le_of_lt (not_lt.1 hnotlt) (sorted_getElem_lt hs hidxlen hi (by omega))
    · omega
  have hw_sorted : w.Sorted (· < ·) := by
    refine List.Pairwise.sublist ?_ hs
    exact ((s.drop half).take_sublist _).trans (s.drop_sublist half)
  have hw_len : w.length = bound - half := by
    simp only [hwdef, List.length_take, List.length_drop]
    omega
  have hw_get : ∀ j (hj : j < w.length), w[j] = s[half + j] := by
    intro j hj
    simp only [hwdef, List.getElem_take, List.getElem_drop]
  have hsplit : s = s.take half ++ (w ++ s.drop bound) := by
    have h1 : s.take half ++ s.drop half = s := List.take_append_drop _ _
    have h2 : w ++ (s.drop half).drop (bound - half) = s.drop half :=
      List.take_append_drop _ _
    have h3 : (s.drop half).drop (bound - half) = s.drop bound := by
      rw [List.drop_drop]
      congr 1
      omega
    rw [h3] at h2
    rw [← h2] at h1
    exact h1.symm
  have hmem_w : x ∈ s ↔ x ∈ w := by
    constructor
    · intro hx
      rcases List.mem_iff_getElem.1 hx with ⟨i, hi, hix⟩
      have hge : half ≤ i := by
        by_contra hcon
        exact absurd hix (ne_of_lt (hbefore i hi (by omega)))
      have hlt2 : i < bound := by
        by_contra hcon
        exact absurd hix (ne_of_gt (hafter i hi (by omega)))
      have hj : i - half < w.length := by omega
      refine List.mem_iff_getElem.2 ⟨i - half, hj, ?_⟩
      rw [hw_get (i - half) hj]
      have hidx2 : half + (i - half) = i := by omega
      simp only [hidx2]
      exact hix
    · intro hx
      have hsub : w.Sublist s :=
        ((s.drop half).take_sublist _).trans (s.drop_sublist half)
      exact hsub.subset hx
  have hcount : s.countP (fun e => decide (e < x)) =
      half + w.countP (fun e => decide (e < x)) := by
    have e1 : s.countP (fun e => decide (e < x)) =
        (s.take half).countP (fun e => decide (e < x)) +
          (w.countP (fun e => decide (e < x)) +
            (s.drop bound).countP (fun e => decide (e < x))) := by
      conv_lhs => rw [hsplit]
      simp [List.countP_append]
    have e2 : (s.take half).countP (fun e => decide (e < x)) = half := by
      refine countP_eq_of_forall_split _ _ half ?_ ?_ ?_
      · simp [hhalf_le]
      · intro i hi hihalf
        rw [List.getElem_take]
        have hi' : i < s.length := by
          simp [List.length_take] at hi
          omega
        simpa using hbefore i hi' hihalf
      · intro i hi hihalf
        simp [List.length_take] at hi
        omega
    have e3 : (s.drop bound).countP (fun e => decide (e < x)) = 0 := by
      rw [List.countP_eq_zero]
      intro a ha
      rcases List.mem_iff_getElem.1 ha with ⟨i, hi, hia⟩
      rw [List.getElem_drop] at hia
      have hi' : bound + i < s.length := by
        simp [List.length_drop] at hi
        omega
      simp only [decide_eq_true_eq]
      rw [← hia]
      exact not_lt.2 (le_of_lt (hafter (bound + i) hi' (by omega)))
    rw [e1, e2, e3]
    omega
  rw [binary_search_by_sorted x hw_sorted]
  by_cases hx : x ∈ s
  · rw [if_pos (hmem_w.1 hx)]
    simp only
    rw [if_pos hx, hcount]
  · rw [if_neg (fun hc => hx (hmem_w.2 hc))]
    simp only
    rw [if_neg hx, hcount]

/-- `exponential_search` on a sorted list, expressed through the number of
elements smaller than the probe. -/
theorem exponential_search_sorted {α : Type} [LinearOrder α] (s : List α) (x : α)
    (hs : s.Sorted (· < ·)) :
    exponential_search s x =
      if x ∈ s then .ok (s.countP (fun e => decide (e < x)))
      else .error (s.countP (fun e => decide (e < x))) := by
  rw [exponential_search]
  exact exponential_search_by_sorted s x hs

/-! ### Sorted-list toolbox -/

theorem dropWhile_eq_drop_length_takeWhile {α : Type} (p : α → Bool) (l : List α) :
    l.dropWhile p = l.drop ((l.takeWhile p).length) := by
  induction l with
  | nil => rfl
  | cons x t ih =>
    by_cases hx : p x
    · simp [List.dropWhile_cons, List.takeWhile_cons, hx, ih]
    · simp [List.dropWhile_cons, List.takeWhile_cons, hx]

theorem takeWhile_eq_take_length_takeWhile {α : Type} (p : α → Bool) (l : List α) :
    l.takeWhile p = l.take ((l.takeWhile p).length) :=
  List.prefix_iff_eq_take.1 (List.takeWhile_prefix p)

theorem sorted_tail {α : Type} {r : α → α → Prop} {x : α} {l : List α}
    (h : (x :: l).Sorted r) : l.Sorted r :=
  (List.sorted_cons.1 h).2

theorem sorted_mem_dropWhile_lt {α : Type} [LinearOrder α] {l : List α} {c : α}
    (hs : l.Sorted (· < ·)) :
    ∀ v ∈ l.dropWhile (fun e => decide (e < c)), c ≤ v := by
  induction l with
  | nil => intro v hv; simp [List.dropWhile] at hv
  | cons y t ih =>
    intro v hv
    by_cases hy : y < c
    · rw [List.dropWhile_cons_of_pos (by simpa using hy)] at hv
      exact ih (sorted_tail hs) v hv
    · rw [List.dropWhile_cons_of_neg (by simpa using hy)] at hv
      rcases List.mem_cons.1 hv with rfl | hvt
      · exact not_lt.1 hy
      · exact le_trans (not_lt.1 hy) (le_of_lt ((List.sorted_cons.1 hs).1 v hvt))

theorem sorted_countP_lt {α : Type} [LinearOrder α] {l : List α} (c : α)
    (hs : l.Sorted (· < ·)) :
    l.countP (fun e => decide (e < c)) = (l.takeWhile (fun e => decide (e < c))).length := by
  conv_lhs => rw [← List.takeWhile_append_dropWhile
    (p := fun e => decide (e < c)) (l := l)]
  rw [List.countP_append]
  have h1 : (l.takeWhile (fun e => decide (e < c))).countP (fun e => decide (e < c)) =
      (l.takeWhile (fun e => decide (e < c))).length := by
    refine List.countP_eq_length.2 ?_
    intro a ha
    exact List.mem_takeWhile_imp (p := fun e => decide (e < c)) (l := l) ha
  have h2 : (l.dropWhile (fun e => decide (e < c))).countP (fun e => decide (e < c)) = 0 :=
    List.countP_eq_zero.2 (fun a ha => by
      simpa using not_lt.2 (sorted_mem_dropWhile_lt hs a ha))
  rw [h1, h2]
  omega

/-- On a sorted list, `exponential_offset_ge` is exactly "drop the elements
smaller than the pivot". -/
theorem exponential_offset_ge_sorted {α : Type} [LinearOrder α] (s : List α) (x : α)
    (hs : s.Sorted (· < ·)) :
    exponential_offset_ge s x = s.dropWhile (fun e => decide (e < x)) := by
  rw [exponential_offset_ge, exponential_offset_ge_by,
    exponential_search_by_sorted s x hs]
  rw [dropWhile_eq_drop_length_takeWhile, ← sorted_countP_lt x hs]
  by_cases hx : x ∈ s <;> simp [hx]

/-- A strictly sorted list is determined by its members. -/
theorem sorted_eq_of_mem_iff {α : Type} [LinearOrder α] {l₁ l₂ : List α}
    (h₁ : l₁.Sorted (· < ·)) (h₂ : l₂.Sorted (· < ·))
    (hmem : ∀ x, x ∈ l₁ ↔ x ∈ l₂) : l₁ = l₂ := by
  have hn₁ : l₁.Nodup := h₁.nodup
  have hn₂ : l₂.Nodup := h₂.nodup
  have hperm : List.Perm l₁ l₂ := by
    rw [List.perm_iff_count]
    intro a
    by_cases ha : a ∈ l₁
    · rw [List.count_eq_one_of_mem hn₁ ha, List.count_eq_one_of_mem hn₂ ((hmem a).1 ha)]
    · rw [List.count_eq_zero_of_not_mem ha,
        List.count_eq_zero_of_not_mem (fun hc => ha ((hmem a).2 hc))]
  exact List.eq_of_perm_of_sorted hperm h₁ h₂

theorem sorted_getElem_lt_rank {α : Type} [LinearOrder α] {s : List α} {x : α}
    (hs : s.Sorted (· < ·)) {i : Nat} (hi : i < s.length)
    (hir : i < s.countP (fun e => decide (e < x))) : s[i] < x := by
  have hrank := sorted_countP_lt x hs
  have hlen : i < (s.takeWhile (fun e => decide (e < x))).length := by omega
  have hget := (List.takeWhile_prefix (l := s) (fun e => decide (e < x))).getElem hlen
  have hmem : (s.takeWhile (fun e => decide (e < x)))[i] ∈
      s.takeWhile (fun e => decide (e < x)) := List.getElem_mem hlen
  have hp := List.mem_takeWhile_imp hmem
  rw [hget] at hp
  simpa using hp

theorem sorted_le_getElem_of_rank_le {α : Type} [LinearOrder α] {s : List α} {x : α}
    (hs : s.Sorted (· < ·)) {i : Nat} (hi : i < s.length)
    (hir : s.countP (fun e => decide (e < x)) ≤ i) : x ≤ s[i] := by
  have hdw : s.dropWhile (fun e => decide (e < x)) =
      s.drop (s.countP (fun e => decide (e < x))) := by
    rw [dropWhile_eq_drop_length_takeWhile, ← sorted_countP_lt x hs]
  have hi' : s.countP (fun e => decide (e < x)) +
      (i - s.countP (fun e => decide (e < x))) < s.length := by omega
  have h1 := List.getElem_drop' s hi'
  have hj : i - s.countP (fun e => decide (e < x)) <
      (s.drop (s.countP (fun e => decide (e < x)))).length := by
    simp [List.length_drop]; omega
  have hmem : (s.drop (s.countP (fun e => decide (e < x))))[
      i - s.countP (fun e => decide (e < x))] ∈
      s.drop (s.countP (fun e => decide (e < x))) := List.getElem_mem hj
  have hmem' : (s.drop (s.countP (fun e => decide (e < x))))[
      i - s.countP (fun e => decide (e < x))] ∈
      s.dropWhile (fun e => decide (e < x)) := by
    rw [hdw]; exact hmem
  have hle := sorted_mem_dropWhile_lt hs _ hmem'
  have hfin : x ≤ s[s.countP (fun e => decide (e < x)) +
      (i - s.countP (fun e => decide (e < x)))] := by
    rw [h1]; exact hle
  have heq : s.countP (fun e => decide (e < x)) +
      (i - s.countP (fun e => decide (e < x))) = i := by omega
  simpa only [heq] using hfin

theorem insertIdx_eq_take_cons_drop {α : Type} (l : List α) (n : Nat) (x : α)
    (h : n ≤ l.length) :
    l.insertIdx n x = l.take n ++ x :: l.drop n := by
  induction l generalizing n with
  | nil =>
    simp only [List.length_nil, Nat.le_zero] at h
    subst h
    simp
  | cons y t ih =>
    cases n with
    | zero => simp
    | succ m =>
      rw [List.insertIdx_succ_cons]
      simp only [List.length_cons, Nat.succ_le_succ_iff] at h
      rw [ih m h]
      simp

theorem sorted_insertIdx_iff {α : Type} [LinearOrder α] {s : List α} {x : α}
    (hs : s.Sorted (· < ·)) (hx : x ∉ s) (i : Nat) :
    (i ≤ s.length ∧ (s.insertIdx i x).Sorted (· < ·)) ↔
      i = s.countP (fun e => decide (e < x)) := by
  have hrle : s.countP (fun e => decide (e < x)) ≤ s.length := List.countP_le_length _
  constructor
  · rintro ⟨hlen, hsorted⟩
    rw [insertIdx_eq_take_cons_drop s i x hlen] at hsorted
    have hsplit := List.pairwise_append.1 hsorted
    by_contra hne
    rcases Nat.lt_or_ge i (s.countP (fun e => decide (e < x))) with hlt | hge
    · -- inserted too early: x would sit right before s[i] < x
      have hi : i < s.length := by omega
      have hxi : s[i] < x := sorted_getElem_lt_rank hs hi hlt
      have hj : 0 < (s.drop i).length := by simp [List.length_drop]; omega
      have hget : s[i] = (s.drop i)[0] := by
        have hi0 : i + 0 < s.length := by omega
        have h00 := List.getElem_drop' s (j := 0) hi0
        simp only [Nat.add_zero] at h00
        exact h00
      have hmem : s[i] ∈ s.drop i := by
        rw [hget]; exact List.getElem_mem hj
      have : x < s[i] := (List.sorted_cons.1 hsplit.2.1).1 _ hmem
      exact absurd hxi (not_lt.2 (le_of_lt this))
    · -- inserted too late: s[rank] ≥ x would sit before x
      have hgt : s.countP (fun e => decide (e < x)) < i := by omega
      have hr : s.countP (fun e => decide (e < x)) < s.length := by omega
      have hxle : x ≤ s[s.countP (fun e => decide (e < x))] :=
        sorted_le_getElem_of_rank_le hs hr le_rfl
      have hxne : x ≠ s[s.countP (fun e => decide (e < x))] := by
        intro hcon
        exact hx (hcon ▸ List.getElem_mem hr)
      have hxlt : x < s[s.countP (fun e => decide (e < x))] :=
        lt_of_le_of_ne hxle hxne
      have hgetm : s[s.countP (fun e => decide (e < x))] ∈ s.take i := by
        have := List.getElem_take' s hr hgt
        rw [this]
        exact List.getElem_mem (by simp [List.length_take]; omega)
      have : s[s.countP (fun e => decide (e < x))] < x :=
        hsplit.2.2 _ hgetm x (List.mem_cons_self _ _)
      exact absurd hxlt (not_lt.2 (le_of_lt this))
  · rintro rfl
    refine ⟨hrle, ?_⟩
    rw [insertIdx_eq_take_cons_drop s _ x hrle]
    have htake : s.take (s.countP (fun e => decide (e < x))) =
        s.takeWhile (fun e => decide (e < x)) := by
      rw [sorted_countP_lt x hs, ← takeWhile_eq_take_length_takeWhile]
    have hdrop : s.drop (s.countP (fun e => decide (e < x))) =
        s.dropWhile (fun e => decide (e < x)) := by
      rw [sorted_countP_lt x hs, ← dropWhile_eq_drop_length_takeWhile]
    refine List.pairwise_append.mpr
      ⟨List.Pairwise.sublist (List.take_sublist _ _) hs, ?_, ?_⟩
    · refine List.pairwise_cons.mpr ⟨?_, ?_⟩
      · intro b hb
        rw [hdrop] at hb
        have hble := sorted_mem_dropWhile_lt hs b hb
        have hbne : x ≠ b := by
          intro hcon
          exact hx (hcon ▸ (List.dropWhile_suffix _).sublist.subset hb)
        exact lt_of_le_of_ne hble hbne
      · exact List.Pairwise.sublist (List.drop_sublist _ _) hs
    · intro a ha b hb
      rw [htake] at ha
      have halt : a < x := by simpa using List.mem_takeWhile_imp ha
      rcases List.mem_cons.1 hb with rfl | hb'
      · exact halt
      · rw [hdrop] at hb'
        exact lt_of_lt_of_le halt (sorted_mem_dropWhile_lt hs b hb')

theorem sorted_rank_of_getElem_eq {α : Type} [LinearOrder α] {s : List α} {x : α}
    (hs : s.Sorted (· < ·)) {i : Nat} (hi : i < s.length) (hix : s[i] = x) :
    s.countP (fun e => decide (e < x)) = i := by
  refine countP_eq_of_forall_split s _ i (le_of_lt hi) ?_ ?_
  · intro j hj hji
    simpa using hix ▸ sorted_getElem_lt hs hj hi hji
  · intro j hj hji
    rcases Nat.eq_or_lt_of_le hji with h | h
    · have : s[j] = x := h ▸ hix
      simp [this]
    · simp only [decide_eq_true_eq, not_lt]
      exact le_of_lt (hix ▸ sorted_getElem_lt hs hi hj h)

theorem sorted_rank_getElem {α : Type} [LinearOrder α] {s : List α} {x : α}
    (hs : s.Sorted (· < ·)) (hx : x ∈ s) :
    ∃ h : s.countP (fun e => decide (e < x)) < s.length,
      s[s.countP (fun e => decide (e < x))] = x := by
  rcases List.mem_iff_getElem.1 hx with ⟨i₀, hi₀, hix⟩
  have hr := sorted_rank_of_getElem_eq hs hi₀ hix
  rw [hr]
  exact ⟨hi₀, hix⟩

/-- C3: for every strictly increasing sequence `s` and element `x`,
`exponential_search(s, x)` returns `Ok i` if and only if `s[i] = x`, and
otherwise returns `Err i` where `i` is the unique index at which `x` could
be inserted while preserving the sorted order (uniqueness is expressed by
the iff: an index is returned in `Err` exactly when inserting there keeps
the list sorted). -/
theorem C3_exponential_search {α : Type} [LinearOrder α] (s : List α) (x : α)
    (hs : s.Sorted (· < ·)) :
    (∀ i : Nat, exponential_search s x = .ok i ↔ ∃ h : i < s.length, s[i] = x)
    ∧ (∀ i : Nat, exponential_search s x = .error i ↔
        x ∉ s ∧ i ≤ s.length ∧ (s.insertIdx i x).Sorted (· < ·)) := by
  have hmain := exponential_search_sorted s x hs
  by_cases hx : x ∈ s
  · rw [if_pos hx] at hmain
    obtain ⟨hrlt, hrx⟩ := sorted_rank_getElem hs hx
    constructor
    · intro i
      rw [hmain]
      simp only [Except.ok.injEq]
      constructor
      · rintro rfl
        exact ⟨hrlt, hrx⟩
      · rintro ⟨hi, hix⟩
        exact sorted_rank_of_getElem_eq hs hi hix
    · intro i
      rw [hmain]
      simp [hx]
  · rw [if_neg hx] at hmain
    constructor
    · intro i
      rw [hmain]
      constructor
      · intro h
        exact Except.noConfusion h
      · rintro ⟨hi, hix⟩
        exact absurd (hix ▸ List.getElem_mem hi) hx
    · intro i
      rw [hmain]
      simp only [Except.error.injEq]
      constructor
      · rintro rfl
        exact ⟨hx, (sorted_insertIdx_iff hs hx _).mpr rfl⟩
      · rintro ⟨-, h2, h3⟩
        exact ((sorted_insertIdx_iff hs hx i).mp ⟨h2, h3⟩).symm

/-- Witness for C3 at a concrete input. -/
theorem C3_exponential_search_witness :
    List.Sorted (· < ·) ([1, 3, 5] : List ℕ) ∧
    ((∀ i : Nat, exponential_search ([1, 3, 5] : List ℕ) 3 = .ok i ↔
        ∃ h : i < ([1, 3, 5] : List ℕ).length, ([1, 3, 5] : List ℕ)[i] = 3)
      ∧ (∀ i : Nat, exponential_search ([1, 3, 5] : List ℕ) 3 = .error i ↔
          3 ∉ ([1, 3, 5] : List ℕ) ∧ i ≤ ([1, 3, 5] : List ℕ).length ∧
            (([1, 3, 5] : List ℕ).insertIdx i 3).Sorted (· < ·))) :=
  ⟨by decide, C3_exponential_search [1, 3, 5] 3 (by decide)⟩

/-! ### The validating constructors (C6) -/

theorem is_sort_dedup_ok_iff {α : Type} [LinearOrder α] (l : List α) :
    is_sort_dedup l = .ok () ↔ l.Chain' (· < ·) := by
  induction l with
  | nil => simp [is_sort_dedup]
  | cons x t ih =>
    cases t with
    | nil => simp [is_sort_dedup]
    | cons y rest =>
      rcases ho : ordCmp x y with _ | _ | _
      · simp only [is_sort_dedup, ho]
        rw [ih, List.chain'_cons]
        simp [ordCmp_eq_lt.1 ho]
      · simp only [is_sort_dedup, ho]
        have : ¬ x < y := by
          have := ordCmp_eq_eq.1 ho
          subst this
          exact lt_irrefl x
        rw [List.chain'_cons]
        simp [this]
      · simp only [is_sort_dedup, ho]
        have : ¬ x < y := not_lt.2 (le_of_lt (ordCmp_eq_gt.1 ho))
        rw [List.chain'_cons]
        simp [this]

theorem is_sort_dedup_first_offender {α : Type} [LinearOrder α] (x y : α) (suf : List α) :
    ∀ pre : List α, (pre ++ [x]).Chain' (· < ·) → ¬ x < y →
    is_sort_dedup (pre ++ x :: y :: suf) =
      .error (if x = y then Error.NotDedup else Error.NotSort) := by
  intro pre
  induction pre with
  | nil =>
    intro _ hxy
    by_cases heq : x = y
    · simp only [List.nil_append, is_sort_dedup]
      rw [show ordCmp x y = .eq from ordCmp_eq_eq.2 heq]
      simp [heq]
    · have hgt : y < x := lt_of_le_of_ne (not_lt.1 hxy) (fun h => heq h.symm)
      simp only [List.nil_append, is_sort_dedup]
      rw [show ordCmp x y = .gt from ordCmp_eq_gt.2 hgt]
      simp [heq]
  | cons p pre' ih =>
    intro hpre hxy
    cases pre' with
    | nil =>
      have hpx : p < x := by simpa using hpre
      have hrest : is_sort_dedup (x :: y :: suf) =
          .error (if x = y then Error.NotDedup else Error.NotSort) :=
        ih (by simp) hxy
      simp only [List.cons_append, List.nil_append] at *
      rw [is_sort_dedup]
      rw [show ordCmp p x = .lt from ordCmp_eq_lt.2 hpx]
      exact hrest
    | cons q pre'' =>
      have hchain : ((p :: q :: pre'') ++ [x]).Chain' (· < ·) := hpre
      have hpq : p < q := by
        simpa using (List.chain'_cons.1 (by simpa using hchain)).1
      have htail : ((q :: pre'') ++ [x]).Chain' (· < ·) := by
        have := (List.chain'_cons.1 (by simpa using hchain)).2
        simpa using this
      have hrest := ih htail hxy
      simp only [List.cons_append] at *
      rw [is_sort_dedup]
      rw [show ordCmp p q = .lt from ordCmp_eq_lt.2 hpq]
      exact hrest

/-- C6: `Set::new` and `SetBuf::new` succeed exactly on strictly increasing
input, and on failure the error is decided by the first offending adjacent
pair: `NotDedup` when that pair is equal, `NotSort` when it is out of
order.  (These validators are the only functions of the embedding whose
result type carries the library error `Error`; every operator is a total
function.) -/
theorem C6_validating_constructors {α : Type} [LinearOrder α] (l : List α) :
    (Set.new l = .ok l ↔ l.Sorted (· < ·))
    ∧ (SetBuf.new l = .ok l ↔ l.Sorted (· < ·))
    ∧ (∀ pre suf (x y : α), l = pre ++ x :: y :: suf →
        (pre ++ [x]).Sorted (· < ·) → ¬ x < y →
        Set.new l = .error (if x = y then Error.NotDedup else Error.NotSort)
        ∧ SetBuf.new l = .error (if x = y then Error.NotDedup else Error.NotSort)) := by
  have hok : ∀ m : List α, is_sort_dedup m = .ok () ↔ m.Sorted (· < ·) := by
    intro m
    rw [is_sort_dedup_ok_iff, List.chain'_iff_pairwise]
    exact Iff.rfl
  refine ⟨?_, ?_, ?_⟩
  · rw [Set.new, ← hok l]
    cases h : is_sort_dedup l with
    | ok u => cases u; simp [Except.map, h]
    | error e => simp [Except.map, h]
  · rw [SetBuf.new, ← hok l]
    cases h : is_sort_dedup l with
    | ok u => cases u; simp [Except.map, h]
    | error e => simp [Except.map, h]
  · intro pre suf x y hl hpre hxy
    have hchain : (pre ++ [x]).Chain' (· < ·) := by
      rw [List.chain'_iff_pairwise]
      exact hpre
    have herr := is_sort_dedup_first_offender x y suf pre hchain hxy
    rw [← hl] at herr
    constructor
    · rw [Set.new, herr]; rfl
    · rw [SetBuf.new, herr]; rfl

/-- Witness for C6 at concrete inputs: `[2, 3, 3, 5]` fails with `NotDedup`
at its first offending pair `(3, 3)`. -/
theorem C6_validating_constructors_witness :
    (([2, 3, 3, 5] : List ℕ) = [2] ++ 3 :: 3 :: [5]) ∧
    (([2] ++ [3] : List ℕ)).Sorted (· < ·) ∧ ¬ (3 : ℕ) < 3 ∧
    (Set.new ([2, 3, 3, 5] : List ℕ) =
        .error (if (3 : ℕ) = 3 then Error.NotDedup else Error.NotSort)
      ∧ SetBuf.new ([2, 3, 3, 5] : List ℕ) =
        .error (if (3 : ℕ) = 3 then Error.NotDedup else Error.NotSort)) :=
  ⟨rfl, by decide, by decide,
    (C6_validating_constructors [2, 3, 3, 5]).2.2 [2] [5] 3 3 rfl (by decide) (by decide)⟩

/-! ### `Set::range` versus filtering (C7) -/

theorem sorted_dropWhile_dc {α : Type} [LinearOrder α] {s : List α} {p : α → Bool}
    (hs : s.Sorted (· < ·)) (hdc : ∀ a b : α, a ≤ b → p b = true → p a = true) :
    ∀ v ∈ s.dropWhile p, p v = false := by
  induction s with
  | nil => intro v hv; simp [List.dropWhile] at hv
  | cons y t ih =>
    intro v hv
    by_cases hy : p y
    · rw [List.dropWhile_cons_of_pos hy] at hv
      exact ih (sorted_tail hs) v hv
    · rw [List.dropWhile_cons_of_neg hy] at hv
      rcases List.mem_cons.1 hv with rfl | hvt
      · exact Bool.eq_false_iff.2 hy
      · refine Bool.eq_false_iff.2 (fun hcon => hy ?_)
        exact hdc y v (le_of_lt ((List.sorted_cons.1 hs).1 v hvt)) hcon

theorem sorted_countP_dc {α : Type} [LinearOrder α] {s : List α} {p : α → Bool}
    (hs : s.Sorted (· < ·)) (hdc : ∀ a b : α, a ≤ b → p b = true → p a = true) :
    s.countP p = (s.takeWhile p).length := by
  conv_lhs => rw [← List.takeWhile_append_dropWhile (p := p) (l := s)]
  rw [List.countP_append]
  have h1 : (s.takeWhile p).countP p = (s.takeWhile p).length :=
    List.countP_eq_length.2 (fun a ha => List.mem_takeWhile_imp ha)
  have h2 : (s.dropWhile p).countP p = 0 :=
    List.countP_eq_zero.2 (fun a ha => by
      simp [sorted_dropWhile_dc hs hdc a ha])
  rw [h1, h2]
  omega

theorem sorted_filter_dc {α : Type} [LinearOrder α] {s : List α} {q : α → Bool}
    (hs : s.Sorted (· < ·)) (hdc : ∀ a b : α, a ≤ b → q b = true → q a = true) :
    s.filter q = s.takeWhile q := by
  conv_lhs => rw [← List.takeWhile_append_dropWhile (p := q) (l := s)]
  rw [List.filter_append]
  have h1 : (s.takeWhile q).filter q = s.takeWhile q :=
    List.filter_eq_self.2 (fun a ha => List.mem_takeWhile_imp ha)
  have h2 : (s.dropWhile q).filter q = [] :=
    List.filter_eq_nil_iff.2 (fun a ha => by
      simp [sorted_dropWhile_dc hs hdc a ha])
  rw [h1, h2, List.append_nil]

theorem sorted_slice_eq_filter {α : Type} [LinearOrder α] {s : List α}
    (hs : s.Sorted (· < ·)) (p q : α → Bool)
    (hp : ∀ a b : α, a ≤ b → p b = true → p a = true)
    (hq : ∀ a b : α, a ≤ b → q b = true → q a = true)
    (hLR : s.countP p ≤ s.countP q) :
    (s.drop (s.countP p)).take (s.countP q - s.countP p) =
      s.filter (fun e => !(p e) && q e) := by
  have hTD := List.takeWhile_append_dropWhile (p := p) (l := s)
  have hTs : (s.takeWhile p).Sorted (· < ·) :=
    List.Pairwise.sublist (List.takeWhile_sublist _) hs
  have hDs : (s.dropWhile p).Sorted (· < ·) :=
    List.Pairwise.sublist (List.dropWhile_sublist _) hs
  -- dropping countP p elements drops exactly the p-prefix
  have hdrop : s.drop (s.countP p) = s.dropWhile p := by
    rw [sorted_countP_dc hs hp, ← dropWhile_eq_drop_length_takeWhile]
  -- every element of the p-prefix satisfies q (otherwise countP q < countP p)
  have hTq : (s.takeWhile p).countP q = (s.takeWhile p).length := by
    by_contra hcon
    have hlt : (s.takeWhile p).countP q < (s.takeWhile p).length :=
      lt_of_le_of_ne (List.countP_le_length _) hcon
    obtain ⟨a, haT, haq⟩ : ∃ a ∈ s.takeWhile p, ¬ q a = true := by
      by_contra hall
      push_neg at hall
      exact absurd (List.countP_eq_length.2 hall) (ne_of_lt hlt)
    have hD0 : (s.dropWhile p).countP q = 0 := by
      refine List.countP_eq_zero.2 (fun b hb => ?_)
      intro hqb
      -- a < b since a is in the prefix and b in the suffix of the sorted split
      have hab : a < b := by
        have := (List.pairwise_append.1 (hTD ▸ hs)).2.2
        exact this a haT b hb
      exact haq (hq a b (le_of_lt hab) hqb)
    have : s.countP q < s.countP p := by
      conv_lhs => rw [← hTD]
      conv_rhs => rw [sorted_countP_dc hs hp]
      rw [List.countP_append, hD0]
      omega
    omega
  have hcq : s.countP q = (s.takeWhile p).length + (s.dropWhile p).countP q := by
    conv_lhs => rw [← hTD]
    rw [List.countP_append, hTq]
  rw [hdrop]
  -- the (countP q - countP p) q-elements of the suffix form its q-prefix
  have hcql : (s.dropWhile p).countP q =
      ((s.dropWhile p).takeWhile q).length := sorted_countP_dc hDs hq
  have htake : (s.dropWhile p).take (s.countP q - s.countP p) =
      (s.dropWhile p).takeWhile q := by
    have harith : s.countP q - s.countP p = ((s.dropWhile p).takeWhile q).length := by
      rw [sorted_countP_dc hs hp]
      omega
    rw [harith, ← takeWhile_eq_take_length_takeWhile]
  rw [htake]
  -- the right-hand side: filter both = takeWhile q of the p-suffix
  have hfb : s.filter (fun e => !(p e) && q e) = (s.filter (fun e => !(p e))).filter q := by
    rw [List.filter_filter]
    refine List.filter_congr (fun a _ => ?_)
    rw [Bool.and_comm]
  have hfp : s.filter (fun e => !(p e)) = s.dropWhile p := by
    conv_lhs => rw [← hTD]
    rw [List.filter_append]
    have h1 : (s.takeWhile p).filter (fun e => !(p e)) = [] :=
      List.filter_eq_nil_iff.2 (fun a ha => by
        simp [List.mem_takeWhile_imp ha])
    have h2 : (s.dropWhile p).filter (fun e => !(p e)) = s.dropWhile p :=
      List.filter_eq_self.2 (fun a ha => by
        simp [sorted_dropWhile_dc hs hp a ha])
    rw [h1, h2, List.nil_append]
  rw [hfb, hfp, sorted_filter_dc hDs hq]

theorem sorted_countP_le_eq {α : Type} [LinearOrder α] {s : List α} (x : α)
    (hs : s.Sorted (· < ·)) :
    s.countP (fun e => decide (e ≤ x)) =
      s.countP (fun e => decide (e < x)) + (if x ∈ s then 1 else 0) := by
  induction s with
  | nil => simp
  | cons y t ih =>
    have hyt := List.sorted_cons.1 hs
    rcases lt_trichotomy y x with h | h | h
    · have hyx : ¬ x = y := fun hc => absurd h (hc ▸ lt_irrefl x)
      rw [List.countP_cons_of_pos _ _ (by simpa using le_of_lt h),
        List.countP_cons_of_pos _ _ (by simpa using h), ih hyt.2]
      simp only [List.mem_cons, hyx, false_or]
      omega
    · subst h
      have ht0 : ∀ e ∈ t, ¬ e ≤ y := fun e he => not_le.2 (hyt.1 e he)
      have hcle : t.countP (fun e => decide (e ≤ y)) = 0 :=
        List.countP_eq_zero.2 (fun e he => by simpa using ht0 e he)
      have hclt : t.countP (fun e => decide (e < y)) = 0 :=
        List.countP_eq_zero.2 (fun e he => by
          simpa using not_lt.2 (le_of_lt (hyt.1 e he)))
      rw [List.countP_cons_of_pos _ _ (by simp),
        List.countP_cons_of_neg _ _ (by simp), hcle, hclt]
      simp
    · have hyx : ¬ x = y := fun hc => absurd h (hc ▸ lt_irrefl x)
      rw [List.countP_cons_of_neg _ _ (by simpa using not_le.2 h),
        List.countP_cons_of_neg _ _ (by simpa using not_lt.2 (le_of_lt h)), ih hyt.2]
      simp only [List.mem_cons, hyx, false_or]

theorem countP_ext {α : Type} (p q : α → Bool) (l : List α) (h : ∀ a, p a = q a) :
    l.countP p = l.countP q := by
  induction l with
  | nil => simp
  | cons y t ih => rw [List.countP_cons, List.countP_cons, ih, h]

theorem satLower_mono {α : Type} [LinearOrder α] (lo : Bound α) :
    ∀ a b : α, a ≤ b → lo.satLower a = true → lo.satLower b = true := by
  intro a b hab
  cases lo with
  | Included x => simp only [Bound.satLower, decide_eq_true_eq]; exact fun h => le_trans h hab
  | Excluded x => simp only [Bound.satLower, decide_eq_true_eq]; exact fun h => lt_of_lt_of_le h hab
  | Unbounded => simp [Bound.satLower]

theorem satUpper_dc {α : Type} [LinearOrder α] (hi : Bound α) :
    ∀ a b : α, a ≤ b → hi.satUpper b = true → hi.satUpper a = true := by
  intro a b hab
  cases hi with
  | Included x => simp only [Bound.satUpper, decide_eq_true_eq]; exact fun h => le_trans hab h
  | Excluded x => simp only [Bound.satUpper, decide_eq_true_eq]; exact fun h => lt_of_le_of_lt hab h
  | Unbounded => simp [Bound.satUpper]

theorem rangeLeft_eq {α : Type} [LinearOrder α] (s : List α) (lo : Bound α)
    (hs : s.Sorted (· < ·)) :
    Set.rangeLeft s lo = s.countP (fun e => !(lo.satLower e)) := by
  cases lo with
  | Included x =>
    have hpt : ∀ a : α, (decide (a < x)) = !((Bound.Included x).satLower a) := by
      intro a
      by_cases hax : x ≤ a
      · simp [Bound.satLower, hax, not_lt.2 hax]
      · simp [Bound.satLower, hax, not_le.1 hax]
    rw [Set.rangeLeft, exponential_search_by_sorted s x hs]
    by_cases hx : x ∈ s
    · rw [if_pos hx]
      exact countP_ext _ _ _ hpt
    · rw [if_neg hx]
      exact countP_ext _ _ _ hpt
  | Excluded x =>
    have hpt : ∀ a : α, (decide (a ≤ x)) = !((Bound.Excluded x).satLower a) := by
      intro a
      by_cases hax : x < a
      · simp [Bound.satLower, hax, not_le.2 hax]
      · simp [Bound.satLower, hax, not_lt.1 hax]
    rw [Set.rangeLeft, exponential_search_by_sorted s x hs]
    by_cases hx : x ∈ s
    · rw [if_pos hx]
      show s.countP (fun e => decide (e < x)) + 1 = _
      rw [← countP_ext _ _ s hpt, sorted_countP_le_eq x hs]
      simp [hx]
    · rw [if_neg hx]
      show s.countP (fun e => decide (e < x)) = _
      rw [← countP_ext _ _ s hpt, sorted_countP_le_eq x hs]
      simp [hx]
  | Unbounded =>
    rw [Set.rangeLeft]
    symm
    refine List.countP_eq_zero.2 ?_
    intro a _
    simp [Bound.satLower]

theorem rangeRight_eq {α : Type} [LinearOrder α] (s : List α) (hi : Bound α)
    (hs : s.Sorted (· < ·)) :
    Set.rangeRight s hi = s.countP (fun e => hi.satUpper e) := by
  cases hi with
  | Included x =>
    have hpt : ∀ a : α, (decide (a ≤ x)) = (Bound.Included x).satUpper a := by
      intro a; simp [Bound.satUpper]
    rw [Set.rangeRight, exponential_search_by_sorted s x hs]
    by_cases hx : x ∈ s
    · rw [if_pos hx]
      show s.countP (fun e => decide (e < x)) + 1 = _
      rw [← countP_ext _ _ s hpt, sorted_countP_le_eq x hs]
      simp [hx]
    · rw [if_neg hx]
      show s.countP (fun e => decide (e < x)) = _
      rw [← countP_ext _ _ s hpt, sorted_countP_le_eq x hs]
      simp [hx]
  | Excluded x =>
    have hpt : ∀ a : α, (decide (a < x)) = (Bound.Excluded x).satUpper a := by
      intro a; simp [Bound.satUpper]
    rw [Set.rangeRight, exponential_search_by_sorted s x hs]
    by_cases hx : x ∈ s
    · rw [if_pos hx]
      exact countP_ext _ _ _ hpt
    · rw [if_neg hx]
      exact countP_ext _ _ _ hpt
  | Unbounded =>
    rw [Set.rangeRight]
    symm
    refine List.countP_eq_length.2 ?_
    intro a _
    simp [Bound.satUpper]

/-- C7 counterexample: the claim quantifies over *every* range, but on
`s = [1, 2, 3]` and the inverted range `(Included 3, Excluded 1)` the Rust
code panics on the slice indexing (embedded as `none`) instead of
returning the (empty) filtered sub-view. -/
theorem C7_range_filter_counterexample :
    Sdset.Set.range ([1, 2, 3] : List ℕ) (Bound.Included 3) (Bound.Excluded 1) ≠
      some (([1, 2, 3] : List ℕ).filter
        (fun e => (Bound.Included (3 : ℕ)).satLower e &&
          (Bound.Excluded (1 : ℕ)).satUpper e)) := by
  decide

/-- C7 (amended): for every valid ordered set `s` and every range given by
inclusive, exclusive or unbounded endpoints *on which the range indexing
does not panic* (embedded: `Set.range` returns `some`), the result is
exactly `s` filtered by the bounds of the range. -/
theorem C7_range_filter {α : Type} [LinearOrder α] (s : List α) (lo hi : Bound α)
    (out : List α) (hs : s.Sorted (· < ·))
    (h : Sdset.Set.range s lo hi = some out) :
    out = s.filter (fun e => lo.satLower e && hi.satUpper e) := by
  rw [Sdset.Set.range] at h
  simp only [rangeLeft_eq s lo hs, rangeRight_eq s hi hs] at h
  split at h
  · rename_i hcond
    have hout := Option.some.inj h
    have hp : ∀ a b : α, a ≤ b → (!(lo.satLower b)) = true → (!(lo.satLower a)) = true := by
      intro a b hab hb
      by_cases ha : lo.satLower a = true
      · exact absurd (satLower_mono lo a b hab ha) (by simpa using hb)
      · simpa using ha
    have hslice := sorted_slice_eq_filter hs
      (fun e => !(lo.satLower e)) (fun e => hi.satUpper e) hp (satUpper_dc hi) hcond.1
    rw [hslice] at hout
    rw [← hout]
    refine List.filter_congr (fun a _ => ?_)
    simp
  · exact Option.noConfusion h

/-- Witness for the amended C7 at a concrete input. -/
theorem C7_range_filter_witness :
    List.Sorted (· < ·) ([1, 2, 4, 6, 7] : List ℕ) ∧
    Sdset.Set.range ([1, 2, 4, 6, 7] : List ℕ) (Bound.Included 2) (Bound.Included 6) =
      some [2, 4, 6] ∧
    ([2, 4, 6] : List ℕ) = ([1, 2, 4, 6, 7] : List ℕ).filter
      (fun e => (Bound.Included (2 : ℕ)).satLower e && (Bound.Included (6 : ℕ)).satUpper e) :=
  ⟨by decide, by decide,
    C7_range_filter [1, 2, 4, 6, 7] (Bound.Included 2) (Bound.Included 6) [2, 4, 6]
      (by decide) (by decide)⟩

/-! ### Collector morphisms

Each operator loop is parametric in the output collector and never
branches on it, so any map between collectors that commutes with the
emission functions commutes with the whole run.  This gives both the
accumulator-append law for the `Vec` collector and the `Counter`/`Vec`
relation of C8. -/

theorem duoUnionGo_morph {α σ σ' : Type} [LinearOrder α]
    (ext : σ → List α → σ) (ext' : σ' → List α → σ') (h : σ → σ')
    (hc : ∀ s l, h (ext s l) = ext' (h s) l) :
    ∀ fuel (a b : List α) (out : σ),
      h (duo.Union.extendCollectionGo ext fuel a b out) =
        duo.Union.extendCollectionGo ext' fuel a b (h out) := by
  intro fuel
  induction fuel with
  | zero => intro a b out; simp [duo.Union.extendCollectionGo]
  | succ fuel ih =>
    intro a b out
    cases a with
    | nil => simp [duo.Union.extendCollectionGo, hc]
    | cons x a' =>
      cases b with
      | nil => simp [duo.Union.extendCollectionGo, hc]
      | cons y b' =>
        rcases ho : ordCmp x y with _ | _ | _ <;>
          simp only [duo.Union.extendCollectionGo, ho] <;>
          rw [ih, hc]

theorem duoIntersectionGo_morph {α σ σ' : Type} [LinearOrder α]
    (ext : σ → List α → σ) (ext' : σ' → List α → σ') (h : σ → σ')
    (hc : ∀ s l, h (ext s l) = ext' (h s) l) :
    ∀ fuel (a b : List α) (out : σ),
      h (duo.Intersection.extendCollectionGo ext fuel a b out) =
        duo.Intersection.extendCollectionGo ext' fuel a b (h out) := by
  intro fuel
  induction fuel with
  | zero => intro a b out; simp [duo.Intersection.extendCollectionGo]
  | succ fuel ih =>
    intro a b out
    cases a with
    | nil => simp [duo.Intersection.extendCollectionGo]
    | cons x a' =>
      cases b with
      | nil => simp [duo.Intersection.extendCollectionGo]
      | cons y b' =>
        by_cases hxy : x = y
        · simp only [duo.Intersection.extendCollectionGo, if_pos hxy]
          rw [ih, hc]
        · by_cases hlt : x < y
          · simp only [duo.Intersection.extendCollectionGo, if_neg hxy, if_pos hlt]
            rw [ih]
          · simp only [duo.Intersection.extendCollectionGo, if_neg hxy, if_neg hlt]
            rw [ih]

theorem duoDifferenceGo_morph {α σ σ' : Type} [LinearOrder α]
    (ext : σ → List α → σ) (ext' : σ' → List α → σ') (h : σ → σ')
    (hc : ∀ s l, h (ext s l) = ext' (h s) l) :
    ∀ fuel (a b : List α) (out : σ),
      h (duo.Difference.extendCollectionGo ext fuel a b out) =
        duo.Difference.extendCollectionGo ext' fuel a b (h out) := by
  intro fuel
  induction fuel with
  | zero => intro a b out; simp [duo.Difference.extendCollectionGo]
  | succ fuel ih =>
    intro a b out
    cases a with
    | nil => simp [duo.Difference.extendCollectionGo]
    | cons x a' =>
      simp only [duo.Difference.extendCollectionGo, List.head?_cons]
      cases hb : (exponential_offset_ge b x).head? with
      | none => simp [hc]
      | some mn =>
        by_cases hmx : mn = x
        · simp only [if_pos hmx]
          rw [ih]
        · simp only [if_neg hmx]
          rw [ih, hc]

theorem duoSymmetricDifferenceGo_morph {α σ σ' : Type} [LinearOrder α]
    (ext : σ → List α → σ) (ext' : σ' → List α → σ') (h : σ → σ')
    (hc : ∀ s l, h (ext s l) = ext' (h s) l) :
    ∀ fuel (a b : List α) (out : σ),
      h (duo.SymmetricDifference.extendCollectionGo ext fuel a b out) =
        duo.SymmetricDifference.extendCollectionGo ext' fuel a b (h out) := by
  intro fuel
  induction fuel with
  | zero => intro a b out; simp [duo.SymmetricDifference.extendCollectionGo]
  | succ fuel ih =>
    intro a b out
    cases a with
    | nil =>
      cases b <;> simp [duo.SymmetricDifference.extendCollectionGo, hc]
    | cons x a' =>
      cases b with
      | nil => simp [duo.SymmetricDifference.extendCollectionGo, hc]
      | cons y b' =>
        rcases ho : ordCmp x y with _ | _ | _ <;>
          simp only [duo.SymmetricDifference.extendCollectionGo, List.head?_cons, ho]
        · rw [ih, hc]
        · rw [ih]
        · rw [ih, hc]

theorem duoDifferenceByKeyGo_morph {T U K σ σ' : Type} [LinearOrder K]
    (f : T → K) (g : U → K)
    (ext : σ → List T → σ) (ext' : σ' → List T → σ') (h : σ → σ')
    (hc : ∀ s l, h (ext s l) = ext' (h s) l) :
    ∀ fuel (a : List T) (b : List U) (out : σ),
      h (duo.DifferenceByKey.extendCollectionGo f g ext fuel a b out) =
        duo.DifferenceByKey.extendCollectionGo f g ext' fuel a b (h out) := by
  intro fuel
  induction fuel with
  | zero => intro a b out; simp [duo.DifferenceByKey.extendCollectionGo]
  | succ fuel ih =>
    intro a b out
    cases a with
    | nil => simp [duo.DifferenceByKey.extendCollectionGo]
    | cons x a' =>
      simp only [duo.DifferenceByKey.extendCollectionGo, List.head?_cons, Option.map_some']
      cases hb : ((exponential_offset_ge_by_key b (f x) g).head?.map g) with
      | none => simp [hc]
      | some mn =>
        by_cases hmx : mn = f x
        · simp only [if_pos hmx]
          rw [ih]
        · simp only [if_neg hmx]
          rw [ih, hc]

theorem multiUnionGo_morph {α σ σ' : Type} [LinearOrder α]
    (ext : σ → List α → σ) (push : σ → α → σ)
    (ext' : σ' → List α → σ') (push' : σ' → α → σ') (h : σ → σ')
    (hc : ∀ s l, h (ext s l) = ext' (h s) l)
    (hcp : ∀ s x, h (push s x) = push' (h s) x) :
    ∀ fuel (slices : List (List α)) (out : σ),
      h (multi.Union.extendCollectionGo ext push fuel slices out) =
        multi.Union.extendCollectionGo ext' push' fuel slices (h out) := by
  intro fuel
  induction fuel with
  | zero => intro slices out; simp [multi.Union.extendCollectionGo]
  | succ fuel ih =>
    intro slices out
    cases hm : two_minimums slices with
    | Nothing => simp [multi.Union.extendCollectionGo, hm]
    | One p =>
      obtain ⟨i, v⟩ := p
      simp [multi.Union.extendCollectionGo, hm, hc]
    | Two p q =>
      obtain ⟨i, fv⟩ := p
      obtain ⟨j, sv⟩ := q
      by_cases hfs : fv ≠ sv
      · simp only [multi.Union.extendCollectionGo, hm, if_pos hfs]
        rw [ih, hcp, hc]
      · simp only [multi.Union.extendCollectionGo, hm, if_neg hfs]
        rw [ih, hcp]

theorem multiIntersectionGo_morph {α σ σ' : Type} [LinearOrder α]
    (push : σ → α → σ) (push' : σ' → α → σ') (h : σ → σ')
    (hcp : ∀ s x, h (push s x) = push' (h s) x) :
    ∀ fuel (slices : List (List α)) (out : σ),
      h (multi.Intersection.extendCollectionGo push fuel slices out) =
        multi.Intersection.extendCollectionGo push' fuel slices (h out) := by
  intro fuel
  induction fuel with
  | zero => intro slices out; simp [multi.Intersection.extendCollectionGo]
  | succ fuel ih =>
    intro slices out
    cases ht : multi.test_equality slices with
    | none => simp [multi.Intersection.extendCollectionGo, ht]
    | some eq =>
      cases eq with
      | Equal x =>
        simp only [multi.Intersection.extendCollectionGo, ht]
        by_cases hemp : (slices.map (List.drop 1)).any List.isEmpty
        · simp [hemp, hcp]
        · simp [hemp, hcp, ih]
      | NotEqual mx =>
        simp only [multi.Intersection.extendCollectionGo, ht]
        by_cases hemp : (slices.map (fun s => exponential_offset_ge s mx)).any List.isEmpty
        · simp [hemp]
        · simp [hemp, ih]

theorem multiSymmetricDifferenceGo_morph {α σ σ' : Type} [LinearOrder α]
    (ext : σ → List α → σ) (push : σ → α → σ)
    (ext' : σ' → List α → σ') (push' : σ' → α → σ') (h : σ → σ')
    (hc : ∀ s l, h (ext s l) = ext' (h s) l)
    (hcp : ∀ s x, h (push s x) = push' (h s) x) :
    ∀ fuel (slices : List (List α)) (out : σ),
      h (multi.SymmetricDifference.extendCollectionGo ext push fuel slices out) =
        multi.SymmetricDifference.extendCollectionGo ext' push' fuel slices (h out) := by
  intro fuel
  induction fuel with
  | zero => intro slices out; simp [multi.SymmetricDifference.extendCollectionGo]
  | succ fuel ih =>
    intro slices out
    cases hm : two_minimums slices with
    | Nothing => simp [multi.SymmetricDifference.extendCollectionGo, hm]
    | One p =>
      obtain ⟨i, v⟩ := p
      simp [multi.SymmetricDifference.extendCollectionGo, hm, hc]
    | Two p q =>
      obtain ⟨i, fv⟩ := p
      obtain ⟨j, sv⟩ := q
      by_cases hfs : fv ≠ sv
      · simp only [multi.SymmetricDifference.extendCollectionGo, hm, if_pos hfs]
        rw [ih, hc]
      · simp only [multi.SymmetricDifference.extendCollectionGo, hm, if_neg hfs]
        by_cases hodd : slices.countP (fun sl => decide (sl.head? = some fv)) % 2 ≠ 0
        · simp only [if_pos hodd]
          rw [ih, hcp]
        · simp only [if_neg hodd]
          rw [ih]

theorem multiDifferenceGo_morph {α σ σ' : Type} [LinearOrder α]
    (ext : σ → List α → σ) (ext' : σ' → List α → σ') (h : σ → σ')
    (hc : ∀ s l, h (ext s l) = ext' (h s) l) :
    ∀ fuel (base : List α) (others : List (List α)) (out : σ),
      h (multi.Difference.extendCollectionGo ext fuel base others out) =
        multi.Difference.extendCollectionGo ext' fuel base others (h out) := by
  intro fuel
  induction fuel with
  | zero => intro base others out; simp [multi.Difference.extendCollectionGo]
  | succ fuel ih =>
    intro base others out
    cases base with
    | nil => simp [multi.Difference.extendCollectionGo]
    | cons x base' =>
      simp only [multi.Difference.extendCollectionGo, List.head?_cons]
      cases hmn : (((others.map (fun o => exponential_offset_ge_maybe o x)).filter
          (fun o => !o.isEmpty)).filterMap List.head?).min? with
      | none => simp [hc]
      | some mn =>
        by_cases hmx : mn = x
        · simp only [if_pos hmx]
          rw [ih]
        · simp only [if_neg hmx]
          rw [ih, hc]

theorem duoUnionGo_vec_append {α : Type} [LinearOrder α]
    (fuel : Nat) (a b out : List α) :
    duo.Union.extendCollectionGo Vec.extend_from_slice fuel a b out =
      out ++ duo.Union.extendCollectionGo Vec.extend_from_slice fuel a b [] := by
  have h := duoUnionGo_morph Vec.extend_from_slice Vec.extend_from_slice
    (fun z => out ++ z) (fun s l => by simp [Vec.extend_from_slice]) fuel a b []
  simpa [Vec.extend_from_slice] using h.symm

theorem duoIntersectionGo_vec_append {α : Type} [LinearOrder α]
    (fuel : Nat) (a b out : List α) :
    duo.Intersection.extendCollectionGo Vec.extend_from_slice fuel a b out =
      out ++ duo.Intersection.extendCollectionGo Vec.extend_from_slice fuel a b [] := by
  have h := duoIntersectionGo_morph Vec.extend_from_slice Vec.extend_from_slice
    (fun z => out ++ z) (fun s l => by simp [Vec.extend_from_slice]) fuel a b []
  simpa [Vec.extend_from_slice] using h.symm

theorem duoDifferenceGo_vec_append {α : Type} [LinearOrder α]
    (fuel : Nat) (a b out : List α) :
    duo.Difference.extendCollectionGo Vec.extend_from_slice fuel a b out =
      out ++ duo.Difference.extendCollectionGo Vec.extend_from_slice fuel a b [] := by
  have h := duoDifferenceGo_morph Vec.extend_from_slice Vec.extend_from_slice
    (fun z => out ++ z) (fun s l => by simp [Vec.extend_from_slice]) fuel a b []
  simpa [Vec.extend_from_slice] using h.symm

theorem duoSymmetricDifferenceGo_vec_append {α : Type} [LinearOrder α]
    (fuel : Nat) (a b out : List α) :
    duo.SymmetricDifference.extendCollectionGo Vec.extend_from_slice fuel a b out =
      out ++ duo.SymmetricDifference.extendCollectionGo Vec.extend_from_slice fuel a b [] := by
  have h := duoSymmetricDifferenceGo_morph Vec.extend_from_slice Vec.extend_from_slice
    (fun z => out ++ z) (fun s l => by simp [Vec.extend_from_slice]) fuel a b []
  simpa [Vec.extend_from_slice] using h.symm

theorem duoDifferenceByKeyGo_vec_append {T U K : Type} [LinearOrder K]
    (f : T → K) (g : U → K) (fuel : Nat) (a : List T) (b : List U) (out : List T) :
    duo.DifferenceByKey.extendCollectionGo f g Vec.extend_from_slice fuel a b out =
      out ++ duo.DifferenceByKey.extendCollectionGo f g Vec.extend_from_slice fuel a b [] := by
  have h := duoDifferenceByKeyGo_morph f g Vec.extend_from_slice Vec.extend_from_slice
    (fun z => out ++ z) (fun s l => by simp [Vec.extend_from_slice]) fuel a b []
  simpa [Vec.extend_from_slice] using h.symm

theorem multiUnionGo_vec_append {α : Type} [LinearOrder α]
    (fuel : Nat) (slices : List (List α)) (out : List α) :
    multi.Union.extendCollectionGo Vec.extend_from_slice Vec.push fuel slices out =
      out ++ multi.Union.extendCollectionGo Vec.extend_from_slice Vec.push fuel slices [] := by
  have h := multiUnionGo_morph Vec.extend_from_slice Vec.push
    Vec.extend_from_slice Vec.push (fun z => out ++ z)
    (fun s l => by simp [Vec.extend_from_slice])
    (fun s x => by simp [Vec.push]) fuel slices []
  simpa [Vec.extend_from_slice, Vec.push] using h.symm

theorem multiIntersectionGo_vec_append {α : Type} [LinearOrder α]
    (fuel : Nat) (slices : List (List α)) (out : List α) :
    multi.Intersection.extendCollectionGo Vec.push fuel slices out =
      out ++ multi.Intersection.extendCollectionGo Vec.push fuel slices [] := by
  have h := multiIntersectionGo_morph Vec.push Vec.push (fun z => out ++ z)
    (fun s x => by simp [Vec.push]) fuel slices []
  simpa [Vec.push] using h.symm

theorem multiSymmetricDifferenceGo_vec_append {α : Type} [LinearOrder α]
    (fuel : Nat) (slices : List (List α)) (out : List α) :
    multi.SymmetricDifference.extendCollectionGo Vec.extend_from_slice Vec.push fuel slices out =
      out ++ multi.SymmetricDifference.extendCollectionGo Vec.extend_from_slice Vec.push
        fuel slices [] := by
  have h := multiSymmetricDifferenceGo_morph Vec.extend_from_slice Vec.push
    Vec.extend_from_slice Vec.push (fun z => out ++ z)
    (fun s l => by simp [Vec.extend_from_slice])
    (fun s x => by simp [Vec.push]) fuel slices []
  simpa [Vec.extend_from_slice, Vec.push] using h.symm

theorem multiDifferenceGo_vec_append {α : Type} [LinearOrder α]
    (fuel : Nat) (base : List α) (others : List (List α)) (out : List α) :
    multi.Difference.extendCollectionGo Vec.extend_from_slice fuel base others out =
      out ++ multi.Difference.extendCollectionGo Vec.extend_from_slice fuel base others [] := by
  have h := multiDifferenceGo_morph Vec.extend_from_slice Vec.extend_from_slice
    (fun z => out ++ z) (fun s l => by simp [Vec.extend_from_slice]) fuel base others []
  simpa [Vec.extend_from_slice] using h.symm

/-! ### Facts about the equal-run offset (`zip`/`takeWhile`) -/

theorem sorted_head_le {α : Type} [LinearOrder α] {y : α} {t : List α}
    (h : (y :: t).Sorted (· < ·)) : ∀ v ∈ y :: t, y ≤ v := by
  intro v hv
  rcases List.mem_cons.1 hv with rfl | hvt
  · exact le_rfl
  · exact le_of_lt ((List.sorted_cons.1 h).1 v hvt)

theorem zip_takeWhile_take_eq {α : Type} [DecidableEq α] :
    ∀ a b : List α,
      a.take (((a.zip b).takeWhile (fun q => decide (q.1 = q.2))).length) =
        b.take (((a.zip b).takeWhile (fun q => decide (q.1 = q.2))).length) := by
  intro a
  induction a with
  | nil => intro b; simp
  | cons x a' ih =>
    intro b
    cases b with
    | nil => simp
    | cons y b' =>
      by_cases hxy : x = y
      · rw [List.zip_cons_cons, List.takeWhile_cons_of_pos (by simpa using hxy)]
        simp only [List.length_cons, List.take_succ_cons]
        rw [ih b', hxy]
      · rw [List.zip_cons_cons, List.takeWhile_cons_of_neg (by simpa using hxy)]
        simp

theorem zip_takeWhile_len_pos {α : Type} [DecidableEq α] (x : α) (a' b' : List α) :
    1 ≤ (((x :: a').zip (x :: b')).takeWhile (fun q => decide (q.1 = q.2))).length := by
  rw [List.zip_cons_cons, List.takeWhile_cons_of_pos (by simp)]
  simp

theorem zip_takeWhile_len_le {α : Type} [DecidableEq α] (a b : List α) :
    ((a.zip b).takeWhile (fun q => decide (q.1 = q.2))).length ≤ a.length ∧
    ((a.zip b).takeWhile (fun q => decide (q.1 = q.2))).length ≤ b.length := by
  have h1 : ((a.zip b).takeWhile (fun q => decide (q.1 = q.2))).length ≤ (a.zip b).length :=
    (List.takeWhile_sublist _).length_le
  rw [List.length_zip] at h1
  omega

/-! ### Duo union: specification (sorted output, membership) -/

theorem duoUnionGo_spec {α : Type} [LinearOrder α] :
    ∀ fuel (a b : List α), a.length + b.length < fuel →
      a.Sorted (· < ·) → b.Sorted (· < ·) →
      (duo.Union.extendCollectionGo Vec.extend_from_slice fuel a b []).Sorted (· < ·) ∧
      (∀ z, z ∈ duo.Union.extendCollectionGo Vec.extend_from_slice fuel a b [] ↔
        z ∈ a ∨ z ∈ b) := by
  intro fuel
  induction fuel with
  | zero => intro a b hlen; omega
  | succ fuel ih =>
    intro a b hlen ha hb
    cases a with
    | nil =>
      constructor
      · simpa [duo.Union.extendCollectionGo, Vec.extend_from_slice] using hb
      · intro z; simp [duo.Union.extendCollectionGo, Vec.extend_from_slice]
    | cons x a' =>
      cases b with
      | nil =>
        constructor
        · simpa [duo.Union.extendCollectionGo, Vec.extend_from_slice] using ha
        · intro z; simp [duo.Union.extendCollectionGo, Vec.extend_from_slice]
      | cons y b' =>
        rcases ho : ordCmp x y with _ | _ | _
        · -- x < y : emit the prefix of a below y
          have hxy : x < y := ordCmp_eq_lt.1 ho
          have hrw : duo.Union.extendCollectionGo Vec.extend_from_slice (fuel + 1)
              (x :: a') (y :: b') [] =
              (x :: a').takeWhile (fun e => decide (e < y)) ++
                duo.Union.extendCollectionGo Vec.extend_from_slice fuel
                  ((x :: a').dropWhile (fun e => decide (e < y))) (y :: b') [] := by
            simp only [duo.Union.extendCollectionGo, ho]
            rw [← takeWhile_eq_take_length_takeWhile, ← dropWhile_eq_drop_length_takeWhile,
              duoUnionGo_vec_append]
            simp [Vec.extend_from_slice]
          have hdlen : ((x :: a').dropWhile (fun e => decide (e < y))).length ≤
              a'.length := by
            rw [List.dropWhile_cons_of_pos (by simpa using hxy)]
            exact (List.dropWhile_sublist _).length_le
          have ih' := ih ((x :: a').dropWhile (fun e => decide (e < y))) (y :: b')
            (by simp only [List.length_cons] at hlen ⊢; omega)
            (List.Pairwise.sublist (List.dropWhile_sublist _) ha) hb
          rw [hrw]
          constructor
          · refine List.pairwise_append.mpr
              ⟨List.Pairwise.sublist (List.takeWhile_sublist _) ha, ih'.1, ?_⟩
            intro u hu v hv
            have hult : u < y := by simpa using List.mem_takeWhile_imp hu
            rcases (ih'.2 v).1 hv with hv1 | hv2
            · exact lt_of_lt_of_le hult (sorted_mem_dropWhile_lt ha v hv1)
            · exact lt_of_lt_of_le hult (sorted_head_le hb v hv2)
          · intro z
            rw [List.mem_append, ih'.2]
            have hsplit : z ∈ (x :: a') ↔
                z ∈ (x :: a').takeWhile (fun e => decide (e < y)) ∨
                z ∈ (x :: a').dropWhile (fun e => decide (e < y)) := by
              conv_lhs => rw [← List.takeWhile_append_dropWhile
                (p := fun e => decide (e < y)) (l := x :: a')]
              exact List.mem_append
            rw [hsplit]
            tauto
        · -- x = y : emit the common run once, advance both
          have hxy : x = y := ordCmp_eq_eq.1 ho
          have hrw : duo.Union.extendCollectionGo Vec.extend_from_slice (fuel + 1)
              (x :: a') (y :: b') [] =
              (x :: a').take (((x :: a').zip (y :: b')).takeWhile
                  (fun q => decide (q.1 = q.2))).length ++
                duo.Union.extendCollectionGo Vec.extend_from_slice fuel
                  ((x :: a').drop (((x :: a').zip (y :: b')).takeWhile
                    (fun q => decide (q.1 = q.2))).length)
                  ((y :: b').drop (((x :: a').zip (y :: b')).takeWhile
                    (fun q => decide (q.1 = q.2))).length) [] := by
            simp only [duo.Union.extendCollectionGo, ho]
            rw [duoUnionGo_vec_append]
            simp [Vec.extend_from_slice]
          have hn1 : 1 ≤ (((x :: a').zip (y :: b')).takeWhile
              (fun q => decide (q.1 = q.2))).length := by
            cases hxy
            exact zip_takeWhile_len_pos x a' b'
          have htake0 := zip_takeWhile_take_eq (x :: a') (y :: b')
          generalize hN : (((x :: a').zip (y :: b')).takeWhile
            (fun q => decide (q.1 = q.2))).length = n at hrw hn1 htake0
          have ih' := ih ((x :: a').drop n) ((y :: b').drop n)
            (by simp only [List.length_drop, List.length_cons] at hlen ⊢; omega)
            (List.Pairwise.sublist (List.drop_sublist _ _) ha)
            (List.Pairwise.sublist (List.drop_sublist _ _) hb)
          rw [hrw]
          have hsplitA := List.take_append_drop n (x :: a')
          have hsplitB := List.take_append_drop n (y :: b')
          have hcrossA := (List.pairwise_append.1 (hsplitA ▸ ha)).2.2
          have hcrossB := (List.pairwise_append.1 (hsplitB ▸ hb)).2.2
          constructor
          · refine List.pairwise_append.mpr
              ⟨List.Pairwise.sublist (List.take_sublist _ _) ha, ih'.1, ?_⟩
            intro u hu v hv
            rcases (ih'.2 v).1 hv with hv1 | hv2
            · exact hcrossA u hu v hv1
            · exact hcrossB u (htake0 ▸ hu) v hv2
          · intro z
            rw [List.mem_append, ih'.2]
            have hA : z ∈ (x :: a') ↔ z ∈ (x :: a').take n ∨ z ∈ (x :: a').drop n := by
              conv_lhs => rw [← hsplitA]
              exact List.mem_append
            have hB : z ∈ (y :: b') ↔ z ∈ (y :: b').take n ∨ z ∈ (y :: b').drop n := by
              conv_lhs => rw [← hsplitB]
              exact List.mem_append
            rw [hA, hB, ← htake0]
            tauto
        · -- y < x : emit the prefix of b below x
          have hxy : y < x := ordCmp_eq_gt.1 ho
          have hrw : duo.Union.extendCollectionGo Vec.extend_from_slice (fuel + 1)
              (x :: a') (y :: b') [] =
              (y :: b').takeWhile (fun e => decide (e < x)) ++
                duo.Union.extendCollectionGo Vec.extend_from_slice fuel (x :: a')
                  ((y :: b').dropWhile (fun e => decide (e < x))) [] := by
            simp only [duo.Union.extendCollectionGo, ho]
            rw [← takeWhile_eq_take_length_takeWhile, ← dropWhile_eq_drop_length_takeWhile,
              duoUnionGo_vec_append]
            simp [Vec.extend_from_slice]
          have hdlen : ((y :: b').dropWhile (fun e => decide (e < x))).length ≤
              b'.length := by
            rw [List.dropWhile_cons_of_pos (by simpa using hxy)]
            exact (List.dropWhile_sublist _).length_le
          have ih' := ih (x :: a') ((y :: b').dropWhile (fun e => decide (e < x)))
            (by simp only [List.length_cons] at hlen ⊢; omega) ha
            (List.Pairwise.sublist (List.dropWhile_sublist _) hb)
          rw [hrw]
          constructor
          · refine List.pairwise_append.mpr
              ⟨List.Pairwise.sublist (List.takeWhile_sublist _) hb, ih'.1, ?_⟩
            intro u hu v hv
            have hult : u < x := by simpa using List.mem_takeWhile_imp hu
            rcases (ih'.2 v).1 hv with hv1 | hv2
            · exact lt_of_lt_of_le hult (sorted_head_le ha v hv1)
            · exact lt_of_lt_of_le hult (sorted_mem_dropWhile_lt hb v hv2)
          · intro z
            rw [List.mem_append, ih'.2]
            have hsplit : z ∈ (y :: b') ↔
                z ∈ (y :: b').takeWhile (fun e => decide (e < x)) ∨
                z ∈ (y :: b').dropWhile (fun e => decide (e < x)) := by
              conv_lhs => rw [← List.takeWhile_append_dropWhile
                (p := fun e => decide (e < x)) (l := y :: b')]
              exact List.mem_append
            rw [hsplit]
            tauto

/-- The duo union driven into a `Vec`: sorted output whose members are the
union of the inputs. -/
theorem duoUnionVec_spec {α : Type} [LinearOrder α] (a b : List α)
    (ha : a.Sorted (· < ·)) (hb : b.Sorted (· < ·)) :
    (duoUnionVec a b).Sorted (· < ·) ∧
    (∀ z, z ∈ duoUnionVec a b ↔ z ∈ a ∨ z ∈ b) :=
  duoUnionGo_spec (a.length + b.length + 1) a b (by omega) ha hb

/-! ### Duo symmetric difference: specification -/

theorem duoSymmetricDifferenceGo_spec {α : Type} [LinearOrder α] :
    ∀ fuel (a b : List α), a.length + b.length < fuel →
      a.Sorted (· < ·) → b.Sorted (· < ·) →
      (duo.SymmetricDifference.extendCollectionGo Vec.extend_from_slice fuel a b []).Sorted
        (· < ·) ∧
      (∀ z, z ∈ duo.SymmetricDifference.extendCollectionGo Vec.extend_from_slice fuel a b [] ↔
        ((z ∈ a ∧ z ∉ b) ∨ (z ∈ b ∧ z ∉ a))) := by
  intro fuel
  induction fuel with
  | zero => intro a b hlen; omega
  | succ fuel ih =>
    intro a b hlen ha hb
    cases a with
    | nil =>
      cases b with
      | nil =>
        constructor
        · simp [duo.SymmetricDifference.extendCollectionGo]
        · intro z; simp [duo.SymmetricDifference.extendCollectionGo]
      | cons y b' =>
        constructor
        · simpa [duo.SymmetricDifference.extendCollectionGo, Vec.extend_from_slice] using hb
        · intro z; simp [duo.SymmetricDifference.extendCollectionGo, Vec.extend_from_slice]
    | cons x a' =>
      cases b with
      | nil =>
        constructor
        · simpa [duo.SymmetricDifference.extendCollectionGo, Vec.extend_from_slice] using ha
        · intro z; simp [duo.SymmetricDifference.extendCollectionGo, Vec.extend_from_slice]
      | cons y b' =>
        rcases ho : ordCmp x y with _ | _ | _
        · -- x < y : emit the prefix of a below y
          have hxy : x < y := ordCmp_eq_lt.1 ho
          have hrw : duo.SymmetricDifference.extendCollectionGo Vec.extend_from_slice (fuel + 1)
              (x :: a') (y :: b') [] =
              (x :: a').takeWhile (fun e => decide (e < y)) ++
                duo.SymmetricDifference.extendCollectionGo Vec.extend_from_slice fuel
                  ((x :: a').dropWhile (fun e => decide (e < y))) (y :: b') [] := by
            simp only [duo.SymmetricDifference.extendCollectionGo, List.head?_cons, ho]
            rw [← takeWhile_eq_take_length_takeWhile, ← dropWhile_eq_drop_length_takeWhile,
              duoSymmetricDifferenceGo_vec_append]
            simp [Vec.extend_from_slice]
          have hdlen : ((x :: a').dropWhile (fun e => decide (e < y))).length ≤
              a'.length := by
            rw [List.dropWhile_cons_of_pos (by simpa using hxy)]
            exact (List.dropWhile_sublist _).length_le
          have ih' := ih ((x :: a').dropWhile (fun e => decide (e < y))) (y :: b')
            (by simp only [List.length_cons] at hlen ⊢; omega)
            (List.Pairwise.sublist (List.dropWhile_sublist _) ha) hb
          have hsplit : ∀ z : α, z ∈ (x :: a') ↔
              z ∈ (x :: a').takeWhile (fun e => decide (e < y)) ∨
              z ∈ (x :: a').dropWhile (fun e => decide (e < y)) := by
            intro z
            conv_lhs => rw [← List.takeWhile_append_dropWhile
              (p := fun e => decide (e < y)) (l := x :: a')]
            exact List.mem_append
          rw [hrw]
          constructor
          · refine List.pairwise_append.mpr
              ⟨List.Pairwise.sublist (List.takeWhile_sublist _) ha, ih'.1, ?_⟩
            intro u hu v hv
            have hult : u < y := by simpa using List.mem_takeWhile_imp hu
            rcases (ih'.2 v).1 hv with ⟨hv1, -⟩ | ⟨hv2, -⟩
            · exact lt_of_lt_of_le hult (sorted_mem_dropWhile_lt ha v hv1)
            · exact lt_of_lt_of_le hult (sorted_head_le hb v hv2)
          · intro z
            rw [List.mem_append, ih'.2]
            constructor
            · rintro (hz | (⟨hz1, hz2⟩ | ⟨hz1, hz2⟩))
              · -- emitted run: in a, below y hence not in b
                have hzlt : z < y := by simpa using List.mem_takeWhile_imp hz
                refine Or.inl ⟨(hsplit z).2 (Or.inl hz), fun hzb => ?_⟩
                exact absurd hzlt (not_lt.2 (sorted_head_le hb z hzb))
              · exact Or.inl ⟨(hsplit z).2 (Or.inr hz1), hz2⟩
              · refine Or.inr ⟨hz1, fun hza => ?_⟩
                rcases (hsplit z).1 hza with hzt | hzd
                · have : z < y := by simpa using List.mem_takeWhile_imp hzt
                  exact absurd this (not_lt.2 (sorted_head_le hb z hz1))
                · exact hz2 hzd
            · rintro (⟨hz1, hz2⟩ | ⟨hz1, hz2⟩)
              · rcases (hsplit z).1 hz1 with hzt | hzd
                · exact Or.inl hzt
                · exact Or.inr (Or.inl ⟨hzd, hz2⟩)
              · refine Or.inr (Or.inr ⟨hz1, fun hzd => ?_⟩)
                exact hz2 ((hsplit z).2 (Or.inr hzd))
        · -- x = y : drop the common run from both sides, emit nothing
          have hxy : x = y := ordCmp_eq_eq.1 ho
          have hrw : duo.SymmetricDifference.extendCollectionGo Vec.extend_from_slice (fuel + 1)
              (x :: a') (y :: b') [] =
              duo.SymmetricDifference.extendCollectionGo Vec.extend_from_slice fuel
                ((x :: a').drop (((x :: a').zip (y :: b')).takeWhile
                  (fun q => decide (q.1 = q.2))).length)
                ((y :: b').drop (((x :: a').zip (y :: b')).takeWhile
                  (fun q => decide (q.1 = q.2))).length) [] := by
            simp only [duo.SymmetricDifference.extendCollectionGo, List.head?_cons, ho]
          have hn1 : 1 ≤ (((x :: a').zip (y :: b')).takeWhile
              (fun q => decide (q.1 = q.2))).length := by
            cases hxy
            exact zip_takeWhile_len_pos x a' b'
          have htake0 := zip_takeWhile_take_eq (x :: a') (y :: b')
          generalize hN : (((x :: a').zip (y :: b')).takeWhile
            (fun q => decide (q.1 = q.2))).length = n at hrw hn1 htake0
          have ih' := ih ((x :: a').drop n) ((y :: b').drop n)
            (by simp only [List.length_drop, List.length_cons] at hlen ⊢; omega)
            (List.Pairwise.sublist (List.drop_sublist _ _) ha)
            (List.Pairwise.sublist (List.drop_sublist _ _) hb)
          rw [hrw]
          have hsplitA := List.take_append_drop n (x :: a')
          have hsplitB := List.take_append_drop n (y :: b')
          have hcrossA := (List.pairwise_append.1 (hsplitA ▸ ha)).2.2
          have hcrossB := (List.pairwise_append.1 (hsplitB ▸ hb)).2.2
          refine ⟨ih'.1, ?_⟩
          intro z
          rw [ih'.2]
          have hA : z ∈ (x :: a') ↔ z ∈ (x :: a').take n ∨ z ∈ (x :: a').drop n := by
            conv_lhs => rw [← hsplitA]
            exact List.mem_append
          have hB : z ∈ (y :: b') ↔ z ∈ (y :: b').take n ∨ z ∈ (y :: b').drop n := by
            conv_lhs => rw [← hsplitB]
            exact List.mem_append
          constructor
          · rintro (⟨hz1, hz2⟩ | ⟨hz1, hz2⟩)
            · refine Or.inl ⟨hA.2 (Or.inr hz1), fun hzb => ?_⟩
              rcases hB.1 hzb with hzt | hzd
              · exact absurd (hcrossA z (htake0 ▸ hzt) z hz1) (lt_irrefl z)
              · exact hz2 hzd
            · refine Or.inr ⟨hB.2 (Or.inr hz1), fun hza => ?_⟩
              rcases hA.1 hza with hzt | hzd
              · exact absurd (hcrossB z (htake0 ▸ hzt) z hz1) (lt_irrefl z)
              · exact hz2 hzd
          · rintro (⟨hz1, hz2⟩ | ⟨hz1, hz2⟩)
            · rcases hA.1 hz1 with hzt | hzd
              · exact absurd (hB.2 (Or.inl (htake0 ▸ hzt))) hz2
              · exact Or.inl ⟨hzd, fun hzbd => hz2 (hB.2 (Or.inr hzbd))⟩
            · rcases hB.1 hz1 with hzt | hzd
              · exact absurd (hA.2 (Or.inl (htake0.symm ▸ hzt))) hz2
              · exact Or.inr ⟨hzd, fun hzad => hz2 (hA.2 (Or.inr hzad))⟩
        · -- y < x : emit the prefix of b below x
          have hxy : y < x := ordCmp_eq_gt.1 ho
          have hrw : duo.SymmetricDifference.extendCollectionGo Vec.extend_from_slice (fuel + 1)
              (x :: a') (y :: b') [] =
              (y :: b').takeWhile (fun e => decide (e < x)) ++
                duo.SymmetricDifference.extendCollectionGo Vec.extend_from_slice fuel (x :: a')
                  ((y :: b').dropWhile (fun e => decide (e < x))) [] := by
            simp only [duo.SymmetricDifference.extendCollectionGo, List.head?_cons, ho]
            rw [← takeWhile_eq_take_length_takeWhile, ← dropWhile_eq_drop_length_takeWhile,
              duoSymmetricDifferenceGo_vec_append]
            simp [Vec.extend_from_slice]
          have hdlen : ((y :: b').dropWhile (fun e => decide (e < x))).length ≤
              b'.length := by
            rw [List.dropWhile_cons_of_pos (by simpa using hxy)]
            exact (List.dropWhile_sublist _).length_le
          have ih' := ih (x :: a') ((y :: b').dropWhile (fun e => decide (e < x)))
            (by simp only [List.length_cons] at hlen ⊢; omega) ha
            (List.Pairwise.sublist (List.dropWhile_sublist _) hb)
          have hsplit : ∀ z : α, z ∈ (y :: b') ↔
              z ∈ (y :: b').takeWhile (fun e => decide (e < x)) ∨
              z ∈ (y :: b').dropWhile (fun e => decide (e < x)) := by
            intro z
            conv_lhs => rw [← List.takeWhile_append_dropWhile
              (p := fun e => decide (e < x)) (l := y :: b')]
            exact List.mem_append
          rw [hrw]
          constructor
          · refine List.pairwise_append.mpr
              ⟨List.Pairwise.sublist (List.takeWhile_sublist _) hb, ih'.1, ?_⟩
            intro u hu v hv
            have hult : u < x := by simpa using List.mem_takeWhile_imp hu
            rcases (ih'.2 v).1 hv with ⟨hv1, -⟩ | ⟨hv2, -⟩
            · exact lt_of_lt_of_le hult (sorted_head_le ha v hv1)
            · exact lt_of_lt_of_le hult (sorted_mem_dropWhile_lt hb v hv2)
          · intro z
            rw [List.mem_append, ih'.2]
            constructor
            · rintro (hz | (⟨hz1, hz2⟩ | ⟨hz1, hz2⟩))
              · have hzlt : z < x := by simpa using List.mem_takeWhile_imp hz
                refine Or.inr ⟨(hsplit z).2 (Or.inl hz), fun hza => ?_⟩
                exact absurd hzlt (not_lt.2 (sorted_head_le ha z hza))
              · refine Or.inl ⟨hz1, fun hzb => ?_⟩
                rcases (hsplit z).1 hzb with hzt | hzd
                · have : z < x := by simpa using List.mem_takeWhile_imp hzt
                  exact absurd this (not_lt.2 (sorted_head_le ha z hz1))
                · exact hz2 hzd
              · exact Or.inr ⟨(hsplit z).2 (Or.inr hz1), hz2⟩
            · rintro (⟨hz1, hz2⟩ | ⟨hz1, hz2⟩)
              · refine Or.inr (Or.inl ⟨hz1, fun hzd => ?_⟩)
                exact hz2 ((hsplit z).2 (Or.inr hzd))
              · rcases (hsplit z).1 hz1 with hzt | hzd
                · exact Or.inl hzt
                · exact Or.inr (Or.inr ⟨hzd, hz2⟩)

/-- The duo symmetric difference driven into a `Vec`: sorted output whose
members are exactly the one-sided elements. -/
theorem duoSymmetricDifferenceVec_spec {α : Type} [LinearOrder α] (a b : List α)
    (ha : a.Sorted (· < ·)) (hb : b.Sorted (· < ·)) :
    (duoSymmetricDifferenceVec a b).Sorted (· < ·) ∧
    (∀ z, z ∈ duoSymmetricDifferenceVec a b ↔
      ((z ∈ a ∧ z ∉ b) ∨ (z ∈ b ∧ z ∉ a))) :=
  duoSymmetricDifferenceGo_spec (a.length + b.length + 1) a b (by omega) ha hb

/-! ### Duo intersection: specification -/

theorem duoIntersectionGo_spec {α : Type} [LinearOrder α] :
    ∀ fuel (a b : List α), a.length + b.length < fuel →
      a.Sorted (· < ·) → b.Sorted (· < ·) →
      (duo.Intersection.extendCollectionGo Vec.extend_from_slice fuel a b []).Sorted (· < ·) ∧
      (∀ z, z ∈ duo.Intersection.extendCollectionGo Vec.extend_from_slice fuel a b [] ↔
        z ∈ a ∧ z ∈ b) := by
  intro fuel
  induction fuel with
  | zero => intro a b hlen; omega
  | succ fuel ih =>
    intro a b hlen ha hb
    cases a with
    | nil =>
      constructor
      · simp [duo.Intersection.extendCollectionGo]
      · intro z; simp [duo.Intersection.extendCollectionGo]
    | cons x a' =>
      cases b with
      | nil =>
        constructor
        · simp [duo.Intersection.extendCollectionGo]
        · intro z; simp [duo.Intersection.extendCollectionGo]
      | cons y b' =>
        by_cases hxy : x = y
        · -- equal heads: emit the common run
          have hrw : duo.Intersection.extendCollectionGo Vec.extend_from_slice (fuel + 1)
              (x :: a') (y :: b') [] =
              (x :: a').take (((x :: a').zip (y :: b')).takeWhile
                  (fun q => decide (q.1 = q.2))).length ++
                duo.Intersection.extendCollectionGo Vec.extend_from_slice fuel
                  ((x :: a').drop (((x :: a').zip (y :: b')).takeWhile
                    (fun q => decide (q.1 = q.2))).length)
                  ((y :: b').drop (((x :: a').zip (y :: b')).takeWhile
                    (fun q => decide (q.1 = q.2))).length) [] := by
            simp only [duo.Intersection.extendCollectionGo, if_pos hxy]
            rw [duoIntersectionGo_vec_append]
            simp [Vec.extend_from_slice]
          have hn1 : 1 ≤ (((x :: a').zip (y :: b')).takeWhile
              (fun q => decide (q.1 = q.2))).length := by
            cases hxy
            exact zip_takeWhile_len_pos x a' b'
          have htake0 := zip_takeWhile_take_eq (x :: a') (y :: b')
          generalize hN : (((x :: a').zip (y :: b')).takeWhile
            (fun q => decide (q.1 = q.2))).length = n at hrw hn1 htake0
          have ih' := ih ((x :: a').drop n) ((y :: b').drop n)
            (by simp only [List.length_drop, List.length_cons] at hlen ⊢; omega)
            (List.Pairwise.sublist (List.drop_sublist _ _) ha)
            (List.Pairwise.sublist (List.drop_sublist _ _) hb)
          rw [hrw]
          have hsplitA := List.take_append_drop n (x :: a')
          have hsplitB := List.take_append_drop n (y :: b')
          have hcrossA := (List.pairwise_append.1 (hsplitA ▸ ha)).2.2
          have hA : ∀ z : α, z ∈ (x :: a') ↔ z ∈ (x :: a').take n ∨ z ∈ (x :: a').drop n := by
            intro z
            conv_lhs => rw [← hsplitA]
            exact List.mem_append
          have hB : ∀ z : α, z ∈ (y :: b') ↔ z ∈ (y :: b').take n ∨ z ∈ (y :: b').drop n := by
            intro z
            conv_lhs => rw [← hsplitB]
            exact List.mem_append
          constructor
          · refine List.pairwise_append.mpr
              ⟨List.Pairwise.sublist (List.take_sublist _ _) ha, ih'.1, ?_⟩
            intro u hu v hv
            exact hcrossA u hu v ((ih'.2 v).1 hv).1
          · intro z
            rw [List.mem_append, ih'.2]
            constructor
            · rintro (hz | ⟨hz1, hz2⟩)
              · exact ⟨(hA z).2 (Or.inl hz), (hB z).2 (Or.inl (htake0 ▸ hz))⟩
              · exact ⟨(hA z).2 (Or.inr hz1), (hB z).2 (Or.inr hz2)⟩
            · rintro ⟨hz1, hz2⟩
              rcases (hA z).1 hz1 with hzt | hzd
              · exact Or.inl hzt
              · rcases (hB z).1 hz2 with hzt2 | hzd2
                · exact absurd (hcrossA z (htake0 ▸ hzt2) z hzd) (lt_irrefl z)
                · exact Or.inr ⟨hzd, hzd2⟩
        · by_cases hlt : x < y
          · -- advance a to its first element ≥ y
            have hrw : duo.Intersection.extendCollectionGo Vec.extend_from_slice (fuel + 1)
                (x :: a') (y :: b') [] =
                duo.Intersection.extendCollectionGo Vec.extend_from_slice fuel
                  ((x :: a').dropWhile (fun e => decide (e < y))) (y :: b') [] := by
              simp only [duo.Intersection.extendCollectionGo, if_neg hxy, if_pos hlt]
              rw [exponential_offset_ge_sorted _ _ ha]
            have hdlen : ((x :: a').dropWhile (fun e => decide (e < y))).length ≤
                a'.length := by
              rw [List.dropWhile_cons_of_pos (by simpa using hlt)]
              exact (List.dropWhile_sublist _).length_le
            have ih' := ih ((x :: a').dropWhile (fun e => decide (e < y))) (y :: b')
              (by
                have h1 : (x :: a').length = a'.length + 1 := rfl
                omega)
              (List.Pairwise.sublist (List.dropWhile_sublist _) ha) hb
            rw [hrw]
            refine ⟨ih'.1, ?_⟩
            intro z
            rw [ih'.2]
            constructor
            · rintro ⟨hz1, hz2⟩
              exact ⟨(List.dropWhile_sublist _).subset hz1, hz2⟩
            · rintro ⟨hz1, hz2⟩
              refine ⟨?_, hz2⟩
              have hzy : y ≤ z := sorted_head_le hb z hz2
              have := List.takeWhile_append_dropWhile
                (p := fun e => decide (e < y)) (l := x :: a')
              rcases List.mem_append.1 (this ▸ hz1) with hzt | hzd
              · have hzlt : z < y := by simpa using List.mem_takeWhile_imp hzt
                exact absurd hzy (not_le.2 hzlt)
              · exact hzd
          · -- y < x : advance b to its first element ≥ x
            have hylt : y < x := by
              rcases lt_trichotomy x y with h | h | h
              · exact absurd h hlt
              · exact absurd h hxy
              · exact h
            have hrw : duo.Intersection.extendCollectionGo Vec.extend_from_slice (fuel + 1)
                (x :: a') (y :: b') [] =
                duo.Intersection.extendCollectionGo Vec.extend_from_slice fuel
                  (x :: a') ((y :: b').dropWhile (fun e => decide (e < x))) [] := by
              simp only [duo.Intersection.extendCollectionGo, if_neg hxy, if_neg hlt]
              rw [exponential_offset_ge_sorted _ _ hb]
            have hdlen : ((y :: b').dropWhile (fun e => decide (e < x))).length ≤
                b'.length := by
              rw [List.dropWhile_cons_of_pos (by simpa using hylt)]
              exact (List.dropWhile_sublist _).length_le
            have ih' := ih (x :: a') ((y :: b').dropWhile (fun e => decide (e < x)))
              (by
                have h1 : (y :: b').length = b'.length + 1 := rfl
                omega) ha
              (List.Pairwise.sublist (List.dropWhile_sublist _) hb)
            rw [hrw]
            refine ⟨ih'.1, ?_⟩
            intro z
            rw [ih'.2]
            constructor
            · rintro ⟨hz1, hz2⟩
              exact ⟨hz1, (List.dropWhile_sublist _).subset hz2⟩
            · rintro ⟨hz1, hz2⟩
              refine ⟨hz1, ?_⟩
              have hzx : x ≤ z := sorted_head_le ha z hz1
              have := List.takeWhile_append_dropWhile
                (p := fun e => decide (e < x)) (l := y :: b')
              rcases List.mem_append.1 (this ▸ hz2) with hzt | hzd
              · have hzlt : z < x := by simpa using List.mem_takeWhile_imp hzt
                exact absurd hzx (not_le.2 hzlt)
              · exact hzd

/-- The duo intersection driven into a `Vec`: sorted output whose members
are the common elements. -/
theorem duoIntersectionVec_spec {α : Type} [LinearOrder α] (a b : List α)
    (ha : a.Sorted (· < ·)) (hb : b.Sorted (· < ·)) :
    (duoIntersectionVec a b).Sorted (· < ·) ∧
    (∀ z, z ∈ duoIntersectionVec a b ↔ z ∈ a ∧ z ∈ b) :=
  duoIntersectionGo_spec (a.length + b.length + 1) a b (by omega) ha hb

/-! ### Duo difference: specification -/

theorem duoDifferenceGo_spec {α : Type} [LinearOrder α] :
    ∀ fuel (a b : List α), a.length + b.length < fuel →
      a.Sorted (· < ·) → b.Sorted (· < ·) →
      (duo.Difference.extendCollectionGo Vec.extend_from_slice fuel a b []).Sorted (· < ·) ∧
      (∀ z, z ∈ duo.Difference.extendCollectionGo Vec.extend_from_slice fuel a b [] ↔
        z ∈ a ∧ z ∉ b) := by
  intro fuel
  induction fuel with
  | zero => intro a b hlen; omega
  | succ fuel ih =>
    intro a b hlen ha hb
    cases a with
    | nil =>
      constructor
      · simp [duo.Difference.extendCollectionGo]
      · intro z; simp [duo.Difference.extendCollectionGo]
    | cons x a' =>
      have hb' : exponential_offset_ge b x = b.dropWhile (fun e => decide (e < x)) :=
        exponential_offset_ge_sorted _ _ hb
      have hbsplit := List.takeWhile_append_dropWhile (p := fun e => decide (e < x)) (l := b)
      have hbd_sorted : (b.dropWhile (fun e => decide (e < x))).Sorted (· < ·) :=
        List.Pairwise.sublist (List.dropWhile_sublist _) hb
      have hbd_len : (b.dropWhile (fun e => decide (e < x))).length ≤ b.length :=
        (List.dropWhile_sublist _).length_le
      have hBmem : ∀ z : α, z ∈ b ↔
          z ∈ b.takeWhile (fun e => decide (e < x)) ∨
          z ∈ b.dropWhile (fun e => decide (e < x)) := by
        intro z
        conv_lhs => rw [← hbsplit]
        exact List.mem_append
      have hge := sorted_mem_dropWhile_lt (c := x) hb
      cases hbd : b.dropWhile (fun e => decide (e < x)) with
      | nil =>
        have hrw : duo.Difference.extendCollectionGo Vec.extend_from_slice (fuel + 1)
            (x :: a') b [] = x :: a' := by
          simp [duo.Difference.extendCollectionGo, hb', hbd, Vec.extend_from_slice]
        rw [hrw]
        refine ⟨ha, ?_⟩
        intro z
        constructor
        · intro hz
          refine ⟨hz, ?_⟩
          intro hzb
          rcases (hBmem z).1 hzb with hzt | hzd
          · have hzlt : z < x := by simpa using List.mem_takeWhile_imp hzt
            exact absurd (sorted_head_le ha z hz) (not_le.2 hzlt)
          · rw [hbd] at hzd
            exact absurd hzd (List.not_mem_nil z)
        · exact fun hz => hz.1
      | cons mn bd' =>
        rw [hbd] at hbd_sorted hbd_len hge
        have hmn_b : mn ∈ b := (hBmem mn).2 (Or.inr (hbd ▸ List.mem_cons_self mn bd'))
        have hxmn : x ≤ mn := hge mn (List.mem_cons_self mn bd')
        by_cases hmx : mn = x
        · -- equal heads: drop one element from each side
          have hrw : duo.Difference.extendCollectionGo Vec.extend_from_slice (fuel + 1)
              (x :: a') b [] =
              duo.Difference.extendCollectionGo Vec.extend_from_slice fuel a' bd' [] := by
            simp [duo.Difference.extendCollectionGo, hb', hbd, hmx]
          have ih' := ih a' bd'
            (by
              have h1 : (x :: a').length = a'.length + 1 := rfl
              have h2 : (mn :: bd').length = bd'.length + 1 := rfl
              omega)
            (sorted_tail ha) (sorted_tail hbd_sorted)
          rw [hrw]
          refine ⟨ih'.1, ?_⟩
          intro z
          rw [ih'.2]
          constructor
          · rintro ⟨hz1, hz2⟩
            refine ⟨List.mem_cons_of_mem x hz1, ?_⟩
            intro hzb
            have hxz : x < z := (List.sorted_cons.1 ha).1 z hz1
            rcases (hBmem z).1 hzb with hzt | hzd
            · have hzlt : z < x := by simpa using List.mem_takeWhile_imp hzt
              exact absurd (le_of_lt hxz) (not_le.2 hzlt)
            · rw [hbd] at hzd
              rcases List.mem_cons.1 hzd with rfl | hzd'
              · rw [hmx] at hxz
                exact absurd hxz (lt_irrefl x)
              · exact hz2 hzd'
          · rintro ⟨hz1, hz2⟩
            rcases List.mem_cons.1 hz1 with rfl | hz1'
            · exact absurd (hmx ▸ hmn_b) hz2
            · refine ⟨hz1', ?_⟩
              intro hzd'
              exact hz2 ((hBmem z).2 (Or.inr (hbd ▸ List.mem_cons_of_mem mn hzd')))
        · -- x < mn: emit the elements of `a` below `mn`
          have hxlt : x < mn := lt_of_le_of_ne hxmn (fun h => hmx h.symm)
          have htw := takeWhile_eq_take_length_takeWhile
            (fun e => decide (e < mn)) (x :: a')
          have hrw : duo.Difference.extendCollectionGo Vec.extend_from_slice (fuel + 1)
              (x :: a') b [] =
              (x :: a').take (((x :: a').takeWhile (fun e => decide (e < mn))).length) ++
                duo.Difference.extendCollectionGo Vec.extend_from_slice fuel
                  ((x :: a').drop
                    (((x :: a').takeWhile (fun e => decide (e < mn))).length))
                  (mn :: bd') [] := by
            simp only [duo.Difference.extendCollectionGo, List.head?_cons, hb', hbd,
              if_neg hmx]
            rw [duoDifferenceGo_vec_append]
            simp [Vec.extend_from_slice]
          have hoff1 : 1 ≤ (((x :: a').takeWhile (fun e => decide (e < mn))).length) := by
            rw [List.takeWhile_cons_of_pos (by simpa using hxlt)]
            simp
          generalize hN : (((x :: a').takeWhile (fun e => decide (e < mn))).length) = n
            at hrw hoff1 htw
          have ih' := ih ((x :: a').drop n) (mn :: bd')
            (by
              have h1 : (x :: a').length = a'.length + 1 := rfl
              have h2 : (mn :: bd').length = bd'.length + 1 := rfl
              have h3 : ((x :: a').drop n).length = (x :: a').length - n :=
                List.length_drop ..
              omega)
            (List.Pairwise.sublist (List.drop_sublist _ _) ha) hbd_sorted
          rw [hrw]
          have hsplitA := List.take_append_drop n (x :: a')
          have hcrossA := (List.pairwise_append.1 (hsplitA ▸ ha)).2.2
          have hA : ∀ z : α, z ∈ (x :: a') ↔
              z ∈ (x :: a').take n ∨ z ∈ (x :: a').drop n := by
            intro z
            conv_lhs => rw [← hsplitA]
            exact List.mem_append
          have hmn_le := sorted_head_le hbd_sorted
          constructor
          · refine List.pairwise_append.mpr
              ⟨List.Pairwise.sublist (List.take_sublist _ _) ha, ih'.1, ?_⟩
            intro u hu v hv
            exact hcrossA u hu v ((ih'.2 v).1 hv).1
          · intro z
            rw [List.mem_append, ih'.2]
            constructor
            · rintro (hz | ⟨hz1, hz2⟩)
              · have hzmem : z ∈ (x :: a') := (hA z).2 (Or.inl hz)
                refine ⟨hzmem, ?_⟩
                have hzmn : z < mn := by
                  have : z ∈ (x :: a').takeWhile (fun e => decide (e < mn)) := by
                    rw [htw]; exact hz
                  simpa using List.mem_takeWhile_imp this
                intro hzb
                rcases (hBmem z).1 hzb with hzt | hzd
                · have hzlt : z < x := by simpa using List.mem_takeWhile_imp hzt
                  exact absurd (sorted_head_le ha z hzmem) (not_le.2 hzlt)
                · rw [hbd] at hzd
                  exact absurd (hmn_le z hzd) (not_le.2 hzmn)
              · have hzmem : z ∈ (x :: a') := (hA z).2 (Or.inr hz1)
                refine ⟨hzmem, ?_⟩
                intro hzb
                rcases (hBmem z).1 hzb with hzt | hzd
                · have hzlt : z < x := by simpa using List.mem_takeWhile_imp hzt
                  exact absurd (sorted_head_le ha z hzmem) (not_le.2 hzlt)
                · rw [hbd] at hzd
                  exact hz2 hzd
            · rintro ⟨hz1, hz2⟩
              rcases (hA z).1 hz1 with hzt | hzd
              · exact Or.inl hzt
              · refine Or.inr ⟨hzd, ?_⟩
                intro hzbd
                exact hz2 ((hBmem z).2 (Or.inr (hbd ▸ hzbd)))

/-- The duo difference driven into a `Vec`: sorted output whose members are
the elements of `a` that are not in `b`. -/
theorem duoDifferenceVec_spec {α : Type} [LinearOrder α] (a b : List α)
    (ha : a.Sorted (· < ·)) (hb : b.Sorted (· < ·)) :
    (duoDifferenceVec a b).Sorted (· < ·) ∧
    (∀ z, z ∈ duoDifferenceVec a b ↔ z ∈ a ∧ z ∉ b) :=
  duoDifferenceGo_spec (a.length + b.length + 1) a b (by omega) ha hb

/-! ### By-key search: searching through a projection is searching the
projected list -/

theorem binarySearchGo_map {U K : Type} (c : K → Ordering) (g : U → K) (s : List U) :
    ∀ fuel left right,
      binarySearchGo (fun u => c (g u)) s fuel left right =
        binarySearchGo c (s.map g) fuel left right := by
  intro fuel
  induction fuel with
  | zero => intro left right; rfl
  | succ fuel ih =>
    intro left right
    simp only [binarySearchGo, List.getElem?_map]
    by_cases h : left < right
    · simp only [if_pos h]
      cases hsv : s[left + (right - left) / 2]? with
      | none => rfl
      | some v =>
        simp only [Option.map_some']
        cases hc : c (g v) <;> simp only [ih]
    · simp only [if_neg h]

theorem binary_search_by_map {U K : Type} (c : K → Ordering) (g : U → K) (s : List U) :
    binary_search_by (fun u => c (g u)) s = binary_search_by c (s.map g) := by
  simp only [binary_search_by, List.length_map]
  exact binarySearchGo_map c g s (s.length + 1) 0 s.length

theorem expSearchIndex_map {U K : Type} (c : K → Ordering) (g : U → K) (s : List U) :
    ∀ fuel idx,
      expSearchIndex (fun u => c (g u)) s fuel idx =
        expSearchIndex c (s.map g) fuel idx := by
  intro fuel
  induction fuel with
  | zero => intro idx; rfl
  | succ fuel ih =>
    intro idx
    simp only [expSearchIndex, List.getElem?_map, Option.map_map, Function.comp_def]
    by_cases h : s[idx]?.map (fun u => c (g u)) = some Ordering.lt
    · simp only [if_pos h, ih]
    · simp only [if_neg h]

theorem exponential_search_by_map {U K : Type} (c : K → Ordering) (g : U → K) (s : List U) :
    exponential_search_by (fun u => c (g u)) s = exponential_search_by c (s.map g) := by
  simp only [exponential_search_by, List.length_map, expSearchIndex_map c g s,
    ← List.map_drop, ← List.map_take, ← binary_search_by_map]

/-- `exponential_offset_ge_by_key` on a list whose keys are strictly
increasing drops exactly the elements whose key is below the probe. -/
theorem exponential_offset_ge_by_key_sorted {T K : Type} [LinearOrder K]
    (s : List T) (k : K) (g : T → K) (hs : (s.map g).Sorted (· < ·)) :
    exponential_offset_ge_by_key s k g = s.dropWhile (fun t => decide (g t < k)) := by
  have hsearch : exponential_search_by (fun t => ordCmp (g t) k) s =
      if k ∈ s.map g then .ok ((s.map g).countP (fun e => decide (e < k)))
      else .error ((s.map g).countP (fun e => decide (e < k))) := by
    rw [exponential_search_by_map (fun v => ordCmp v k) g s]
    exact exponential_search_by_sorted (s.map g) k hs
  have hcount : (s.map g).countP (fun e => decide (e < k)) =
      (s.takeWhile (fun t => decide (g t < k))).length := by
    rw [sorted_countP_lt k hs]
    simp only [List.takeWhile_map, List.length_map, Function.comp_def]
  rw [exponential_offset_ge_by_key, exponential_offset_ge_by, hsearch,
    dropWhile_eq_drop_length_takeWhile]
  by_cases hk : k ∈ s.map g <;> simp [hk, hcount]

/-- Head lemma for non-strictly sorted lists. -/
theorem sorted_head_le_of_le {α : Type} [LinearOrder α] {y : α} {t : List α}
    (h : (y :: t).Sorted (· ≤ ·)) : ∀ v ∈ y :: t, y ≤ v := by
  intro v hv
  rcases List.mem_cons.1 hv with rfl | hvt
  · exact le_rfl
  · exact (List.sorted_cons.1 h).1 v hvt

/-! ### Duo difference-by-key: specification -/

theorem duoDifferenceByKeyGo_spec {T U K : Type} [LinearOrder K] (f : T → K) (g : U → K) :
    ∀ fuel (a : List T) (b : List U), a.length + b.length < fuel →
      (a.map f).Sorted (· ≤ ·) → (b.map g).Sorted (· < ·) →
      duo.DifferenceByKey.extendCollectionGo f g Vec.extend_from_slice fuel a b [] =
        a.filter (fun t => decide (f t ∉ b.map g)) := by
  intro fuel
  induction fuel with
  | zero => intro a b hlen; omega
  | succ fuel ih =>
    intro a b hlen haf hbg
    cases a with
    | nil => simp [duo.DifferenceByKey.extendCollectionGo]
    | cons t a' =>
      have hb' : exponential_offset_ge_by_key b (f t) g =
          b.dropWhile (fun x => decide (g x < f t)) :=
        exponential_offset_ge_by_key_sorted b (f t) g hbg
      have hheadk : ∀ t' ∈ (t :: a'), f t ≤ f t' := by
        intro t' ht'
        exact sorted_head_le_of_le haf (f t') (List.mem_map_of_mem f ht')
      cases hbd : b.dropWhile (fun x => decide (g x < f t)) with
      | nil =>
        have hbgnil : (b.map g).dropWhile (fun e => decide (e < f t)) = [] := by
          simp only [List.dropWhile_map, Function.comp_def, hbd, List.map_nil]
        have hrw : duo.DifferenceByKey.extendCollectionGo f g Vec.extend_from_slice
            (fuel + 1) (t :: a') b [] = t :: a' := by
          simp [duo.DifferenceByKey.extendCollectionGo, hb', hbd, Vec.extend_from_slice]
        rw [hrw]
        symm
        refine List.filter_eq_self.2 ?_
        intro t' ht'
        simp only [decide_eq_true_eq]
        intro hzb
        have hsplit := List.takeWhile_append_dropWhile
          (p := fun e => decide (e < f t)) (l := b.map g)
        rcases List.mem_append.1 (hsplit ▸ hzb) with hzt | hzd
        · have hlt : f t' < f t := by simpa using List.mem_takeWhile_imp hzt
          exact absurd (hheadk t' ht') (not_le.2 hlt)
        · rw [hbgnil] at hzd
          exact absurd hzd (List.not_mem_nil _)
      | cons p bs =>
        have hbdg : (p :: bs).map g = (b.map g).dropWhile (fun e => decide (e < f t)) := by
          rw [← hbd]
          simp only [List.dropWhile_map, Function.comp_def]
        have hbs_sorted : ((p :: bs).map g).Sorted (· < ·) := by
          rw [hbdg]
          exact List.Pairwise.sublist (List.dropWhile_sublist _) hbg
        have hkp : f t ≤ g p := by
          refine sorted_mem_dropWhile_lt (c := f t) hbg (g p) ?_
          rw [← hbdg]
          exact List.mem_map_of_mem g (List.mem_cons_self p bs)
        have hpb : g p ∈ b.map g :=
          (List.dropWhile_sublist _).subset
            (hbdg ▸ List.mem_map_of_mem g (List.mem_cons_self p bs))
        have hbd_len : (p :: bs).length ≤ b.length := by
          rw [← hbd]
          exact (List.dropWhile_sublist _).length_le
        have hiff : ∀ z : K, f t ≤ z → (z ∈ (p :: bs).map g ↔ z ∈ b.map g) := by
          intro z hz
          constructor
          · intro hzm
            exact (List.dropWhile_sublist _).subset (hbdg ▸ hzm)
          · intro hzb
            have hsplit := List.takeWhile_append_dropWhile
              (p := fun e => decide (e < f t)) (l := b.map g)
            rcases List.mem_append.1 (hsplit ▸ hzb) with hzt | hzd
            · have hlt : z < f t := by simpa using List.mem_takeWhile_imp hzt
              exact absurd hz (not_le.2 hlt)
            · rw [← hbdg] at hzd
              exact hzd
        by_cases hmk : g p = f t
        · -- keyed match: drop one `a` element, keep `b` where it stands
          have hrw : duo.DifferenceByKey.extendCollectionGo f g Vec.extend_from_slice
              (fuel + 1) (t :: a') b [] =
              duo.DifferenceByKey.extendCollectionGo f g Vec.extend_from_slice
                fuel a' (p :: bs) [] := by
            simp [duo.DifferenceByKey.extendCollectionGo, hb', hbd, hmk]
          have ih' := ih a' (p :: bs)
            (by
              have h1 : (t :: a').length = a'.length + 1 := rfl
              omega)
            (by
              have : (t :: a').map f = f t :: a'.map f := rfl
              rw [this] at haf
              exact sorted_tail haf)
            hbs_sorted
          rw [hrw, ih']
          have hhead : decide (f t ∉ b.map g) = false := by
            simp only [decide_eq_false_iff_not, not_not]
            exact hmk ▸ hpb
          rw [List.filter_cons, hhead]
          simp only [Bool.false_eq_true, if_false]
          refine List.filter_congr ?_
          intro t' ht'
          have hk' : f t ≤ f t' := hheadk t' (List.mem_cons_of_mem t ht')
          simp only [decide_eq_decide]
          rw [hiff (f t') hk']
        · -- g p strictly above f t: emit the `a` run with keys below g p
          have hxlt : f t < g p := lt_of_le_of_ne hkp (fun h => hmk h.symm)
          have htw := takeWhile_eq_take_length_takeWhile
            (fun x => decide (f x < g p)) (t :: a')
          have hrw : duo.DifferenceByKey.extendCollectionGo f g Vec.extend_from_slice
              (fuel + 1) (t :: a') b [] =
              (t :: a').take (((t :: a').takeWhile (fun x => decide (f x < g p))).length) ++
                duo.DifferenceByKey.extendCollectionGo f g Vec.extend_from_slice fuel
                  ((t :: a').drop
                    (((t :: a').takeWhile (fun x => decide (f x < g p))).length))
                  (p :: bs) [] := by
            simp only [duo.DifferenceByKey.extendCollectionGo, List.head?_cons,
              Option.map_some', hb', hbd, if_neg hmk]
            rw [duoDifferenceByKeyGo_vec_append]
            simp [Vec.extend_from_slice]
          have hoff1 : 1 ≤ (((t :: a').takeWhile (fun x => decide (f x < g p))).length) := by
            rw [List.takeWhile_cons_of_pos (by simpa using hxlt)]
            simp
          generalize hN : (((t :: a').takeWhile (fun x => decide (f x < g p))).length) = n
            at hrw hoff1 htw
          have ih' := ih ((t :: a').drop n) (p :: bs)
            (by
              have h1 : (t :: a').length = a'.length + 1 := rfl
              have h3 : ((t :: a').drop n).length = (t :: a').length - n :=
                List.length_drop ..
              omega)
            (by
              rw [List.map_drop]
              exact List.Pairwise.sublist (List.drop_sublist _ _) haf)
            hbs_sorted
          rw [hrw, ih']
          conv_rhs => rw [← List.take_append_drop n (t :: a'), List.filter_append]
          congr 1
          · symm
            refine List.filter_eq_self.2 ?_
            intro t' ht'
            have ht'mem : t' ∈ (t :: a') := (List.take_sublist _ _).subset ht'
            have ht'lt : f t' < g p := by
              have : t' ∈ (t :: a').takeWhile (fun x => decide (f x < g p)) := by
                rw [htw]; exact ht'
              simpa using List.mem_takeWhile_imp this
            simp only [decide_eq_true_eq]
            intro hzb
            have hsplit := List.takeWhile_append_dropWhile
              (p := fun e => decide (e < f t)) (l := b.map g)
            rcases List.mem_append.1 (hsplit ▸ hzb) with hzt | hzd
            · have hlt : f t' < f t := by simpa using List.mem_takeWhile_imp hzt
              exact absurd (hheadk t' ht'mem) (not_le.2 hlt)
            · rw [← hbdg] at hzd
              exact absurd (sorted_head_le hbs_sorted (f t') hzd) (not_le.2 ht'lt)
          · refine List.filter_congr ?_
            intro t' ht'
            have ht'mem : t' ∈ (t :: a') := (List.drop_sublist _ _).subset ht'
            simp only [decide_eq_decide]
            rw [hiff (f t') (hheadk t' ht'mem)]

/-- The duo difference-by-key driven into a `Vec`: the base elements whose
key does not occur among the keys of `b`, in input order. -/
theorem duoDifferenceByKeyVec_spec {T U K : Type} [LinearOrder K]
    (f : T → K) (g : U → K) (a : List T) (b : List U)
    (haf : (a.map f).Sorted (· ≤ ·)) (hbg : (b.map g).Sorted (· < ·)) :
    duoDifferenceByKeyVec f g a b = a.filter (fun t => decide (f t ∉ b.map g)) :=
  duoDifferenceByKeyGo_spec f g (a.length + b.length + 1) a b (by omega) haf hbg

/-! ### `two_minimums`: the fold really computes the two smallest heads -/

theorem twoMinimums_foldl_spec {α : Type} [LinearOrder α] :
    ∀ L : List (Nat × α), (L.map Prod.fst).Nodup →
      (match L.foldl twoMinimumsStep Minimums.Nothing with
       | .Nothing => L = []
       | .One f => L = [f]
       | .Two f s => f ∈ L ∧ s ∈ L ∧ f.1 ≠ s.1 ∧ f.2 ≤ s.2 ∧
           (∀ c ∈ L, f.2 ≤ c.2) ∧ (∀ c ∈ L, c.1 ≠ f.1 → s.2 ≤ c.2)) := by
  intro L
  induction L using List.reverseRecOn with
  | nil => intro _; simp [List.foldl_nil]
  | append_singleton L c ih =>
    intro hnd
    rw [List.map_append, List.map_cons, List.map_nil, List.nodup_append] at hnd
    obtain ⟨hndL, _, hdisj⟩ := hnd
    have hcnot : c.1 ∉ L.map Prod.fst := by
      intro hmem
      exact hdisj hmem (List.mem_singleton.2 rfl)
    have hne : ∀ d ∈ L, d.1 ≠ c.1 := by
      intro d hd he
      exact hcnot (he ▸ List.mem_map_of_mem Prod.fst hd)
    rw [List.foldl_append, List.foldl_cons, List.foldl_nil]
    have hinv := ih hndL
    cases hm : L.foldl twoMinimumsStep Minimums.Nothing with
    | Nothing =>
      rw [hm] at hinv
      subst hinv
      simp [twoMinimumsStep]
    | One f =>
      rw [hm] at hinv
      subst hinv
      have hfc : f.1 ≠ c.1 := hne f (List.mem_singleton.2 rfl)
      by_cases hc2 : c.2 < f.2
      · simp only [twoMinimumsStep, if_pos hc2]
        refine ⟨by simp, by simp, fun h => hfc h.symm, le_of_lt hc2, ?_, ?_⟩
        · intro d hd
          rcases List.mem_append.1 hd with hd | hd
          · rw [List.mem_singleton.1 hd]; exact le_of_lt hc2
          · rw [List.mem_singleton.1 hd]
        · intro d hd hd1
          rcases List.mem_append.1 hd with hd | hd
          · rw [List.mem_singleton.1 hd]
          · exact absurd (List.mem_singleton.1 hd ▸ rfl : d.1 = c.1) hd1
      · simp only [twoMinimumsStep, if_neg hc2]
        refine ⟨by simp, by simp, hfc, not_lt.1 hc2, ?_, ?_⟩
        · intro d hd
          rcases List.mem_append.1 hd with hd | hd
          · rw [List.mem_singleton.1 hd]
          · rw [List.mem_singleton.1 hd]; exact not_lt.1 hc2
        · intro d hd hd1
          rcases List.mem_append.1 hd with hd | hd
          · exact absurd (List.mem_singleton.1 hd ▸ rfl : d.1 = f.1) hd1
          · rw [List.mem_singleton.1 hd]
    | Two f s =>
      rw [hm] at hinv
      obtain ⟨hfL, hsL, hfs1, hfs2, hmin, hsnd⟩ := hinv
      have hfc : f.1 ≠ c.1 := hne f hfL
      have hmemL : ∀ d ∈ L, d ∈ L ++ [c] := fun d hd => List.mem_append.2 (Or.inl hd)
      have hmemc : c ∈ L ++ [c] := List.mem_append.2 (Or.inr (List.mem_singleton.2 rfl))
      by_cases hc2 : c.2 < f.2
      · simp only [twoMinimumsStep, if_pos hc2]
        refine ⟨hmemc, hmemL f hfL, fun h => hfc h.symm, le_of_lt hc2, ?_, ?_⟩
        · intro d hd
          rcases List.mem_append.1 hd with hd | hd
          · exact le_of_lt (lt_of_lt_of_le hc2 (hmin d hd))
          · rw [List.mem_singleton.1 hd]
        · intro d hd hd1
          rcases List.mem_append.1 hd with hd | hd
          · exact hmin d hd
          · exact absurd (List.mem_singleton.1 hd ▸ rfl : d.1 = c.1) hd1
      · by_cases hcs : c.2 < s.2
        · simp only [twoMinimumsStep, if_neg hc2, if_pos hcs]
          refine ⟨hmemL f hfL, hmemc, hfc, not_lt.1 hc2, ?_, ?_⟩
          · intro d hd
            rcases List.mem_append.1 hd with hd | hd
            · exact hmin d hd
            · rw [List.mem_singleton.1 hd]; exact not_lt.1 hc2
          · intro d hd hd1
            rcases List.mem_append.1 hd with hd | hd
            · exact le_of_lt (lt_of_lt_of_le hcs (hsnd d hd hd1))
            · rw [List.mem_singleton.1 hd]
        · simp only [twoMinimumsStep, if_neg hc2, if_neg hcs]
          refine ⟨hmemL f hfL, hmemL s hsL, hfs1, hfs2, ?_, ?_⟩
          · intro d hd
            rcases List.mem_append.1 hd with hd | hd
            · exact hmin d hd
            · rw [List.mem_singleton.1 hd]
              exact le_trans hfs2 (not_lt.1 hcs)
          · intro d hd hd1
            rcases List.mem_append.1 hd with hd | hd
            · exact hsnd d hd hd1
            · rw [List.mem_singleton.1 hd]; exact not_lt.1 hcs

theorem headsPairs_map_fst_sublist {α : Type} :
    ∀ L : List (Nat × List α),
      ((L.filterMap (fun p => p.2.head?.map (fun v => (p.1, v)))).map Prod.fst).Sublist
        (L.map Prod.fst) := by
  intro L
  induction L with
  | nil => simp
  | cons p L ih =>
    cases hh : p.2.head? with
    | none =>
      rw [List.filterMap_cons]
      simp only [hh, Option.map_none', List.map_cons]
      exact ih.cons _
    | some v =>
      rw [List.filterMap_cons]
      simp only [hh, Option.map_some', List.map_cons]
      exact ih.cons₂ _

theorem two_minimums_heads_nodup {α : Type} (slices : List (List α)) :
    ((slices.enum.filterMap
      (fun p => p.2.head?.map (fun v => (p.1, v)))).map Prod.fst).Nodup := by
  refine (headsPairs_map_fst_sublist slices.enum).nodup ?_
  rw [List.enum_map_fst]
  exact List.nodup_range _

theorem two_minimums_heads_mem {α : Type} (slices : List (List α)) (m : Nat) (h : α) :
    (m, h) ∈ slices.enum.filterMap (fun p => p.2.head?.map (fun v => (p.1, v))) ↔
      m < slices.length ∧ (slices.getD m []).head? = some h := by
  rw [List.mem_filterMap]
  constructor
  · rintro ⟨⟨i, sl⟩, hmem, hf⟩
    cases hsl : sl.head? with
    | none => rw [hsl] at hf; exact absurd hf (by simp)
    | some v =>
      rw [hsl] at hf
      simp only [Option.map_some', Option.some.injEq, Prod.mk.injEq] at hf
      obtain ⟨rfl, rfl⟩ := hf
      have hget : slices[i]? = some sl := List.mem_enum_iff_getElem?.1 hmem
      obtain ⟨hi, hgi⟩ := List.getElem?_eq_some.1 hget
      refine ⟨hi, ?_⟩
      rw [List.getD_eq_getElem _ _ hi, hgi, hsl]
  · rintro ⟨hm, hh⟩
    rw [List.getD_eq_getElem _ _ hm] at hh
    refine ⟨(m, slices[m]), ?_, ?_⟩
    · exact List.mem_enum_iff_getElem?.2 (by simp [List.getElem?_eq_getElem hm])
    · simp only [hh, Option.map_some']

theorem two_minimums_spec {α : Type} [LinearOrder α] (slices : List (List α)) :
    match two_minimums slices with
    | .Nothing => ∀ sl ∈ slices, sl = []
    | .One iv => iv.1 < slices.length ∧ (slices.getD iv.1 []).head? = some iv.2 ∧
        (∀ j, j < slices.length → j ≠ iv.1 → slices.getD j [] = [])
    | .Two fp sp => fp.1 < slices.length ∧ (slices.getD fp.1 []).head? = some fp.2 ∧
        sp.1 < slices.length ∧ sp.1 ≠ fp.1 ∧ (slices.getD sp.1 []).head? = some sp.2 ∧
        fp.2 ≤ sp.2 ∧
        (∀ m h, m < slices.length → (slices.getD m []).head? = some h → fp.2 ≤ h) ∧
        (∀ m h, m < slices.length → m ≠ fp.1 →
          (slices.getD m []).head? = some h → sp.2 ≤ h) := by
  have hfold := twoMinimums_foldl_spec
    (slices.enum.filterMap (fun p => p.2.head?.map (fun v => (p.1, v))))
    (two_minimums_heads_nodup slices)
  rw [two_minimums]
  have hmem := two_minimums_heads_mem slices
  cases hm : (slices.enum.filterMap
      (fun p => p.2.head?.map (fun v => (p.1, v)))).foldl twoMinimumsStep Minimums.Nothing with
  | Nothing =>
    rw [hm] at hfold
    intro sl hsl
    cases hsl2 : sl with
    | nil => rfl
    | cons x t =>
      obtain ⟨m, hmlt, hgm⟩ := List.mem_iff_getElem.1 hsl
      have : (m, x) ∈ slices.enum.filterMap
          (fun p => p.2.head?.map (fun v => (p.1, v))) := by
        refine (hmem m x).2 ⟨hmlt, ?_⟩
        rw [List.getD_eq_getElem _ _ hmlt, hgm, hsl2]
        rfl
      rw [hfold] at this
      exact absurd this (List.not_mem_nil _)
  | One f =>
    rw [hm] at hfold
    have hf : f.1 < slices.length ∧ (slices.getD f.1 []).head? = some f.2 := by
      have : (f.1, f.2) ∈ slices.enum.filterMap
          (fun p => p.2.head?.map (fun v => (p.1, v))) := by
        rw [hfold]; simp
      exact (hmem f.1 f.2).1 this
    refine ⟨hf.1, hf.2, ?_⟩
    intro j hj hji
    cases hsl2 : slices.getD j [] with
    | nil => rfl
    | cons x t =>
      have : (j, x) ∈ slices.enum.filterMap
          (fun p => p.2.head?.map (fun v => (p.1, v))) := by
        refine (hmem j x).2 ⟨hj, ?_⟩
        rw [hsl2]; rfl
      rw [hfold, List.mem_singleton] at this
      exact absurd (congrArg Prod.fst this) hji
  | Two f s =>
    rw [hm] at hfold
    obtain ⟨hfL, hsL, hfs1, hfs2, hminp, hsndp⟩ := hfold
    have hf := (hmem f.1 f.2).1 hfL
    have hs := (hmem s.1 s.2).1 hsL
    refine ⟨hf.1, hf.2, hs.1, fun h => hfs1 h.symm, hs.2, hfs2, ?_, ?_⟩
    · intro m h hmlt hhd
      exact hminp (m, h) ((hmem m h).2 ⟨hmlt, hhd⟩)
    · intro m h hmlt hmi hhd
      exact hsndp (m, h) ((hmem m h).2 ⟨hmlt, hhd⟩) hmi

/-! ### Total-length bookkeeping for the multi-operator fuel -/

theorem sum_map_length_set {α : Type} :
    ∀ (slices : List (List α)) (i : Nat) (v : List α), i < slices.length →
      ((slices.set i v).map List.length).sum + (slices.getD i []).length =
        (slices.map List.length).sum + v.length := by
  intro slices
  induction slices with
  | nil => intro i v hi; simp at hi
  | cons sl slices ih =>
    intro i v hi
    cases i with
    | zero => simp [List.set]; omega
    | succ i =>
      simp only [List.set, List.map_cons, List.sum_cons, List.getD_cons_succ]
      have := ih i v (by simpa using hi)
      omega

theorem sum_map_length_le_of_pointwise {α : Type} (slices : List (List α))
    (g : List α → List α) (h : ∀ sl ∈ slices, (g sl).length ≤ sl.length) :
    ((slices.map g).map List.length).sum ≤ (slices.map List.length).sum := by
  rw [List.map_map]
  exact List.sum_le_sum h

theorem sum_map_length_lt_of_pointwise {α : Type} :
    ∀ (slices : List (List α)) (g : List α → List α),
      (∀ sl ∈ slices, (g sl).length ≤ sl.length) →
      ∀ sl₀ ∈ slices, (g sl₀).length < sl₀.length →
      ((slices.map g).map List.length).sum < (slices.map List.length).sum := by
  intro slices
  induction slices with
  | nil => intro g _ sl₀ h0; simp at h0
  | cons sl slices ih =>
    intro g hle sl₀ h0 hlt
    simp only [List.map_cons, List.sum_cons]
    rcases List.mem_cons.1 h0 with rfl | h0'
    · have hrest : ((slices.map g).map List.length).sum ≤
          (slices.map List.length).sum :=
        sum_map_length_le_of_pointwise slices g
          (fun t ht => hle t (List.mem_cons_of_mem _ ht))
      omega
    · have hhead : (g sl).length ≤ sl.length := hle sl (List.mem_cons_self _ _)
      have hrest := ih g (fun t ht => hle t (List.mem_cons_of_mem _ ht)) sl₀ h0' hlt
      omega

/-! ### Multi union: specification -/

theorem multiUnionGo_spec {α : Type} [LinearOrder α] :
    ∀ fuel (slices : List (List α)), (slices.map List.length).sum < fuel →
      (∀ sl ∈ slices, sl.Sorted (· < ·)) →
      (multi.Union.extendCollectionGo Vec.extend_from_slice Vec.push
        fuel slices []).Sorted (· < ·) ∧
      (∀ z, z ∈ multi.Union.extendCollectionGo Vec.extend_from_slice Vec.push
          fuel slices [] ↔ ∃ sl ∈ slices, z ∈ sl) := by
  intro fuel
  induction fuel with
  | zero => intro slices hlen; omega
  | succ fuel ih =>
    intro slices hlen hsort
    have hspec := two_minimums_spec slices
    cases hm : two_minimums slices with
    | Nothing =>
      rw [hm] at hspec
      constructor
      · simp [multi.Union.extendCollectionGo, hm]
      · intro z
        simp only [multi.Union.extendCollectionGo, hm]
        constructor
        · intro hz; exact absurd hz (List.not_mem_nil z)
        · rintro ⟨sl, hsl, hzsl⟩
          rw [hspec sl hsl] at hzsl
          exact absurd hzsl (List.not_mem_nil z)
    | One p =>
      obtain ⟨i, v⟩ := p
      rw [hm] at hspec
      obtain ⟨hi, hheadi, hothers⟩ := hspec
      have hrw : multi.Union.extendCollectionGo Vec.extend_from_slice Vec.push
          (fuel + 1) slices [] = slices.getD i [] := by
        simp [multi.Union.extendCollectionGo, hm, Vec.extend_from_slice]
      rw [hrw]
      have hmem_i : slices.getD i [] ∈ slices := by
        rw [List.getD_eq_getElem _ _ hi]; exact List.getElem_mem _
      refine ⟨hsort _ hmem_i, ?_⟩
      intro z
      constructor
      · intro hz; exact ⟨_, hmem_i, hz⟩
      · rintro ⟨sl, hsl, hzsl⟩
        obtain ⟨m, hmlt, hgm⟩ := List.mem_iff_getElem.1 hsl
        by_cases hmi : m = i
        · subst hmi
          rwa [List.getD_eq_getElem _ _ hmlt, hgm]
        · have hnil : slices.getD m [] = [] := hothers m hmlt hmi
          rw [List.getD_eq_getElem _ _ hmlt, hgm] at hnil
          rw [hnil] at hzsl
          exact absurd hzsl (List.not_mem_nil z)
    | Two p q =>
      obtain ⟨i, f⟩ := p
      obtain ⟨j, s⟩ := q
      rw [hm] at hspec
      obtain ⟨hi, hheadi, hj, hji, hheadj, hfs_le, hminp, hsndp⟩ := hspec
      have hmem_i : slices.getD i [] ∈ slices := by
        rw [List.getD_eq_getElem _ _ hi]; exact List.getElem_mem _
      have hsorted_i : (slices.getD i []).Sorted (· < ·) := hsort _ hmem_i
      obtain ⟨ti, hti⟩ : ∃ t, slices.getD i [] = f :: t := by
        cases hsl : slices.getD i [] with
        | nil => rw [hsl] at hheadi; exact absurd hheadi (by simp)
        | cons x t =>
          rw [hsl] at hheadi
          simp only [List.head?_cons, Option.some.injEq] at hheadi
          exact ⟨t, by rw [hheadi]⟩
      have hs_mem : ∃ sl ∈ slices, s ∈ sl := by
        refine ⟨slices.getD j [], ?_, ?_⟩
        · rw [List.getD_eq_getElem _ _ hj]; exact List.getElem_mem _
        · cases hsl : slices.getD j [] with
          | nil => rw [hsl] at hheadj; exact absurd hheadj (by simp)
          | cons x t =>
            rw [hsl] at hheadj
            simp only [List.head?_cons, Option.some.injEq] at hheadj
            exact hheadj ▸ List.mem_cons_self x t
      have hall_ge : ∀ sl ∈ slices, ∀ z ∈ sl, f ≤ z := by
        intro sl hsl z hz
        obtain ⟨m, hmlt, hgm⟩ := List.mem_iff_getElem.1 hsl
        cases hsl2 : sl with
        | nil => rw [hsl2] at hz; exact absurd hz (List.not_mem_nil z)
        | cons x t =>
          have hx : f ≤ x := by
            refine hminp m x hmlt ?_
            rw [List.getD_eq_getElem _ _ hmlt, hgm, hsl2]
            rfl
          have := sorted_head_le (hsl2 ▸ hsort sl hsl) z (hsl2 ▸ hz)
          exact le_trans hx this
      have hother_ge : ∀ m, m < slices.length → m ≠ i → ∀ z ∈ slices.getD m [], s ≤ z := by
        intro m hmlt hmi z hz
        cases hsl2 : slices.getD m [] with
        | nil => rw [hsl2] at hz; exact absurd hz (List.not_mem_nil z)
        | cons x t =>
          have hx : s ≤ x := by
            refine hsndp m x hmlt hmi ?_
            rw [hsl2]; rfl
          have hmem' : slices.getD m [] ∈ slices := by
            rw [List.getD_eq_getElem _ _ hmlt]; exact List.getElem_mem _
          have := sorted_head_le (hsl2 ▸ hsort _ hmem') z (hsl2 ▸ hz)
          exact le_trans hx this
      by_cases hfs : f ≠ s
      · -- two distinct minima: emit slice i's run below s, then push s
        have hflt : f < s := lt_of_le_of_ne hfs_le hfs
        have htwl := takeWhile_eq_take_length_takeWhile
          (fun e => decide (e < s)) (slices.getD i [])
        have hdwl := dropWhile_eq_drop_length_takeWhile
          (fun e => decide (e < s)) (slices.getD i [])
        have hoff1 : 1 ≤ ((slices.getD i []).takeWhile (fun e => decide (e < s))).length := by
          rw [hti, List.takeWhile_cons_of_pos (by simpa using hflt)]
          simp
        have hoffle : ((slices.getD i []).takeWhile (fun e => decide (e < s))).length ≤
            (slices.getD i []).length := (List.takeWhile_prefix _).length_le
        have hrw : multi.Union.extendCollectionGo Vec.extend_from_slice Vec.push
            (fuel + 1) slices [] =
            (slices.getD i []).take
              (((slices.getD i []).takeWhile (fun e => decide (e < s))).length) ++
              s :: multi.Union.extendCollectionGo Vec.extend_from_slice Vec.push fuel
                ((slices.set i ((slices.getD i []).drop
                    (((slices.getD i []).takeWhile (fun e => decide (e < s))).length))).map
                  (fun sl => if sl.head? = some s then sl.drop 1 else sl)) [] := by
          simp only [multi.Union.extendCollectionGo, hm, if_pos hfs]
          rw [multiUnionGo_vec_append]
          simp [Vec.extend_from_slice, Vec.push]
        generalize hN :
          ((slices.getD i []).takeWhile (fun e => decide (e < s))).length = n
          at hrw hoff1 hoffle
        rw [hN] at htwl hdwl
        -- the advanced middle state
        have hgt₂ : ∀ sl₂ ∈ (slices.set i ((slices.getD i []).drop n)).map
            (fun sl => if sl.head? = some s then sl.drop 1 else sl),
            sl₂.Sorted (· < ·) ∧ ∀ z ∈ sl₂, s < z := by
          intro sl₂ hsl₂
          obtain ⟨sl₁, hsl₁, rfl⟩ := List.mem_map.1 hsl₂
          obtain ⟨m, hmlt, hgm⟩ := List.mem_iff_getElem.1 hsl₁
          have hmlt' : m < slices.length := by
            simpa [List.length_set] using hmlt
          have hkey : (∀ w ∈ sl₁, s ≤ w) ∧ sl₁.Sorted (· < ·) := by
            by_cases hmi : m = i
            · subst hmi
              have hv : sl₁ = (slices.getD m []).drop n := by
                rw [← hgm]; exact List.getElem_set_self _
              constructor
              · intro w hw
                rw [hv, ← hdwl] at hw
                exact sorted_mem_dropWhile_lt hsorted_i w hw
              · rw [hv]
                exact List.Pairwise.sublist (List.drop_sublist _ _) hsorted_i
            · have hv : sl₁ = slices[m] := by
                rw [← hgm]
                exact List.getElem_set_ne (fun h => hmi h.symm) _
              constructor
              · intro w hw
                refine hother_ge m hmlt' hmi w ?_
                rw [List.getD_eq_getElem _ _ hmlt', ← hv]; exact hw
              · rw [hv]; exact hsort _ (List.getElem_mem _)
          constructor
          · by_cases hcond : sl₁.head? = some s
            · rw [if_pos hcond]
              exact List.Pairwise.sublist (List.drop_sublist _ _) hkey.2
            · rw [if_neg hcond]; exact hkey.2
          · intro z hz
            by_cases hcond : sl₁.head? = some s
            · rw [if_pos hcond] at hz
              obtain ⟨t, rfl⟩ : ∃ t, sl₁ = s :: t := by
                cases sl₁ with
                | nil => exact absurd hcond (by simp)
                | cons x t =>
                  simp only [List.head?_cons, Option.some.injEq] at hcond
                  exact ⟨t, by rw [hcond]⟩
              exact (List.sorted_cons.1 hkey.2).1 z (by simpa using hz)
            · rw [if_neg hcond] at hz
              rcases eq_or_lt_of_le (hkey.1 z hz) with heq | hlt
              · exfalso
                cases sl₁ with
                | nil => exact absurd hz (List.not_mem_nil z)
                | cons x t =>
                  have hx_ge : s ≤ x := hkey.1 x (List.mem_cons_self x t)
                  have hx_le : x ≤ z := sorted_head_le hkey.2 z hz
                  apply hcond
                  simp only [List.head?_cons, Option.some.injEq]
                  exact le_antisymm (heq ▸ hx_le) hx_ge
              · exact hlt
        have hbwd : ∀ z, s < z → (∃ sl ∈ slices, z ∈ sl) →
            ∃ sl₂ ∈ (slices.set i ((slices.getD i []).drop n)).map
              (fun sl => if sl.head? = some s then sl.drop 1 else sl), z ∈ sl₂ := by
          rintro z hzs ⟨sl, hsl, hzsl⟩
          obtain ⟨m, hmlt, hgm⟩ := List.mem_iff_getElem.1 hsl
          have hzne : z ≠ s := fun h => absurd (h ▸ hzs) (lt_irrefl s)
          have hmemDrop : ∀ sl₁ : List α, z ∈ sl₁ →
              z ∈ if sl₁.head? = some s then sl₁.drop 1 else sl₁ := by
            intro sl₁ hz₁
            by_cases hcond : sl₁.head? = some s
            · rw [if_pos hcond]
              cases sl₁ with
              | nil => exact absurd hz₁ (List.not_mem_nil z)
              | cons x t =>
                simp only [List.head?_cons, Option.some.injEq] at hcond
                rcases List.mem_cons.1 hz₁ with rfl | ht
                · exact absurd hcond hzne
                · simpa using ht
            · rw [if_neg hcond]; exact hz₁
          by_cases hmi : m = i
          · subst hmi
            have hzdrop : z ∈ (slices.getD m []).drop n := by
              have hz' : z ∈ slices.getD m [] := by
                rw [List.getD_eq_getElem _ _ hmlt, hgm]; exact hzsl
              have hsplit := List.takeWhile_append_dropWhile
                (p := fun e => decide (e < s)) (l := slices.getD m [])
              rcases List.mem_append.1 (hsplit ▸ hz') with hzt | hzd
              · have : z < s := by simpa using List.mem_takeWhile_imp hzt
                exact absurd hzs (not_lt.2 (le_of_lt this))
              · rw [hdwl] at hzd; exact hzd
            refine ⟨_, List.mem_map_of_mem _ ?_, hmemDrop _ hzdrop⟩
            refine List.mem_iff_getElem.2 ⟨m, ?_, ?_⟩
            · simpa [List.length_set] using hmlt
            · exact List.getElem_set_self _
          · refine ⟨_, List.mem_map_of_mem _ ?_,
              hmemDrop slices[m] (hgm ▸ hzsl)⟩
            refine List.mem_iff_getElem.2 ⟨m, ?_, ?_⟩
            · simpa [List.length_set] using hmlt
            · exact List.getElem_set_ne (fun h => hmi h.symm) _
        have hfuel : (((slices.set i ((slices.getD i []).drop n)).map
            (fun sl => if sl.head? = some s then sl.drop 1 else sl)).map
              List.length).sum < fuel := by
          have h1 := sum_map_length_set slices i ((slices.getD i []).drop n) hi
          have h2 : (((slices.set i ((slices.getD i []).drop n)).map
              (fun sl => if sl.head? = some s then sl.drop 1 else sl)).map
                List.length).sum ≤
              ((slices.set i ((slices.getD i []).drop n)).map List.length).sum := by
            refine sum_map_length_le_of_pointwise _ _ ?_
            intro sl _
            by_cases hcond : sl.head? = some s
            · rw [if_pos hcond]; simp
            · rw [if_neg hcond]
          have h3 : ((slices.getD i []).drop n).length =
              (slices.getD i []).length - n := List.length_drop ..
          omega
        have ih' := ih _ hfuel (fun sl₂ h₂ => (hgt₂ sl₂ h₂).1)
        rw [hrw]
        have hrec_gt : ∀ z ∈ multi.Union.extendCollectionGo Vec.extend_from_slice Vec.push
            fuel ((slices.set i ((slices.getD i []).drop n)).map
              (fun sl => if sl.head? = some s then sl.drop 1 else sl)) [], s < z := by
          intro z hz
          obtain ⟨sl₂, h₂, hz₂⟩ := (ih'.2 z).1 hz
          exact (hgt₂ sl₂ h₂).2 z hz₂
        constructor
        · refine List.pairwise_append.mpr
            ⟨List.Pairwise.sublist (List.take_sublist _ _) hsorted_i, ?_, ?_⟩
          · refine List.pairwise_cons.mpr ⟨hrec_gt, ih'.1⟩
          · intro u hu v hv
            have hus : u < s := by
              have : u ∈ (slices.getD i []).takeWhile (fun e => decide (e < s)) := by
                rw [htwl]; exact hu
              simpa using List.mem_takeWhile_imp this
            rcases List.mem_cons.1 hv with rfl | hv'
            · exact hus
            · exact lt_trans hus (hrec_gt v hv')
        · intro z
          rw [List.mem_append, List.mem_cons]
          constructor
          · rintro (hz | rfl | hz)
            · exact ⟨_, hmem_i, (List.take_sublist _ _).subset hz⟩
            · exact hs_mem
            · obtain ⟨sl₂, h₂, hz₂⟩ := (ih'.2 z).1 hz
              obtain ⟨sl₁, hsl₁, rfl⟩ := List.mem_map.1 h₂
              have hz₁ : z ∈ sl₁ := by
                by_cases hcond : sl₁.head? = some s
                · rw [if_pos hcond] at hz₂
                  exact (List.drop_sublist _ _).subset hz₂
                · rw [if_neg hcond] at hz₂; exact hz₂
              rcases List.mem_or_eq_of_mem_set hsl₁ with hsl | rfl
              · exact ⟨sl₁, hsl, hz₁⟩
              · exact ⟨_, hmem_i, (List.drop_sublist _ _).subset hz₁⟩
          · rintro ⟨sl, hsl, hzsl⟩
            rcases lt_trichotomy z s with hzs | rfl | hzs
            · left
              obtain ⟨m, hmlt, hgm⟩ := List.mem_iff_getElem.1 hsl
              by_cases hmi : m = i
              · subst hmi
                have hz' : z ∈ slices.getD m [] := by
                  rw [List.getD_eq_getElem _ _ hmlt, hgm]; exact hzsl
                have hsplit := List.takeWhile_append_dropWhile
                  (p := fun e => decide (e < s)) (l := slices.getD m [])
                rcases List.mem_append.1 (hsplit ▸ hz') with hzt | hzd
                · rw [htwl] at hzt; exact hzt
                · have := sorted_mem_dropWhile_lt hsorted_i z hzd
                  exact absurd hzs (not_lt.2 this)
              · exfalso
                have : s ≤ z := by
                  refine hother_ge m hmlt hmi z ?_
                  rw [List.getD_eq_getElem _ _ hmlt, hgm]; exact hzsl
                exact absurd hzs (not_lt.2 this)
            · right; left; rfl
            · right; right
              obtain ⟨sl₂, h₂, hz₂⟩ := hbwd z hzs ⟨sl, hsl, hzsl⟩
              exact (ih'.2 z).2 ⟨sl₂, h₂, hz₂⟩
      · -- the two minima coincide: no run to emit, push s and drop the heads
        have hfs' : f = s := not_not.1 (by simpa using hfs)
        subst hfs'
        have hrw : multi.Union.extendCollectionGo Vec.extend_from_slice Vec.push
            (fuel + 1) slices [] =
            f :: multi.Union.extendCollectionGo Vec.extend_from_slice Vec.push fuel
              (slices.map (fun sl => if sl.head? = some f then sl.drop 1 else sl)) [] := by
          simp only [multi.Union.extendCollectionGo, hm, if_neg hfs]
          rw [multiUnionGo_vec_append]
          simp [Vec.extend_from_slice, Vec.push]
        have hall_mem_ge : ∀ sl ∈ slices, ∀ z ∈ sl, f ≤ z := hall_ge
        have hgt₂ : ∀ sl₂ ∈ slices.map
            (fun sl => if sl.head? = some f then sl.drop 1 else sl),
            sl₂.Sorted (· < ·) ∧ ∀ z ∈ sl₂, f < z := by
          intro sl₂ hsl₂
          obtain ⟨sl₁, hsl₁, rfl⟩ := List.mem_map.1 hsl₂
          have hkey1 : ∀ w ∈ sl₁, f ≤ w := hall_mem_ge sl₁ hsl₁
          have hkey2 : sl₁.Sorted (· < ·) := hsort _ hsl₁
          constructor
          · by_cases hcond : sl₁.head? = some f
            · rw [if_pos hcond]
              exact List.Pairwise.sublist (List.drop_sublist _ _) hkey2
            · rw [if_neg hcond]; exact hkey2
          · intro z hz
            by_cases hcond : sl₁.head? = some f
            · rw [if_pos hcond] at hz
              obtain ⟨t, rfl⟩ : ∃ t, sl₁ = f :: t := by
                cases sl₁ with
                | nil => exact absurd hcond (by simp)
                | cons x t =>
                  simp only [List.head?_cons, Option.some.injEq] at hcond
                  exact ⟨t, by rw [hcond]⟩
              exact (List.sorted_cons.1 hkey2).1 z (by simpa using hz)
            · rw [if_neg hcond] at hz
              rcases eq_or_lt_of_le (hkey1 z hz) with heq | hlt
              · exfalso
                cases sl₁ with
                | nil => exact absurd hz (List.not_mem_nil z)
                | cons x t =>
                  have hx_ge : f ≤ x := hkey1 x (List.mem_cons_self x t)
                  have hx_le : x ≤ z := sorted_head_le hkey2 z hz
                  apply hcond
                  simp only [List.head?_cons, Option.some.injEq]
                  exact le_antisymm (heq ▸ hx_le) hx_ge
              · exact hlt
        have hfuel : ((slices.map
            (fun sl => if sl.head? = some f then sl.drop 1 else sl)).map
              List.length).sum < fuel := by
          have hlt := sum_map_length_lt_of_pointwise slices
            (fun sl => if sl.head? = some f then sl.drop 1 else sl)
            (by
              intro sl _
              by_cases hcond : sl.head? = some f <;> simp [hcond])
            (slices.getD i []) hmem_i
            (by rw [hti]; simp)
          omega
        have ih' := ih _ hfuel (fun sl₂ h₂ => (hgt₂ sl₂ h₂).1)
        rw [hrw]
        have hrec_gt : ∀ z ∈ multi.Union.extendCollectionGo Vec.extend_from_slice Vec.push
            fuel (slices.map (fun sl => if sl.head? = some f then sl.drop 1 else sl))
            [], f < z := by
          intro z hz
          obtain ⟨sl₂, h₂, hz₂⟩ := (ih'.2 z).1 hz
          exact (hgt₂ sl₂ h₂).2 z hz₂
        constructor
        · exact List.pairwise_cons.mpr ⟨hrec_gt, ih'.1⟩
        · intro z
          rw [List.mem_cons]
          constructor
          · rintro (rfl | hz)
            · exact ⟨_, hmem_i, hti ▸ List.mem_cons_self _ _⟩
            · obtain ⟨sl₂, h₂, hz₂⟩ := (ih'.2 z).1 hz
              obtain ⟨sl₁, hsl₁, rfl⟩ := List.mem_map.1 h₂
              have hz₁ : z ∈ sl₁ := by
                by_cases hcond : sl₁.head? = some f
                · rw [if_pos hcond] at hz₂
                  exact (List.drop_sublist _ _).subset hz₂
                · rw [if_neg hcond] at hz₂; exact hz₂
              exact ⟨sl₁, hsl₁, hz₁⟩
          · rintro ⟨sl, hsl, hzsl⟩
            rcases eq_or_lt_of_le (hall_mem_ge sl hsl z hzsl) with rfl | hzf
            · exact Or.inl rfl
            · right
              refine (ih'.2 z).2 ⟨_, List.mem_map_of_mem _ hsl, ?_⟩
              by_cases hcond : sl.head? = some f
              · rw [if_pos hcond]
                cases sl with
                | nil => exact absurd hzsl (List.not_mem_nil z)
                | cons x t =>
                  simp only [List.head?_cons, Option.some.injEq] at hcond
                  subst hcond
                  rcases List.mem_cons.1 hzsl with rfl | ht
                  · exact absurd hzf (lt_irrefl z)
                  · simpa using ht
              · rw [if_neg hcond]; exact hzsl

/-- The multi union driven into a `Vec`: sorted output whose members are
the elements of the union of the slices. -/
theorem multiUnionVec_spec {α : Type} [LinearOrder α] (slices : List (List α))
    (hsort : ∀ sl ∈ slices, sl.Sorted (· < ·)) :
    (multiUnionVec slices).Sorted (· < ·) ∧
    (∀ z, z ∈ multiUnionVec slices ↔ ∃ sl ∈ slices, z ∈ sl) :=
  multiUnionGo_spec ((slices.map List.length).sum + 1) slices (by omega) hsort

/-! ### Multi symmetric difference: specification -/

theorem countP_slices_eq_single {α : Type} :
    ∀ (slices : List (List α)) (p : List α → Bool) (i : Nat), i < slices.length →
      (∀ m, m < slices.length → m ≠ i → p (slices.getD m []) = false) →
      slices.countP p = if p (slices.getD i []) then 1 else 0 := by
  intro slices
  induction slices with
  | nil => intro p i hi; simp at hi
  | cons sl slices ih =>
    intro p i hi h
    rw [List.countP_cons]
    cases i with
    | zero =>
      have hz : slices.countP p = 0 := by
        refine List.countP_eq_zero.2 ?_
        intro a ha
        obtain ⟨m, hmlt, hgm⟩ := List.mem_iff_getElem.1 ha
        have := h (m + 1) (by simpa using hmlt) (by omega)
        rw [List.getD_cons_succ, List.getD_eq_getElem _ _ hmlt, hgm] at this
        simp [this]
      rw [hz, List.getD_cons_zero]
      simp
    | succ i' =>
      have h0 : p sl = false := by
        have := h 0 (by simp) (by omega)
        rwa [List.getD_cons_zero] at this
      have hrec := ih p i' (by simpa using hi)
        (fun m hm hmi => by
          have := h (m + 1) (by simpa using hm) (by omega)
          rwa [List.getD_cons_succ] at this)
      rw [hrec, h0, List.getD_cons_succ]
      simp

theorem multiSymmetricDifferenceGo_spec {α : Type} [LinearOrder α] :
    ∀ fuel (slices : List (List α)), (slices.map List.length).sum < fuel →
      (∀ sl ∈ slices, sl.Sorted (· < ·)) →
      (multi.SymmetricDifference.extendCollectionGo Vec.extend_from_slice Vec.push
        fuel slices []).Sorted (· < ·) ∧
      (∀ z, z ∈ multi.SymmetricDifference.extendCollectionGo Vec.extend_from_slice Vec.push
          fuel slices [] ↔ Odd (slices.countP (fun sl => decide (z ∈ sl)))) := by
  intro fuel
  induction fuel with
  | zero => intro slices hlen; omega
  | succ fuel ih =>
    intro slices hlen hsort
    have hspec := two_minimums_spec slices
    cases hm : two_minimums slices with
    | Nothing =>
      rw [hm] at hspec
      constructor
      · simp [multi.SymmetricDifference.extendCollectionGo, hm]
      · intro z
        simp only [multi.SymmetricDifference.extendCollectionGo, hm]
        constructor
        · intro hz; exact absurd hz (List.not_mem_nil z)
        · intro hodd
          exfalso
          have : slices.countP (fun sl => decide (z ∈ sl)) = 0 := by
            refine List.countP_eq_zero.2 ?_
            intro sl hsl
            rw [hspec sl hsl]
            simp
          rw [this] at hodd
          simp [Nat.odd_iff] at hodd
    | One p =>
      obtain ⟨i, v⟩ := p
      rw [hm] at hspec
      obtain ⟨hi, hheadi, hothers⟩ := hspec
      have hrw : multi.SymmetricDifference.extendCollectionGo Vec.extend_from_slice Vec.push
          (fuel + 1) slices [] = slices.getD i [] := by
        simp [multi.SymmetricDifference.extendCollectionGo, hm, Vec.extend_from_slice]
      rw [hrw]
      have hmem_i : slices.getD i [] ∈ slices := by
        rw [List.getD_eq_getElem _ _ hi]; exact List.getElem_mem _
      refine ⟨hsort _ hmem_i, ?_⟩
      intro z
      have hcnt : slices.countP (fun sl => decide (z ∈ sl)) =
          if z ∈ slices.getD i [] then 1 else 0 := by
        rw [countP_slices_eq_single slices _ i hi]
        · by_cases hz : z ∈ slices.getD i [] <;> simp [hz]
        · intro m hmlt hmi
          rw [hothers m hmlt hmi]
          simp
      rw [hcnt]
      by_cases hz : z ∈ slices.getD i []
      · rw [if_pos hz]
        exact iff_of_true hz (by decide)
      · rw [if_neg hz]
        exact iff_of_false hz (by decide)
    | Two p q =>
      obtain ⟨i, f⟩ := p
      obtain ⟨j, s⟩ := q
      rw [hm] at hspec
      obtain ⟨hi, hheadi, hj, hji, hheadj, hfs_le, hminp, hsndp⟩ := hspec
      have hmem_i : slices.getD i [] ∈ slices := by
        rw [List.getD_eq_getElem _ _ hi]; exact List.getElem_mem _
      have hsorted_i : (slices.getD i []).Sorted (· < ·) := hsort _ hmem_i
      obtain ⟨ti, hti⟩ : ∃ t, slices.getD i [] = f :: t := by
        cases hsl : slices.getD i [] with
        | nil => rw [hsl] at hheadi; exact absurd hheadi (by simp)
        | cons x t =>
          rw [hsl] at hheadi
          simp only [List.head?_cons, Option.some.injEq] at hheadi
          exact ⟨t, by rw [hheadi]⟩
      have hall_ge : ∀ sl ∈ slices, ∀ z ∈ sl, f ≤ z := by
        intro sl hsl z hz
        obtain ⟨m, hmlt, hgm⟩ := List.mem_iff_getElem.1 hsl
        cases hsl2 : sl with
        | nil => rw [hsl2] at hz; exact absurd hz (List.not_mem_nil z)
        | cons x t =>
          have hx : f ≤ x := by
            refine hminp m x hmlt ?_
            rw [List.getD_eq_getElem _ _ hmlt, hgm, hsl2]
            rfl
          have := sorted_head_le (hsl2 ▸ hsort sl hsl) z (hsl2 ▸ hz)
          exact le_trans hx this
      have hother_ge : ∀ m, m < slices.length → m ≠ i → ∀ z ∈ slices.getD m [], s ≤ z := by
        intro m hmlt hmi z hz
        cases hsl2 : slices.getD m [] with
        | nil => rw [hsl2] at hz; exact absurd hz (List.not_mem_nil z)
        | cons x t =>
          have hx : s ≤ x := by
            refine hsndp m x hmlt hmi ?_
            rw [hsl2]; rfl
          have hmem' : slices.getD m [] ∈ slices := by
            rw [List.getD_eq_getElem _ _ hmlt]; exact List.getElem_mem _
          have := sorted_head_le (hsl2 ▸ hsort _ hmem') z (hsl2 ▸ hz)
          exact le_trans hx this
      by_cases hfs : f ≠ s
      · -- strict minimum: emit slice i's run below s, no parity to track
        have hflt : f < s := lt_of_le_of_ne hfs_le hfs
        have htwl := takeWhile_eq_take_length_takeWhile
          (fun e => decide (e < s)) (slices.getD i [])
        have hdwl := dropWhile_eq_drop_length_takeWhile
          (fun e => decide (e < s)) (slices.getD i [])
        have hoff1 : 1 ≤ ((slices.getD i []).takeWhile (fun e => decide (e < s))).length := by
          rw [hti, List.takeWhile_cons_of_pos (by simpa using hflt)]
          simp
        have hoffle : ((slices.getD i []).takeWhile (fun e => decide (e < s))).length ≤
            (slices.getD i []).length := (List.takeWhile_prefix _).length_le
        have hrw : multi.SymmetricDifference.extendCollectionGo Vec.extend_from_slice Vec.push
            (fuel + 1) slices [] =
            (slices.getD i []).take
              (((slices.getD i []).takeWhile (fun e => decide (e < s))).length) ++
              multi.SymmetricDifference.extendCollectionGo Vec.extend_from_slice Vec.push fuel
                (slices.set i ((slices.getD i []).drop
                  (((slices.getD i []).takeWhile (fun e => decide (e < s))).length))) [] := by
          simp only [multi.SymmetricDifference.extendCollectionGo, hm, if_pos hfs]
          rw [multiSymmetricDifferenceGo_vec_append]
          simp [Vec.extend_from_slice]
        generalize hN :
          ((slices.getD i []).takeWhile (fun e => decide (e < s))).length = n
          at hrw hoff1 hoffle
        rw [hN] at htwl hdwl
        have hset_sorted : ∀ sl₁ ∈ slices.set i ((slices.getD i []).drop n),
            sl₁.Sorted (· < ·) := by
          intro sl₁ hsl₁
          rcases List.mem_or_eq_of_mem_set hsl₁ with hsl | rfl
          · exact hsort _ hsl
          · exact List.Pairwise.sublist (List.drop_sublist _ _) hsorted_i
        have hset_ge : ∀ sl₁ ∈ slices.set i ((slices.getD i []).drop n),
            ∀ z ∈ sl₁, s ≤ z := by
          intro sl₁ hsl₁ z hz
          obtain ⟨m, hmlt, hgm⟩ := List.mem_iff_getElem.1 hsl₁
          have hmlt' : m < slices.length := by simpa [List.length_set] using hmlt
          by_cases hmi : m = i
          · subst hmi
            have hv : sl₁ = (slices.getD m []).drop n := by
              rw [← hgm]; exact List.getElem_set_self _
            rw [hv, ← hdwl] at hz
            exact sorted_mem_dropWhile_lt hsorted_i z hz
          · have hv : sl₁ = slices[m] := by
              rw [← hgm]
              exact List.getElem_set_ne (fun h => hmi h.symm) _
            refine hother_ge m hmlt' hmi z ?_
            rw [List.getD_eq_getElem _ _ hmlt', ← hv]; exact hz
        have hfuel : (((slices.set i ((slices.getD i []).drop n))).map
            List.length).sum < fuel := by
          have h1 := sum_map_length_set slices i ((slices.getD i []).drop n) hi
          have h3 : ((slices.getD i []).drop n).length =
              (slices.getD i []).length - n := List.length_drop ..
          omega
        have ih' := ih _ hfuel hset_sorted
        rw [hrw]
        have hrec_ge : ∀ z ∈ multi.SymmetricDifference.extendCollectionGo
            Vec.extend_from_slice Vec.push fuel
            (slices.set i ((slices.getD i []).drop n)) [], s ≤ z := by
          intro z hz
          have hodd := (ih'.2 z).1 hz
          have hpos : 0 < (slices.set i ((slices.getD i []).drop n)).countP
              (fun sl => decide (z ∈ sl)) := by
            rcases Nat.eq_zero_or_pos ((slices.set i ((slices.getD i []).drop n)).countP
              (fun sl => decide (z ∈ sl))) with h0 | hpos
            · rw [h0] at hodd; simp [Nat.odd_iff] at hodd
            · exact hpos
          obtain ⟨sl₁, hsl₁, hz₁⟩ := List.countP_pos.1 hpos
          exact hset_ge sl₁ hsl₁ z (by simpa using hz₁)
        have hcnt_eq : ∀ z, s ≤ z →
            (slices.set i ((slices.getD i []).drop n)).countP (fun sl => decide (z ∈ sl)) =
              slices.countP (fun sl => decide (z ∈ sl)) := by
          intro z hzs
          rw [List.countP_set _ _ _ _ hi]
          have hiff : z ∈ (slices.getD i []).drop n ↔ z ∈ slices[i] := by
            rw [← List.getD_eq_getElem slices [] hi]
            constructor
            · intro hz; exact (List.drop_sublist _ _).subset hz
            · intro hz
              have hsplit := List.takeWhile_append_dropWhile
                (p := fun e => decide (e < s)) (l := slices.getD i [])
              rcases List.mem_append.1 (hsplit ▸ hz) with hzt | hzd
              · have : z < s := by simpa using List.mem_takeWhile_imp hzt
                exact absurd hzs (not_le.2 this)
              · rw [hdwl] at hzd; exact hzd
          by_cases hz : z ∈ slices[i]
          · rw [if_pos (decide_eq_true hz), if_pos (decide_eq_true (hiff.2 hz))]
            have : 0 < slices.countP (fun sl => decide (z ∈ sl)) := by
              refine List.countP_pos_iff.2 ⟨slices[i], List.getElem_mem _, decide_eq_true hz⟩
            omega
          · rw [if_neg (fun hc => hz (of_decide_eq_true hc)),
              if_neg (fun hc => hz (hiff.1 (of_decide_eq_true hc)))]
            omega
        constructor
        · refine List.pairwise_append.mpr
            ⟨List.Pairwise.sublist (List.take_sublist _ _) hsorted_i, ih'.1, ?_⟩
          intro u hu v hv
          have hus : u < s := by
            have : u ∈ (slices.getD i []).takeWhile (fun e => decide (e < s)) := by
              rw [htwl]; exact hu
            simpa using List.mem_takeWhile_imp this
          exact lt_of_lt_of_le hus (hrec_ge v hv)
        · intro z
          rw [List.mem_append]
          by_cases hzs : z < s
          · -- below s the element can only live in slice i
            have hznotrec : z ∉ multi.SymmetricDifference.extendCollectionGo
                Vec.extend_from_slice Vec.push fuel
                (slices.set i ((slices.getD i []).drop n)) [] := by
              intro hz
              exact absurd hzs (not_lt.2 (hrec_ge z hz))
            have hcnt : slices.countP (fun sl => decide (z ∈ sl)) =
                if z ∈ slices.getD i [] then 1 else 0 := by
              rw [countP_slices_eq_single slices _ i hi]
              · by_cases hz : z ∈ slices.getD i [] <;> simp [hz]
              · intro m hmlt hmi
                simp only [decide_eq_false_iff_not]
                intro hzm
                exact absurd hzs (not_lt.2 (hother_ge m hmlt hmi z hzm))
            rw [hcnt]
            constructor
            · rintro (hz | hz)
              · have hzi : z ∈ slices.getD i [] := (List.take_sublist _ _).subset hz
                rw [if_pos hzi]
                decide
              · exact absurd hz hznotrec
            · intro hodd
              left
              have hzi : z ∈ slices.getD i [] := by
                by_contra hno
                rw [if_neg hno] at hodd
                simp [Nat.odd_iff] at hodd
              rw [← htwl]
              have hsplit := List.takeWhile_append_dropWhile
                (p := fun e => decide (e < s)) (l := slices.getD i [])
              rcases List.mem_append.1 (hsplit ▸ hzi) with hzt | hzd
              · exact hzt
              · have := sorted_mem_dropWhile_lt hsorted_i z hzd
                exact absurd hzs (not_lt.2 this)
          · -- at or above s the run cannot contain z and the counts agree
            have hznottake : z ∉ (slices.getD i []).take n := by
              intro hz
              have : z ∈ (slices.getD i []).takeWhile (fun e => decide (e < s)) := by
                rw [htwl]; exact hz
              have := List.mem_takeWhile_imp this
              simp at this
              exact hzs this
            rw [← hcnt_eq z (not_lt.1 hzs)]
            constructor
            · rintro (hz | hz)
              · exact absurd hz hznottake
              · exact (ih'.2 z).1 hz
            · intro hodd
              exact Or.inr ((ih'.2 z).2 hodd)
      · -- equal minima: count the heads equal to f and keep f on odd parity
        have hfs' : f = s := not_not.1 (by simpa using hfs)
        subst hfs'
        have hrw : multi.SymmetricDifference.extendCollectionGo Vec.extend_from_slice Vec.push
            (fuel + 1) slices [] =
            (if slices.countP (fun sl => decide (sl.head? = some f)) % 2 ≠ 0
              then [f] else []) ++
              multi.SymmetricDifference.extendCollectionGo Vec.extend_from_slice Vec.push fuel
                (slices.map (fun sl => if sl.head? = some f then sl.drop 1 else sl)) [] := by
          simp only [multi.SymmetricDifference.extendCollectionGo, hm, if_neg hfs]
          by_cases hpar : slices.countP (fun sl => decide (sl.head? = some f)) % 2 ≠ 0
          · rw [if_pos hpar, if_pos hpar, multiSymmetricDifferenceGo_vec_append]
            simp [Vec.push]
          · rw [if_neg hpar, if_neg hpar]
            simp
        have hgt₂ : ∀ sl₂ ∈ slices.map
            (fun sl => if sl.head? = some f then sl.drop 1 else sl),
            sl₂.Sorted (· < ·) ∧ ∀ z ∈ sl₂, f < z := by
          intro sl₂ hsl₂
          obtain ⟨sl₁, hsl₁, rfl⟩ := List.mem_map.1 hsl₂
          have hkey1 : ∀ w ∈ sl₁, f ≤ w := hall_ge sl₁ hsl₁
          have hkey2 : sl₁.Sorted (· < ·) := hsort _ hsl₁
          constructor
          · by_cases hcond : sl₁.head? = some f
            · rw [if_pos hcond]
              exact List.Pairwise.sublist (List.drop_sublist _ _) hkey2
            · rw [if_neg hcond]; exact hkey2
          · intro z hz
            by_cases hcond : sl₁.head? = some f
            · rw [if_pos hcond] at hz
              obtain ⟨t, rfl⟩ : ∃ t, sl₁ = f :: t := by
                cases sl₁ with
                | nil => exact absurd hcond (by simp)
                | cons x t =>
                  simp only [List.head?_cons, Option.some.injEq] at hcond
                  exact ⟨t, by rw [hcond]⟩
              exact (List.sorted_cons.1 hkey2).1 z (by simpa using hz)
            · rw [if_neg hcond] at hz
              rcases eq_or_lt_of_le (hkey1 z hz) with heq | hlt
              · exfalso
                cases sl₁ with
                | nil => exact absurd hz (List.not_mem_nil z)
                | cons x t =>
                  have hx_ge : f ≤ x := hkey1 x (List.mem_cons_self x t)
                  have hx_le : x ≤ z := sorted_head_le hkey2 z hz
                  apply hcond
                  simp only [List.head?_cons, Option.some.injEq]
                  exact le_antisymm (heq ▸ hx_le) hx_ge
              · exact hlt
        have hfuel : ((slices.map
            (fun sl => if sl.head? = some f then sl.drop 1 else sl)).map
              List.length).sum < fuel := by
          have hlt := sum_map_length_lt_of_pointwise slices
            (fun sl => if sl.head? = some f then sl.drop 1 else sl)
            (by
              intro sl _
              by_cases hcond : sl.head? = some f <;> simp [hcond])
            (slices.getD i []) hmem_i
            (by rw [hti]; simp)
          omega
        have ih' := ih _ hfuel (fun sl₂ h₂ => (hgt₂ sl₂ h₂).1)
        rw [hrw]
        have hrec_gt : ∀ z ∈ multi.SymmetricDifference.extendCollectionGo
            Vec.extend_from_slice Vec.push fuel
            (slices.map (fun sl => if sl.head? = some f then sl.drop 1 else sl)) [],
            f < z := by
          intro z hz
          have hodd := (ih'.2 z).1 hz
          have hpos : 0 < (slices.map
              (fun sl => if sl.head? = some f then sl.drop 1 else sl)).countP
              (fun sl => decide (z ∈ sl)) := by
            rcases Nat.eq_zero_or_pos ((slices.map
              (fun sl => if sl.head? = some f then sl.drop 1 else sl)).countP
              (fun sl => decide (z ∈ sl))) with h0 | hpos
            · rw [h0] at hodd; simp [Nat.odd_iff] at hodd
            · exact hpos
          obtain ⟨sl₂, hsl₂, hz₂⟩ := List.countP_pos.1 hpos
          exact (hgt₂ sl₂ hsl₂).2 z (by simpa using hz₂)
        have hhead_iff : ∀ sl ∈ slices, (f ∈ sl ↔ sl.head? = some f) := by
          intro sl hsl
          constructor
          · intro hf
            cases sl with
            | nil => exact absurd hf (List.not_mem_nil f)
            | cons x t =>
              have hx_ge : f ≤ x := hall_ge _ hsl x (List.mem_cons_self x t)
              have hx_le : x ≤ f := sorted_head_le (hsort _ hsl) f hf
              simp [le_antisymm hx_le hx_ge]
          · intro hh
            cases sl with
            | nil => exact absurd hh (by simp)
            | cons x t =>
              simp only [List.head?_cons, Option.some.injEq] at hh
              exact hh ▸ List.mem_cons_self x t
        have hcnt_f : slices.countP (fun sl => decide (f ∈ sl)) =
            slices.countP (fun sl => decide (sl.head? = some f)) := by
          refine List.countP_congr ?_
          intro sl hsl
          simp [hhead_iff sl hsl]
        have hcnt_ne : ∀ z, z ≠ f →
            (slices.map (fun sl => if sl.head? = some f then sl.drop 1 else sl)).countP
              (fun sl => decide (z ∈ sl)) =
              slices.countP (fun sl => decide (z ∈ sl)) := by
          intro z hz
          rw [List.countP_map]
          refine List.countP_congr ?_
          intro sl hsl
          simp only [Function.comp_apply]
          by_cases hcond : sl.head? = some f
          · rw [if_pos hcond]
            cases sl with
            | nil => simp
            | cons x t =>
              simp only [List.head?_cons, Option.some.injEq] at hcond
              subst hcond
              simp [List.mem_cons, hz]
          · rw [if_neg hcond]
        constructor
        · refine List.pairwise_append.mpr ⟨?_, ih'.1, ?_⟩
          · by_cases hpar : slices.countP (fun sl => decide (sl.head? = some f)) % 2 ≠ 0 <;>
              simp [hpar]
          · intro u hu v hv
            by_cases hpar : slices.countP (fun sl => decide (sl.head? = some f)) % 2 ≠ 0
            · rw [if_pos hpar, List.mem_singleton] at hu
              exact hu ▸ hrec_gt v hv
            · rw [if_neg hpar] at hu
              exact absurd hu (List.not_mem_nil u)
        · intro z
          rw [List.mem_append]
          by_cases hzf : z = f
          · subst hzf
            have hznotrec : z ∉ multi.SymmetricDifference.extendCollectionGo
                Vec.extend_from_slice Vec.push fuel
                (slices.map (fun sl => if sl.head? = some z then sl.drop 1 else sl)) [] := by
              intro hz
              exact absurd (hrec_gt z hz) (lt_irrefl z)
            rw [hcnt_f]
            by_cases hpar : slices.countP (fun sl => decide (sl.head? = some z)) % 2 ≠ 0
            · simp only [if_pos hpar]
              constructor
              · intro _
                rw [Nat.odd_iff]
                omega
              · intro _; exact Or.inl (List.mem_singleton.2 rfl)
            · simp only [if_neg hpar]
              constructor
              · rintro (hz | hz)
                · exact absurd hz (List.not_mem_nil z)
                · exact absurd hz hznotrec
              · intro hodd
                rw [Nat.odd_iff] at hodd
                omega
          · have hznotsing : z ∉ (if slices.countP
                (fun sl => decide (sl.head? = some f)) % 2 ≠ 0
                then [f] else ([] : List α)) := by
              by_cases hpar : slices.countP (fun sl => decide (sl.head? = some f)) % 2 ≠ 0
              · rw [if_pos hpar, List.mem_singleton]
                exact hzf
              · rw [if_neg hpar]
                exact List.not_mem_nil z
            rw [← hcnt_ne z hzf]
            constructor
            · rintro (hz | hz)
              · exact absurd hz hznotsing
              · exact (ih'.2 z).1 hz
            · intro hodd
              exact Or.inr ((ih'.2 z).2 hodd)

/-- The multi symmetric difference driven into a `Vec`: sorted output whose
members are the elements present in an odd number of the slices. -/
theorem multiSymmetricDifferenceVec_spec {α : Type} [LinearOrder α]
    (slices : List (List α)) (hsort : ∀ sl ∈ slices, sl.Sorted (· < ·)) :
    (multiSymmetricDifferenceVec slices).Sorted (· < ·) ∧
    (∀ z, z ∈ multiSymmetricDifferenceVec slices ↔
      Odd (slices.countP (fun sl => decide (z ∈ sl)))) :=
  multiSymmetricDifferenceGo_spec ((slices.map List.length).sum + 1) slices (by omega) hsort

/-! ### `test_equality`: the head pass computes the all-equal flag and the
maximum head -/

theorem headsOf_some_of_nonempty {α : Type} :
    ∀ slices : List (List α), (∀ sl ∈ slices, sl ≠ []) →
      ∃ heads, multi.headsOf slices = some heads := by
  intro slices
  induction slices with
  | nil => intro _; exact ⟨[], rfl⟩
  | cons s ss ih =>
    intro h
    obtain ⟨heads, hh⟩ := ih (fun sl hsl => h sl (List.mem_cons_of_mem _ hsl))
    cases hs : s.head? with
    | none =>
      have := h s (List.mem_cons_self _ _)
      cases s with
      | nil => exact absurd rfl this
      | cons x t => exact absurd hs (by simp)
    | some v =>
      exact ⟨v :: heads, by simp [multi.headsOf, hs, hh]⟩

theorem headsOf_mem_iff {α : Type} :
    ∀ (slices : List (List α)) heads, multi.headsOf slices = some heads →
      ∀ x, x ∈ heads ↔ ∃ sl ∈ slices, sl.head? = some x := by
  intro slices
  induction slices with
  | nil =>
    intro heads hh x
    simp only [multi.headsOf, Option.some.injEq] at hh
    subst hh
    simp
  | cons s ss ih =>
    intro heads hh x
    cases hs : s.head? with
    | none => rw [multi.headsOf, hs] at hh; cases hh
    | some v =>
      rw [multi.headsOf, hs] at hh
      cases ht : multi.headsOf ss with
      | none => rw [ht] at hh; cases hh
      | some t =>
        rw [ht] at hh
        simp only [Option.map_some', Option.some.injEq] at hh
        subst hh
        rw [List.mem_cons, ih t ht x]
        constructor
        · rintro (rfl | ⟨sl, hsl, hx⟩)
          · exact ⟨s, List.mem_cons_self _ _, hs⟩
          · exact ⟨sl, List.mem_cons_of_mem _ hsl, hx⟩
        · rintro ⟨sl, hsl, hx⟩
          rcases List.mem_cons.1 hsl with rfl | hsl'
          · left
            rw [hs] at hx
            exact (Option.some.injEq _ _ ▸ hx).symm
          · exact Or.inr ⟨sl, hsl', hx⟩

theorem testEquality_foldl_flag {α : Type} [LinearOrder α] :
    ∀ (L : List α) (p : Nat × α),
      (L.foldl (fun (p : Nat × α) x =>
        (if x ≠ p.2 then 0 else p.1, if p.2 < x then x else p.2)) p).1 ≠ 0 ↔
      p.1 ≠ 0 ∧ ∀ x ∈ L, x = p.2 := by
  intro L
  induction L with
  | nil => intro p; simp
  | cons x L ih =>
    intro p
    rw [List.foldl_cons]
    by_cases hx : x = p.2
    · have hstep : ((if x ≠ p.2 then 0 else p.1 : Nat), if p.2 < x then x else p.2) = p := by
        rw [if_neg (by simpa using hx), if_neg (by rw [hx]; exact lt_irrefl _)]
      rw [hstep, ih]
      simp only [List.mem_cons]
      constructor
      · rintro ⟨h1, h2⟩
        exact ⟨h1, fun y hy => hy.elim (fun h => h ▸ hx) (h2 y)⟩
      · rintro ⟨h1, h2⟩
        exact ⟨h1, fun y hy => h2 y (Or.inr hy)⟩
    · have hstep : ((if x ≠ p.2 then 0 else p.1 : Nat), if p.2 < x then x else p.2) =
          (0, if p.2 < x then x else p.2) := by
        rw [if_pos (by simpa using hx)]
      rw [hstep, ih]
      simp only [List.mem_cons]
      constructor
      · rintro ⟨h1, _⟩
        exact absurd rfl h1
      · rintro ⟨_, h2⟩
        exact absurd (h2 x (Or.inl rfl)) hx

theorem testEquality_foldl_max {α : Type} [LinearOrder α] :
    ∀ (L : List α) (p : Nat × α),
      p.2 ≤ (L.foldl (fun (p : Nat × α) x =>
          (if x ≠ p.2 then 0 else p.1, if p.2 < x then x else p.2)) p).2 ∧
      (∀ x ∈ L, x ≤ (L.foldl (fun (p : Nat × α) x =>
          (if x ≠ p.2 then 0 else p.1, if p.2 < x then x else p.2)) p).2) ∧
      ((L.foldl (fun (p : Nat × α) x =>
          (if x ≠ p.2 then 0 else p.1, if p.2 < x then x else p.2)) p).2 = p.2 ∨
        (L.foldl (fun (p : Nat × α) x =>
          (if x ≠ p.2 then 0 else p.1, if p.2 < x then x else p.2)) p).2 ∈ L) := by
  intro L
  induction L with
  | nil => intro p; exact ⟨le_rfl, by simp, Or.inl rfl⟩
  | cons x L ih =>
    intro p
    rw [List.foldl_cons]
    obtain ⟨h1, h2, h3⟩ := ih ((if x ≠ p.2 then 0 else p.1 : Nat), if p.2 < x then x else p.2)
    have hsnd : ((if x ≠ p.2 then 0 else p.1 : Nat), if p.2 < x then x else p.2).2 =
        if p.2 < x then x else p.2 := rfl
    rw [hsnd] at h1 h3
    have hp2 : p.2 ≤ if p.2 < x then x else p.2 := by
      by_cases hlt : p.2 < x
      · rw [if_pos hlt]; exact le_of_lt hlt
      · rw [if_neg hlt]
    have hx2 : x ≤ if p.2 < x then x else p.2 := by
      by_cases hlt : p.2 < x
      · rw [if_pos hlt]
      · rw [if_neg hlt]; exact not_lt.1 hlt
    refine ⟨le_trans hp2 h1, ?_, ?_⟩
    · intro y hy
      rcases List.mem_cons.1 hy with rfl | hy'
      · exact le_trans hx2 h1
      · exact h2 y hy'
    · rcases h3 with heq | hmem
      · by_cases hlt : p.2 < x
        · right
          rw [heq, if_pos hlt]
          exact List.mem_cons_self _ _
        · left
          rw [heq, if_neg hlt]
      · exact Or.inr (List.mem_cons_of_mem _ hmem)

/-- What `test_equality` returns on its precondition (non-empty list of
non-empty slices): the maximum head, tagged `Equal` exactly when every head
equals it. -/
theorem test_equality_spec {α : Type} [LinearOrder α] (slices : List (List α))
    (hne : slices ≠ []) (hnonempty : ∀ sl ∈ slices, sl ≠ []) :
    ∃ mx, (∃ sl ∈ slices, sl.head? = some mx) ∧
      (∀ sl ∈ slices, ∀ h, sl.head? = some h → h ≤ mx) ∧
      ((multi.test_equality slices = some (.Equal mx) ∧
          ∀ sl ∈ slices, sl.head? = some mx) ∨
        (multi.test_equality slices = some (.NotEqual mx) ∧
          ¬ ∀ sl ∈ slices, sl.head? = some mx)) := by
  obtain ⟨heads, hheads⟩ := headsOf_some_of_nonempty slices hnonempty
  have hmemiff := headsOf_mem_iff slices heads hheads
  obtain ⟨s₀, ss, rfl⟩ : ∃ s₀ ss, slices = s₀ :: ss := by
    cases slices with
    | nil => exact absurd rfl hne
    | cons s₀ ss => exact ⟨s₀, ss, rfl⟩
  obtain ⟨h₀, t, rfl⟩ : ∃ h₀ t, heads = h₀ :: t := by
    cases hs : s₀.head? with
    | none =>
      have := hnonempty s₀ (List.mem_cons_self _ _)
      cases s₀ with
      | nil => exact absurd rfl this
      | cons x u => exact absurd hs (by simp)
    | some v =>
      rw [multi.headsOf, hs] at hheads
      cases ht : multi.headsOf ss with
      | none => rw [ht] at hheads; cases hheads
      | some u =>
        rw [ht] at hheads
        simp only [Option.map_some', Option.some.injEq] at hheads
        exact ⟨v, u, hheads.symm⟩
  have hrun : multi.test_equality (s₀ :: ss) =
      some (if ((h₀ :: t).foldl (fun (p : Nat × α) x =>
          (if x ≠ p.2 then 0 else p.1, if p.2 < x then x else p.2)) (1, h₀)).1 ≠ 0
        then .Equal ((h₀ :: t).foldl (fun (p : Nat × α) x =>
          (if x ≠ p.2 then 0 else p.1, if p.2 < x then x else p.2)) (1, h₀)).2
        else .NotEqual ((h₀ :: t).foldl (fun (p : Nat × α) x =>
          (if x ≠ p.2 then 0 else p.1, if p.2 < x then x else p.2)) (1, h₀)).2) := by
    rw [multi.test_equality, hheads]
  obtain ⟨hmax1, hmax2, hmax3⟩ := testEquality_foldl_max (h₀ :: t) (1, h₀)
  have hflag := testEquality_foldl_flag (h₀ :: t) (1, h₀)
  set r := (h₀ :: t).foldl (fun (p : Nat × α) x =>
    (if x ≠ p.2 then 0 else p.1, if p.2 < x then x else p.2)) (1, h₀) with hrdef
  have hmx_mem : r.2 ∈ h₀ :: t := by
    rcases hmax3 with heq | hmem
    · exact heq ▸ List.mem_cons_self _ _
    · exact hmem
  refine ⟨r.2, (hmemiff r.2).1 hmx_mem, ?_, ?_⟩
  · intro sl hsl h hh
    exact hmax2 h ((hmemiff h).2 ⟨sl, hsl, hh⟩)
  · by_cases hfl : r.1 ≠ 0
    · left
      constructor
      · rw [hrun, if_pos hfl]
      · have hall : ∀ x ∈ h₀ :: t, x = h₀ := (hflag.1 hfl).2
        have hmx_h₀ : r.2 = h₀ := hall r.2 hmx_mem
        intro sl hsl
        cases hsl2 : sl.head? with
        | none =>
          have := hnonempty sl hsl
          cases sl with
          | nil => exact absurd rfl this
          | cons x u => exact absurd hsl2 (by simp)
        | some v =>
          have hv : v ∈ h₀ :: t := (hmemiff v).2 ⟨sl, hsl, hsl2⟩
          rw [hall v hv, ← hmx_h₀]
    · right
      constructor
      · rw [hrun, if_neg hfl]
      · intro hallmx
        apply hfl
        rw [hflag]
        refine ⟨by simp, ?_⟩
        have hs₀head : s₀.head? = some h₀ := by
          have hcopy := hheads
          cases hs : s₀.head? with
          | none => rw [multi.headsOf, hs] at hcopy; cases hcopy
          | some v =>
            rw [multi.headsOf, hs] at hcopy
            cases ht : multi.headsOf ss with
            | none => rw [ht] at hcopy; cases hcopy
            | some u =>
              rw [ht] at hcopy
              simp only [Option.map_some', Option.some.injEq, List.cons.injEq] at hcopy
              rw [hcopy.1]
        have hh₀ : h₀ = r.2 := by
          have hs := hallmx s₀ (List.mem_cons_self _ _)
          rw [hs₀head] at hs
          injection hs with h'
        intro x hx
        obtain ⟨sl, hsl, hslx⟩ := (hmemiff x).1 hx
        have hmx := hallmx sl hsl
        rw [hmx] at hslx
        injection hslx with hxr
        rw [← hxr, hh₀]

/-! ### Multi intersection: specification -/

theorem multiIntersectionGo_spec {α : Type} [LinearOrder α] :
    ∀ fuel (slices : List (List α)), (slices.map List.length).sum < fuel →
      slices ≠ [] → (∀ sl ∈ slices, sl ≠ []) → (∀ sl ∈ slices, sl.Sorted (· < ·)) →
      (multi.Intersection.extendCollectionGo Vec.push fuel slices []).Sorted (· < ·) ∧
      (∀ z, z ∈ multi.Intersection.extendCollectionGo Vec.push fuel slices [] ↔
        ∀ sl ∈ slices, z ∈ sl) := by
  intro fuel
  induction fuel with
  | zero => intro slices hlen; omega
  | succ fuel ih =>
    intro slices hlen hne hnonempty hsort
    obtain ⟨mx, ⟨sl_mx, hslmx_mem, hslmx_head⟩, hmax, hcase⟩ :=
      test_equality_spec slices hne hnonempty
    have hz_ge_mx : ∀ z, (∀ sl ∈ slices, z ∈ sl) → mx ≤ z := by
      intro z hz
      obtain ⟨t, rfl⟩ : ∃ t, sl_mx = mx :: t := by
        cases sl_mx with
        | nil => exact absurd hslmx_head (by simp)
        | cons x t =>
          simp only [List.head?_cons, Option.some.injEq] at hslmx_head
          exact ⟨t, by rw [hslmx_head]⟩
      exact sorted_head_le (hsort _ hslmx_mem) z (hz _ hslmx_mem)
    rcases hcase with ⟨hteq, hall⟩ | ⟨hteq, hnotall⟩
    · -- all heads equal: push the common head
      have hcons : ∀ sl ∈ slices, ∃ t, sl = mx :: t := by
        intro sl hsl
        have := hall sl hsl
        cases sl with
        | nil => exact absurd this (by simp)
        | cons x t =>
          simp only [List.head?_cons, Option.some.injEq] at this
          exact ⟨t, by rw [this]⟩
      by_cases hemp : (slices.map (List.drop 1)).any List.isEmpty
      · have hrw : multi.Intersection.extendCollectionGo Vec.push (fuel + 1) slices [] =
            [mx] := by
          simp only [multi.Intersection.extendCollectionGo, hteq, if_pos hemp]
          simp [Vec.push]
        rw [hrw]
        obtain ⟨sl₀, hsl₀, hdrop₀⟩ : ∃ sl ∈ slices, sl.drop 1 = [] := by
          obtain ⟨x, hx, hxe⟩ := List.any_eq_true.1 hemp
          obtain ⟨sl, hsl, rfl⟩ := List.mem_map.1 hx
          exact ⟨sl, hsl, List.isEmpty_iff.1 hxe⟩
        obtain ⟨t₀, rfl⟩ := hcons sl₀ hsl₀
        have ht₀ : t₀ = [] := by simpa using hdrop₀
        subst ht₀
        constructor
        · simp
        · intro z
          constructor
          · intro hz sl hsl
            obtain ⟨t, rfl⟩ := hcons sl hsl
            rw [List.mem_singleton.1 hz]
            exact List.mem_cons_self _ _
          · intro hz
            have := hz _ hsl₀
            simpa using this
      · have hrw : multi.Intersection.extendCollectionGo Vec.push (fuel + 1) slices [] =
            mx :: multi.Intersection.extendCollectionGo Vec.push fuel
              (slices.map (List.drop 1)) [] := by
          simp only [multi.Intersection.extendCollectionGo, hteq, if_neg hemp]
          rw [multiIntersectionGo_vec_append]
          simp [Vec.push]
        obtain ⟨s₀, ss, rfl⟩ : ∃ s₀ ss, slices = s₀ :: ss := by
          cases slices with
          | nil => exact absurd rfl hne
          | cons s₀ ss => exact ⟨s₀, ss, rfl⟩
        have hfuel : (((s₀ :: ss).map (List.drop 1)).map List.length).sum < fuel := by
          have hlt := sum_map_length_lt_of_pointwise (s₀ :: ss) (List.drop 1)
            (by intro sl _; simp)
            s₀ (List.mem_cons_self _ _)
            (by
              obtain ⟨t, rfl⟩ := hcons s₀ (List.mem_cons_self _ _)
              simp)
          omega
        have hne₂ : ∀ sl₂ ∈ (s₀ :: ss).map (List.drop 1), sl₂ ≠ [] := by
          intro sl₂ h₂ h0
          exact hemp (List.any_eq_true.2 ⟨sl₂, h₂, by simp [h0]⟩)
        have ih' := ih ((s₀ :: ss).map (List.drop 1)) hfuel (by simp) hne₂
          (by
            intro sl₂ h₂
            obtain ⟨sl, hsl, rfl⟩ := List.mem_map.1 h₂
            exact List.Pairwise.sublist (List.drop_sublist _ _) (hsort sl hsl))
        rw [hrw]
        have hrec_gt : ∀ z ∈ multi.Intersection.extendCollectionGo Vec.push fuel
            ((s₀ :: ss).map (List.drop 1)) [], mx < z := by
          intro z hz
          have hz₂ := (ih'.2 z).1 hz
          obtain ⟨t₀, ht₀⟩ := hcons s₀ (List.mem_cons_self _ _)
          have : z ∈ s₀.drop 1 :=
            hz₂ _ (List.mem_map_of_mem _ (List.mem_cons_self _ _))
          rw [ht₀] at this
          simp only [List.drop_succ_cons, List.drop_zero] at this
          exact (List.sorted_cons.1 (ht₀ ▸ hsort s₀ (List.mem_cons_self _ _))).1 z this
        constructor
        · exact List.pairwise_cons.mpr ⟨hrec_gt, ih'.1⟩
        · intro z
          rw [List.mem_cons]
          constructor
          · rintro (rfl | hz)
            · intro sl hsl
              obtain ⟨t, rfl⟩ := hcons sl hsl
              exact List.mem_cons_self _ _
            · intro sl hsl
              obtain ⟨t, rfl⟩ := hcons sl hsl
              have := (ih'.2 z).1 hz _ (List.mem_map_of_mem _ hsl)
              simp only [List.drop_succ_cons, List.drop_zero] at this
              exact List.mem_cons_of_mem _ this
          · intro hz
            by_cases hzmx : z = mx
            · exact Or.inl hzmx
            · right
              refine (ih'.2 z).2 ?_
              rw [List.forall_mem_map]
              intro sl hsl
              obtain ⟨t, rfl⟩ := hcons sl hsl
              have := hz _ hsl
              simp only [List.drop_succ_cons, List.drop_zero]
              rcases List.mem_cons.1 this with rfl | ht
              · exact absurd rfl hzmx
              · exact ht
    · -- heads differ: skip every slice ahead to the maximum head
      have hmapeq : slices.map (fun s => exponential_offset_ge s mx) =
          slices.map (fun s => s.dropWhile (fun e => decide (e < mx))) :=
        List.map_congr_left (fun sl hsl => exponential_offset_ge_sorted sl mx (hsort sl hsl))
      by_cases hemp : (slices.map
          (fun s => s.dropWhile (fun e => decide (e < mx)))).any List.isEmpty
      · have hrw : multi.Intersection.extendCollectionGo Vec.push (fuel + 1) slices [] =
            [] := by
          simp only [multi.Intersection.extendCollectionGo, hteq]
          rw [hmapeq, if_pos hemp]
        rw [hrw]
        obtain ⟨sl₀, hsl₀, hdrop₀⟩ : ∃ sl ∈ slices,
            sl.dropWhile (fun e => decide (e < mx)) = [] := by
          obtain ⟨x, hx, hxe⟩ := List.any_eq_true.1 hemp
          obtain ⟨sl, hsl, rfl⟩ := List.mem_map.1 hx
          exact ⟨sl, hsl, List.isEmpty_iff.1 hxe⟩
        constructor
        · simp
        · intro z
          constructor
          · intro hz; exact absurd hz (List.not_mem_nil z)
          · intro hz
            exfalso
            have hzlt : z < mx := by
              have hzin := hz _ hsl₀
              have := List.dropWhile_eq_nil_iff.1 hdrop₀ z hzin
              simpa using this
            exact absurd (hz_ge_mx z hz) (not_le.2 hzlt)
      · have hrw : multi.Intersection.extendCollectionGo Vec.push (fuel + 1) slices [] =
            multi.Intersection.extendCollectionGo Vec.push fuel
              (slices.map (fun s => s.dropWhile (fun e => decide (e < mx)))) [] := by
          simp only [multi.Intersection.extendCollectionGo, hteq]
          rw [hmapeq, if_neg hemp]
        obtain ⟨sl₀, hsl₀, hhd₀⟩ : ∃ sl ∈ slices, ¬ sl.head? = some mx := by
          by_contra hno
          push_neg at hno
          exact hnotall hno
        have hfuel : ((slices.map
            (fun s => s.dropWhile (fun e => decide (e < mx)))).map List.length).sum <
            fuel := by
          obtain ⟨h₀, t₀, rfl⟩ : ∃ h₀ t₀, sl₀ = h₀ :: t₀ := by
            cases sl₀ with
            | nil => exact absurd rfl (hnonempty _ hsl₀)
            | cons x t => exact ⟨x, t, rfl⟩
          have hh₀ : h₀ < mx := by
            have hle : h₀ ≤ mx := hmax _ hsl₀ h₀ rfl
            rcases eq_or_lt_of_le hle with rfl | hlt
            · exact absurd rfl hhd₀
            · exact hlt
          have hlt := sum_map_length_lt_of_pointwise slices
            (fun s => s.dropWhile (fun e => decide (e < mx)))
            (by intro sl _; exact (List.dropWhile_sublist _).length_le)
            (h₀ :: t₀) hsl₀
            (by
              show ((h₀ :: t₀).dropWhile (fun e => decide (e < mx))).length <
                (h₀ :: t₀).length
              rw [List.dropWhile_cons_of_pos (by simpa using hh₀)]
              have := (List.dropWhile_sublist
                (fun e => decide (e < mx)) (l := t₀)).length_le
              simp only [List.length_cons]
              omega)
          omega
        have hne₂ : ∀ sl₂ ∈ slices.map (fun s => s.dropWhile (fun e => decide (e < mx))),
            sl₂ ≠ [] := by
          intro sl₂ h₂ h0
          exact hemp (List.any_eq_true.2 ⟨sl₂, h₂, by simp [h0]⟩)
        have ih' := ih (slices.map (fun s => s.dropWhile (fun e => decide (e < mx))))
          hfuel (by simpa using hne) hne₂
          (by
            intro sl₂ h₂
            obtain ⟨sl, hsl, rfl⟩ := List.mem_map.1 h₂
            exact List.Pairwise.sublist (List.dropWhile_sublist _) (hsort sl hsl))
        rw [hrw]
        refine ⟨ih'.1, ?_⟩
        intro z
        rw [ih'.2, List.forall_mem_map]
        constructor
        · intro hz sl hsl
          exact (List.dropWhile_sublist _).subset (hz sl hsl)
        · intro hz sl hsl
          have hzge : mx ≤ z := hz_ge_mx z hz
          have hsplit := List.takeWhile_append_dropWhile
            (p := fun e => decide (e < mx)) (l := sl)
          rcases List.mem_append.1 (hsplit ▸ hz sl hsl) with hzt | hzd
          · have : z < mx := by simpa using List.mem_takeWhile_imp hzt
            exact absurd hzge (not_le.2 this)
          · exact hzd

/-- The multi intersection driven into a `Vec`: for a non-empty list of
sorted slices, sorted output whose members are the common elements. -/
theorem multiIntersectionVec_spec {α : Type} [LinearOrder α] (slices : List (List α))
    (hne : slices ≠ []) (hsort : ∀ sl ∈ slices, sl.Sorted (· < ·)) :
    (multiIntersectionVec slices).Sorted (· < ·) ∧
    (∀ z, z ∈ multiIntersectionVec slices ↔ ∀ sl ∈ slices, z ∈ sl) := by
  rw [multiIntersectionVec, multi.Intersection.extend_collection]
  rw [if_neg (by simpa using hne)]
  by_cases hemp : slices.any List.isEmpty
  · rw [if_pos hemp]
    obtain ⟨sl₀, hsl₀, h₀⟩ : ∃ sl ∈ slices, sl = [] := by
      obtain ⟨x, hx, hxe⟩ := List.any_eq_true.1 hemp
      exact ⟨x, hx, List.isEmpty_iff.1 hxe⟩
    constructor
    · simp
    · intro z
      constructor
      · intro hz; exact absurd hz (List.not_mem_nil z)
      · intro hz
        have := hz _ hsl₀
        rw [h₀] at this
        exact absurd this (List.not_mem_nil z)
  · rw [if_neg hemp]
    refine multiIntersectionGo_spec ((slices.map List.length).sum + 1) slices
      (by omega) hne ?_ hsort
    intro sl hsl h0
    exact hemp (List.any_eq_true.2 ⟨sl, hsl, by simp [h0]⟩)

/-! ### Multi difference: specification -/

theorem min?_eq_some_iff_linear {α : Type} [LinearOrder α] {xs : List α} {a : α} :
    xs.min? = some a ↔ a ∈ xs ∧ ∀ b ∈ xs, a ≤ b := by
  haveI : Std.Antisymm (α := α) (· ≤ ·) := ⟨fun h1 h2 => le_antisymm h1 h2⟩
  exact List.min?_eq_some_iff (fun a => le_refl a) (fun a b => min_choice a b)
    (fun a b c => le_min_iff)

theorem multiDifferenceGo_spec {α : Type} [LinearOrder α] :
    ∀ fuel (base : List α) (others : List (List α)), base.length < fuel →
      base.Sorted (· < ·) → (∀ o ∈ others, o.Sorted (· < ·)) →
      (multi.Difference.extendCollectionGo Vec.extend_from_slice
        fuel base others []).Sorted (· < ·) ∧
      (∀ z, z ∈ multi.Difference.extendCollectionGo Vec.extend_from_slice
          fuel base others [] ↔ z ∈ base ∧ ∀ o ∈ others, z ∉ o) := by
  intro fuel
  induction fuel with
  | zero => intro base others hlen; omega
  | succ fuel ih =>
    intro base others hlen hbase hoths
    cases base with
    | nil =>
      constructor
      · simp [multi.Difference.extendCollectionGo]
      · intro z; simp [multi.Difference.extendCollectionGo]
    | cons x base' =>
      have hoth : others.map (fun o => exponential_offset_ge_maybe o x) =
          others.map (fun o => o.dropWhile (fun e => decide (e < x))) := by
        refine List.map_congr_left ?_
        intro o ho
        rw [exponential_offset_ge_maybe]
        exact exponential_offset_ge_sorted o x (hoths o ho)
      have hoth₁_facts : ∀ o₁ ∈ (others.map
          (fun o => o.dropWhile (fun e => decide (e < x)))).filter
            (fun o => !o.isEmpty),
          o₁.Sorted (· < ·) ∧ (∀ w ∈ o₁, x ≤ w) ∧ o₁ ≠ [] := by
        intro o₁ h₁
        have hmf := List.mem_filter.1 h₁
        obtain ⟨o, ho, rfl⟩ := List.mem_map.1 hmf.1
        refine ⟨List.Pairwise.sublist (List.dropWhile_sublist _) (hoths o ho), ?_, ?_⟩
        · exact sorted_mem_dropWhile_lt (hoths o ho)
        · intro h0
          rw [h0] at hmf
          simpa using hmf.2
      have hoth_iff : ∀ z, x ≤ z →
          ((∀ o ∈ others, z ∉ o) ↔
            (∀ o₁ ∈ (others.map
              (fun o => o.dropWhile (fun e => decide (e < x)))).filter
                (fun o => !o.isEmpty), z ∉ o₁)) := by
        intro z hz
        constructor
        · intro h o₁ h₁ hzo₁
          have hmf := List.mem_filter.1 h₁
          obtain ⟨o, ho, rfl⟩ := List.mem_map.1 hmf.1
          exact h o ho ((List.dropWhile_sublist _).subset hzo₁)
        · intro h o ho hzo
          have hzdw : z ∈ o.dropWhile (fun e => decide (e < x)) := by
            have hsplit := List.takeWhile_append_dropWhile
              (p := fun e => decide (e < x)) (l := o)
            rcases List.mem_append.1 (hsplit ▸ hzo) with hzt | hzd
            · have : z < x := by simpa using List.mem_takeWhile_imp hzt
              exact absurd hz (not_le.2 this)
            · exact hzd
          refine h _ ?_ hzdw
          refine List.mem_filter.2 ⟨List.mem_map_of_mem _ ho, ?_⟩
          have : o.dropWhile (fun e => decide (e < x)) ≠ [] := by
            intro h0
            rw [h0] at hzdw
            exact absurd hzdw (List.not_mem_nil z)
          simpa using this
      cases hmn : (((others.map (fun o => o.dropWhile (fun e => decide (e < x)))).filter
          (fun o => !o.isEmpty)).filterMap List.head?).min? with
      | none =>
        have hrw : multi.Difference.extendCollectionGo Vec.extend_from_slice
            (fuel + 1) (x :: base') others [] = x :: base' := by
          simp only [multi.Difference.extendCollectionGo, List.head?_cons, hoth, hmn]
          simp [Vec.extend_from_slice]
        rw [hrw]
        have hoth₁_empty : (others.map
            (fun o => o.dropWhile (fun e => decide (e < x)))).filter
              (fun o => !o.isEmpty) = [] := by
          have hnil := List.min?_eq_none_iff.1 hmn
          have hnone := List.filterMap_eq_nil_iff.1 hnil
          refine List.eq_nil_iff_forall_not_mem.2 ?_
          intro o₁ h₁
          have hne := (hoth₁_facts o₁ h₁).2.2
          cases o₁ with
          | nil => exact hne rfl
          | cons y t => exact absurd (hnone _ h₁) (by simp)
        constructor
        · exact hbase
        · intro z
          constructor
          · intro hz
            refine ⟨hz, ?_⟩
            rw [hoth_iff z (sorted_head_le hbase z hz), hoth₁_empty]
            simp
          · exact fun hz => hz.1
      | some mn =>
        obtain ⟨hmn_mem, hmn_le⟩ := min?_eq_some_iff_linear.1 hmn
        obtain ⟨o₁mn, ho₁mn, ho₁mn_head⟩ := List.mem_filterMap.1 hmn_mem
        have hx_mn : x ≤ mn := by
          refine (hoth₁_facts _ ho₁mn).2.1 mn ?_
          cases o₁mn with
          | nil => exact absurd ho₁mn_head (by simp)
          | cons y t =>
            simp only [List.head?_cons, Option.some.injEq] at ho₁mn_head
            exact ho₁mn_head ▸ List.mem_cons_self _ _
        have hmn_min : ∀ o₁ ∈ (others.map
            (fun o => o.dropWhile (fun e => decide (e < x)))).filter
              (fun o => !o.isEmpty), ∀ w ∈ o₁, mn ≤ w := by
          intro o₁ h₁ w hw
          cases ho₁ : o₁ with
          | nil => rw [ho₁] at hw; exact absurd hw (List.not_mem_nil w)
          | cons y t =>
            have hy : mn ≤ y := by
              refine hmn_le y (List.mem_filterMap.2 ⟨o₁, h₁, ?_⟩)
              rw [ho₁]; rfl
            have := sorted_head_le (ho₁ ▸ (hoth₁_facts o₁ h₁).1) w (ho₁ ▸ hw)
            exact le_trans hy this
        have hmn_in : mn ∈ o₁mn := by
          cases o₁mn with
          | nil => exact absurd ho₁mn_head (by simp)
          | cons y t =>
            simp only [List.head?_cons, Option.some.injEq] at ho₁mn_head
            exact ho₁mn_head ▸ List.mem_cons_self _ _
        have hmn_mem_oth : ∃ o ∈ others, mn ∈ o := by
          have hmf := List.mem_filter.1 ho₁mn
          obtain ⟨o, ho, hdw⟩ := List.mem_map.1 hmf.1
          refine ⟨o, ho, ?_⟩
          have hmemdw : mn ∈ o.dropWhile (fun e => decide (e < x)) := by
            rw [hdw]; exact hmn_in
          exact (List.dropWhile_sublist _).subset hmemdw
        by_cases hmneq : mn = x
        · -- the minimum other head equals the base head: drop the base head
          have hrw : multi.Difference.extendCollectionGo Vec.extend_from_slice
              (fuel + 1) (x :: base') others [] =
              multi.Difference.extendCollectionGo Vec.extend_from_slice fuel base'
                ((others.map (fun o => o.dropWhile (fun e => decide (e < x)))).filter
                  (fun o => !o.isEmpty)) [] := by
            simp only [multi.Difference.extendCollectionGo, List.head?_cons, hoth, hmn,
              if_pos hmneq, List.drop_one, List.tail_cons]
          rw [hrw]
          have ih' := ih base' ((others.map
              (fun o => o.dropWhile (fun e => decide (e < x)))).filter
                (fun o => !o.isEmpty))
            (by simp only [List.length_cons] at hlen; omega)
            (sorted_tail hbase)
            (fun o₁ h₁ => (hoth₁_facts o₁ h₁).1)
          refine ⟨ih'.1, ?_⟩
          intro z
          rw [ih'.2]
          constructor
          · rintro ⟨hz1, hz2⟩
            have hxz : x < z := (List.sorted_cons.1 hbase).1 z hz1
            refine ⟨List.mem_cons_of_mem x hz1, ?_⟩
            rw [hoth_iff z (le_of_lt hxz)]
            exact hz2
          · rintro ⟨hz1, hz2⟩
            rcases List.mem_cons.1 hz1 with rfl | hz1'
            · exfalso
              obtain ⟨o, ho, hmno⟩ := hmn_mem_oth
              exact hz2 o ho (hmneq ▸ hmno)
            · refine ⟨hz1', ?_⟩
              rw [← hoth_iff z (sorted_head_le hbase z hz1)]
              exact hz2
        · -- the minimum other head lies above: emit the base run below it
          have hxlt : x < mn := lt_of_le_of_ne hx_mn (fun h => hmneq h.symm)
          have hrw : multi.Difference.extendCollectionGo Vec.extend_from_slice
              (fuel + 1) (x :: base') others [] =
              (x :: base').take (((x :: base').takeWhile
                  (fun e => decide (e < mn))).length) ++
                multi.Difference.extendCollectionGo Vec.extend_from_slice fuel
                  ((x :: base').drop (((x :: base').takeWhile
                    (fun e => decide (e < mn))).length))
                  ((others.map (fun o => o.dropWhile (fun e => decide (e < x)))).filter
                    (fun o => !o.isEmpty)) [] := by
            simp only [multi.Difference.extendCollectionGo, List.head?_cons, hoth, hmn,
              if_neg hmneq]
            rw [multiDifferenceGo_vec_append]
            simp [Vec.extend_from_slice]
          have htwl := takeWhile_eq_take_length_takeWhile
            (fun e => decide (e < mn)) (x :: base')
          have hoff1 : 1 ≤ ((x :: base').takeWhile (fun e => decide (e < mn))).length := by
            rw [List.takeWhile_cons_of_pos (by simpa using hxlt)]
            simp
          generalize hN : (((x :: base').takeWhile (fun e => decide (e < mn))).length) = n
            at htwl hoff1 hrw
          rw [hrw]
          have ih' := ih ((x :: base').drop n) ((others.map
              (fun o => o.dropWhile (fun e => decide (e < x)))).filter
                (fun o => !o.isEmpty))
            (by
              have h1 : (x :: base').length = base'.length + 1 := rfl
              have h3 : ((x :: base').drop n).length = (x :: base').length - n :=
                List.length_drop ..
              omega)
            (List.Pairwise.sublist (List.drop_sublist _ _) hbase)
            (fun o₁ h₁ => (hoth₁_facts o₁ h₁).1)
          have hsplitA := List.take_append_drop n (x :: base')
          have hcrossA := (List.pairwise_append.1 (hsplitA ▸ hbase)).2.2
          have hA : ∀ z : α, z ∈ (x :: base') ↔
              z ∈ (x :: base').take n ∨ z ∈ (x :: base').drop n := by
            intro z
            conv_lhs => rw [← hsplitA]
            exact List.mem_append
          constructor
          · refine List.pairwise_append.mpr
              ⟨List.Pairwise.sublist (List.take_sublist _ _) hbase, ih'.1, ?_⟩
            intro u hu v hv
            exact hcrossA u hu v ((ih'.2 v).1 hv).1
          · intro z
            rw [List.mem_append, ih'.2]
            constructor
            · rintro (hz | ⟨hz1, hz2⟩)
              · have hzmem : z ∈ (x :: base') := (hA z).2 (Or.inl hz)
                refine ⟨hzmem, ?_⟩
                have hzlt : z < mn := by
                  have : z ∈ (x :: base').takeWhile (fun e => decide (e < mn)) := by
                    rw [htwl]; exact hz
                  simpa using List.mem_takeWhile_imp this
                intro o ho hzo
                have hzdw : z ∈ o.dropWhile (fun e => decide (e < x)) := by
                  have hsplit := List.takeWhile_append_dropWhile
                    (p := fun e => decide (e < x)) (l := o)
                  rcases List.mem_append.1 (hsplit ▸ hzo) with hzt | hzd
                  · have : z < x := by simpa using List.mem_takeWhile_imp hzt
                    exact absurd (sorted_head_le hbase z hzmem) (not_le.2 this)
                  · exact hzd
                have hne : o.dropWhile (fun e => decide (e < x)) ≠ [] := by
                  intro h0
                  rw [h0] at hzdw
                  exact absurd hzdw (List.not_mem_nil z)
                have hmem₁ : o.dropWhile (fun e => decide (e < x)) ∈
                    (others.map (fun o => o.dropWhile (fun e => decide (e < x)))).filter
                      (fun o => !o.isEmpty) :=
                  List.mem_filter.2 ⟨List.mem_map_of_mem _ ho, by simpa using hne⟩
                exact absurd (hmn_min _ hmem₁ z hzdw) (not_le.2 hzlt)
              · have hzmem : z ∈ (x :: base') := (hA z).2 (Or.inr hz1)
                refine ⟨hzmem, ?_⟩
                rw [hoth_iff z (sorted_head_le hbase z hzmem)]
                exact hz2
            · rintro ⟨hz1, hz2⟩
              rcases (hA z).1 hz1 with hzt | hzd
              · exact Or.inl hzt
              · refine Or.inr ⟨hzd, ?_⟩
                rw [← hoth_iff z (sorted_head_le hbase z hz1)]
                exact hz2

/-- The multi difference (first slice as base) driven into a `Vec`: sorted
output whose members are the base elements in none of the other slices. -/
theorem multiDifferenceVec_spec {α : Type} [LinearOrder α] (slices : List (List α))
    (hsort : ∀ sl ∈ slices, sl.Sorted (· < ·)) :
    (multiDifferenceVec slices).Sorted (· < ·) ∧
    (∀ z, z ∈ multiDifferenceVec slices ↔
      z ∈ slices.headD [] ∧ ∀ o ∈ slices.drop 1, z ∉ o) := by
  have hbase_sorted : (slices.headD []).Sorted (· < ·) := by
    cases slices with
    | nil => simp
    | cons s ss => exact hsort s (List.mem_cons_self _ _)
  have hspec := multiDifferenceGo_spec ((multi.Difference.new slices).1.length + 1)
    (multi.Difference.new slices).1 (multi.Difference.new slices).2
    (by omega)
    (by simpa [multi.Difference.new] using hbase_sorted)
    (by
      intro o ho
      simp only [multi.Difference.new] at ho
      by_cases hlen : slices.length < 2
      · rw [if_pos hlen] at ho
        exact absurd ho (List.not_mem_nil o)
      · rw [if_neg hlen] at ho
        have := (List.mem_filter.1 ho).1
        exact hsort o ((List.drop_sublist _ _).subset this))
  rw [multiDifferenceVec]
  refine ⟨hspec.1, ?_⟩
  intro z
  rw [multi.Difference.extend_collection]
  rw [hspec.2 z]
  simp only [multi.Difference.new]
  constructor
  · rintro ⟨hz1, hz2⟩
    refine ⟨hz1, ?_⟩
    intro o ho hzo
    by_cases hlen : slices.length < 2
    · have : slices.drop 1 = [] := by
        cases slices with
        | nil => rfl
        | cons s ss =>
          cases ss with
          | nil => rfl
          | cons t ts =>
            simp only [List.length_cons] at hlen
            omega
      rw [this] at ho
      exact absurd ho (List.not_mem_nil o)
    · rw [if_neg hlen] at hz2
      have hone : o ∈ (slices.drop 1).filter (fun s => decide (s.length > 0)) := by
        refine List.mem_filter.2 ⟨ho, ?_⟩
        have : o ≠ [] := by
          intro h0
          rw [h0] at hzo
          exact absurd hzo (List.not_mem_nil z)
        simp only [decide_eq_true_eq]
        cases o with
        | nil => exact absurd rfl this
        | cons y t => simp
      exact hz2 o hone hzo
  · rintro ⟨hz1, hz2⟩
    refine ⟨hz1, ?_⟩
    intro o ho hzo
    by_cases hlen : slices.length < 2
    · rw [if_pos hlen] at ho
      exact absurd ho (List.not_mem_nil o)
    · rw [if_neg hlen] at ho
      have := (List.mem_filter.1 ho).1
      exact hz2 o this hzo

/-! ### Counter runs are saturated lengths of the Vec runs -/

theorem counter_ext_comm {α : Type} (s l : List α) :
    min (Vec.extend_from_slice s l).length USIZE_MAX =
      Counter.extend_from_slice (min s.length USIZE_MAX) l := by
  simp only [Vec.extend_from_slice, Counter.extend_from_slice, saturating_add,
    List.length_append]
  omega

theorem counter_push_comm {α : Type} (s : List α) (x : α) :
    min (Vec.push s x).length USIZE_MAX = Counter.push (min s.length USIZE_MAX) x := by
  simp only [Vec.push, Counter.push, saturating_add, List.length_append,
    List.length_cons, List.length_nil]
  omega

theorem duoUnionCounter_eq {α : Type} [LinearOrder α] (a b : List α) :
    duoUnionCounter a b = min (duoUnionVec a b).length USIZE_MAX := by
  have h := duoUnionGo_morph Vec.extend_from_slice Counter.extend_from_slice
    (fun l => min l.length USIZE_MAX) (fun s l => counter_ext_comm s l)
    (a.length + b.length + 1) a b []
  simpa [duoUnionCounter, duoUnionVec, duo.Union.extend_collection] using h.symm

theorem duoIntersectionCounter_eq {α : Type} [LinearOrder α] (a b : List α) :
    duoIntersectionCounter a b = min (duoIntersectionVec a b).length USIZE_MAX := by
  have h := duoIntersectionGo_morph Vec.extend_from_slice Counter.extend_from_slice
    (fun l => min l.length USIZE_MAX) (fun s l => counter_ext_comm s l)
    (a.length + b.length + 1) a b []
  simpa [duoIntersectionCounter, duoIntersectionVec,
    duo.Intersection.extend_collection] using h.symm

theorem duoDifferenceCounter_eq {α : Type} [LinearOrder α] (a b : List α) :
    duoDifferenceCounter a b = min (duoDifferenceVec a b).length USIZE_MAX := by
  have h := duoDifferenceGo_morph Vec.extend_from_slice Counter.extend_from_slice
    (fun l => min l.length USIZE_MAX) (fun s l => counter_ext_comm s l)
    (a.length + b.length + 1) a b []
  simpa [duoDifferenceCounter, duoDifferenceVec,
    duo.Difference.extend_collection] using h.symm

theorem duoSymmetricDifferenceCounter_eq {α : Type} [LinearOrder α] (a b : List α) :
    duoSymmetricDifferenceCounter a b =
      min (duoSymmetricDifferenceVec a b).length USIZE_MAX := by
  have h := duoSymmetricDifferenceGo_morph Vec.extend_from_slice Counter.extend_from_slice
    (fun l => min l.length USIZE_MAX) (fun s l => counter_ext_comm s l)
    (a.length + b.length + 1) a b []
  simpa [duoSymmetricDifferenceCounter, duoSymmetricDifferenceVec,
    duo.SymmetricDifference.extend_collection] using h.symm

theorem duoDifferenceByKeyCounter_eq {T U K : Type} [LinearOrder K]
    (f : T → K) (g : U → K) (a : List T) (b : List U) :
    duoDifferenceByKeyCounter f g a b =
      min (duoDifferenceByKeyVec f g a b).length USIZE_MAX := by
  have h := duoDifferenceByKeyGo_morph f g Vec.extend_from_slice Counter.extend_from_slice
    (fun l => min l.length USIZE_MAX) (fun s l => counter_ext_comm s l)
    (a.length + b.length + 1) a b []
  simpa [duoDifferenceByKeyCounter, duoDifferenceByKeyVec,
    duo.DifferenceByKey.extend_collection] using h.symm

theorem multiUnionCounter_eq {α : Type} [LinearOrder α] (slices : List (List α)) :
    multiUnionCounter slices = min (multiUnionVec slices).length USIZE_MAX := by
  have h := multiUnionGo_morph Vec.extend_from_slice Vec.push
    Counter.extend_from_slice Counter.push
    (fun l => min l.length USIZE_MAX) (fun s l => counter_ext_comm s l)
    (fun s x => counter_push_comm s x)
    ((slices.map List.length).sum + 1) slices []
  simpa [multiUnionCounter, multiUnionVec, multi.Union.extend_collection] using h.symm

theorem multiIntersectionCounter_eq {α : Type} [LinearOrder α] (slices : List (List α)) :
    multiIntersectionCounter slices =
      min (multiIntersectionVec slices).length USIZE_MAX := by
  rw [multiIntersectionCounter, multiIntersectionVec,
    multi.Intersection.extend_collection, multi.Intersection.extend_collection]
  by_cases h0 : slices.isEmpty
  · rw [if_pos h0, if_pos h0]; simp
  · rw [if_neg h0, if_neg h0]
    by_cases h1 : slices.any List.isEmpty
    · rw [if_pos h1, if_pos h1]; simp
    · rw [if_neg h1, if_neg h1]
      have h := multiIntersectionGo_morph Vec.push Counter.push
        (fun l => min l.length USIZE_MAX) (fun s x => counter_push_comm s x)
        ((slices.map List.length).sum + 1) slices []
      simpa using h.symm

theorem multiSymmetricDifferenceCounter_eq {α : Type} [LinearOrder α]
    (slices : List (List α)) :
    multiSymmetricDifferenceCounter slices =
      min (multiSymmetricDifferenceVec slices).length USIZE_MAX := by
  have h := multiSymmetricDifferenceGo_morph Vec.extend_from_slice Vec.push
    Counter.extend_from_slice Counter.push
    (fun l => min l.length USIZE_MAX) (fun s l => counter_ext_comm s l)
    (fun s x => counter_push_comm s x)
    ((slices.map List.length).sum + 1) slices []
  simpa [multiSymmetricDifferenceCounter, multiSymmetricDifferenceVec,
    multi.SymmetricDifference.extend_collection] using h.symm

theorem multiDifferenceCounter_eq {α : Type} [LinearOrder α] (slices : List (List α)) :
    multiDifferenceCounter slices = min (multiDifferenceVec slices).length USIZE_MAX := by
  have h := multiDifferenceGo_morph Vec.extend_from_slice Counter.extend_from_slice
    (fun l => min l.length USIZE_MAX) (fun s l => counter_ext_comm s l)
    ((multi.Difference.new slices).1.length + 1)
    (multi.Difference.new slices).1 (multi.Difference.new slices).2 []
  simpa [multiDifferenceCounter, multiDifferenceVec,
    multi.Difference.extend_collection] using h.symm

/-! ### Linking sorted outputs to `Finset` operations -/

theorem eq_sort_of_sorted_mem {α : Type} [LinearOrder α] {l : List α} {s : Finset α}
    (hl : l.Sorted (· < ·)) (h : ∀ z, z ∈ l ↔ z ∈ s) :
    l = s.sort (· ≤ ·) :=
  sorted_eq_of_mem_iff hl (Finset.sort_sorted_lt s)
    (fun z => (h z).trans (Finset.mem_sort _).symm)

theorem mem_foldr_union_toFinset {α : Type} [DecidableEq α]
    (slices : List (List α)) (z : α) :
    z ∈ slices.foldr (fun sl acc => sl.toFinset ∪ acc) ∅ ↔ ∃ sl ∈ slices, z ∈ sl := by
  induction slices with
  | nil => simp
  | cons s ss ih => simp [ih]

theorem mem_foldr_inter_toFinset {α : Type} [DecidableEq α]
    (cs : List (List α)) (c : List α) (z : α) :
    z ∈ cs.foldr (fun sl acc => sl.toFinset ∩ acc) c.toFinset ↔
      z ∈ c ∧ ∀ sl ∈ cs, z ∈ sl := by
  induction cs with
  | nil => simp
  | cons s ss ih =>
    simp only [List.foldr_cons, Finset.mem_inter, List.mem_toFinset, ih,
      List.forall_mem_cons]
    tauto

theorem mem_foldr_sdiff_toFinset {α : Type} [DecidableEq α]
    (rest : List (List α)) (base : List α) (z : α) :
    z ∈ rest.foldr (fun sl acc => acc \ sl.toFinset) base.toFinset ↔
      z ∈ base ∧ ∀ sl ∈ rest, z ∉ sl := by
  induction rest with
  | nil => simp
  | cons s ss ih =>
    simp only [List.foldr_cons, Finset.mem_sdiff, List.mem_toFinset, ih,
      List.forall_mem_cons]
    tauto

/-! ### The claims -/

/-- C1: on strictly increasing deduplicated inputs, the union, intersection
and difference operators (duo on two sets; multi on k sets, with the first
slice as the base of the difference) emit exactly the sorted sequence of the
corresponding mathematical set operation — here the `Finset` obtained from
the inputs, sorted. -/
theorem C1_set_operations {α : Type} [LinearOrder α]
    (a b : List α) (slices : List (List α)) (c base : List α)
    (cs rest : List (List α))
    (ha : a.Sorted (· < ·)) (hb : b.Sorted (· < ·))
    (hslices : ∀ sl ∈ slices, sl.Sorted (· < ·))
    (hc : c.Sorted (· < ·)) (hcs : ∀ sl ∈ cs, sl.Sorted (· < ·))
    (hbase : base.Sorted (· < ·)) (hrest : ∀ sl ∈ rest, sl.Sorted (· < ·)) :
    duoUnionVec a b = (a.toFinset ∪ b.toFinset).sort (· ≤ ·) ∧
    duoIntersectionVec a b = (a.toFinset ∩ b.toFinset).sort (· ≤ ·) ∧
    duoDifferenceVec a b = (a.toFinset \ b.toFinset).sort (· ≤ ·) ∧
    multiUnionVec slices =
      (slices.foldr (fun sl acc => sl.toFinset ∪ acc) (∅ : Finset α)).sort (· ≤ ·) ∧
    multiIntersectionVec (c :: cs) =
      (cs.foldr (fun sl acc => sl.toFinset ∩ acc) c.toFinset).sort (· ≤ ·) ∧
    multiDifferenceVec (base :: rest) =
      (rest.foldr (fun sl acc => acc \ sl.toFinset) base.toFinset).sort (· ≤ ·) := by
  refine ⟨?_, ?_, ?_, ?_, ?_, ?_⟩
  · obtain ⟨hs, hm⟩ := duoUnionVec_spec a b ha hb
    refine eq_sort_of_sorted_mem hs ?_
    intro z
    rw [hm z]
    simp
  · obtain ⟨hs, hm⟩ := duoIntersectionVec_spec a b ha hb
    refine eq_sort_of_sorted_mem hs ?_
    intro z
    rw [hm z]
    simp
  · obtain ⟨hs, hm⟩ := duoDifferenceVec_spec a b ha hb
    refine eq_sort_of_sorted_mem hs ?_
    intro z
    rw [hm z]
    simp
  · obtain ⟨hs, hm⟩ := multiUnionVec_spec slices hslices
    refine eq_sort_of_sorted_mem hs ?_
    intro z
    rw [hm z, mem_foldr_union_toFinset]
  · obtain ⟨hs, hm⟩ := multiIntersectionVec_spec (c :: cs) (by simp)
      (List.forall_mem_cons.2 ⟨hc, hcs⟩)
    refine eq_sort_of_sorted_mem hs ?_
    intro z
    rw [hm z, mem_foldr_inter_toFinset, List.forall_mem_cons]
  · obtain ⟨hs, hm⟩ := multiDifferenceVec_spec (base :: rest)
      (List.forall_mem_cons.2 ⟨hbase, hrest⟩)
    refine eq_sort_of_sorted_mem hs ?_
    intro z
    rw [hm z, mem_foldr_sdiff_toFinset]
    simp

/-- Witness for C1 at concrete inputs. -/
theorem C1_set_operations_witness :
    (([1, 3] : List Nat).Sorted (· < ·) ∧ ([2, 3] : List Nat).Sorted (· < ·) ∧
      (∀ sl ∈ ([[1, 2], [2, 3]] : List (List Nat)), sl.Sorted (· < ·)) ∧
      ([1, 2, 3] : List Nat).Sorted (· < ·) ∧
      (∀ sl ∈ ([[2, 3, 4]] : List (List Nat)), sl.Sorted (· < ·)) ∧
      ([1, 2, 4] : List Nat).Sorted (· < ·) ∧
      (∀ sl ∈ ([[2], [4, 5]] : List (List Nat)), sl.Sorted (· < ·))) ∧
    (duoUnionVec [1, 3] [2, 3] =
        (([1, 3] : List Nat).toFinset ∪ [2, 3].toFinset).sort (· ≤ ·) ∧
      duoIntersectionVec [1, 3] [2, 3] =
        (([1, 3] : List Nat).toFinset ∩ [2, 3].toFinset).sort (· ≤ ·) ∧
      duoDifferenceVec [1, 3] [2, 3] =
        (([1, 3] : List Nat).toFinset \ [2, 3].toFinset).sort (· ≤ ·) ∧
      multiUnionVec [[1, 2], [2, 3]] =
        (([[1, 2], [2, 3]] : List (List Nat)).foldr
          (fun sl acc => sl.toFinset ∪ acc) (∅ : Finset Nat)).sort (· ≤ ·) ∧
      multiIntersectionVec ([1, 2, 3] :: [[2, 3, 4]]) =
        (([[2, 3, 4]] : List (List Nat)).foldr (fun sl acc => sl.toFinset ∩ acc)
          ([1, 2, 3] : List Nat).toFinset).sort (· ≤ ·) ∧
      multiDifferenceVec ([1, 2, 4] :: [[2], [4, 5]]) =
        (([[2], [4, 5]] : List (List Nat)).foldr (fun sl acc => acc \ sl.toFinset)
          ([1, 2, 4] : List Nat).toFinset).sort (· ≤ ·)) :=
  ⟨⟨by decide, by decide, by decide, by decide, by decide, by decide, by decide⟩,
    C1_set_operations [1, 3] [2, 3] [[1, 2], [2, 3]] [1, 2, 3] [1, 2, 4]
      [[2, 3, 4]] [[2], [4, 5]]
      (by decide) (by decide) (by decide) (by decide) (by decide)
      (by decide) (by decide)⟩

/-- C2: every operator (duo and multi union, intersection, difference and
symmetric difference), on valid strictly increasing inputs, produces a
strictly increasing output. -/
theorem C2_strictly_increasing {α : Type} [LinearOrder α] (a b : List α)
    (slices : List (List α))
    (ha : a.Sorted (· < ·)) (hb : b.Sorted (· < ·))
    (hslices : ∀ sl ∈ slices, sl.Sorted (· < ·)) :
    (duoUnionVec a b).Sorted (· < ·) ∧
    (duoIntersectionVec a b).Sorted (· < ·) ∧
    (duoDifferenceVec a b).Sorted (· < ·) ∧
    (duoSymmetricDifferenceVec a b).Sorted (· < ·) ∧
    (multiUnionVec slices).Sorted (· < ·) ∧
    (multiIntersectionVec slices).Sorted (· < ·) ∧
    (multiSymmetricDifferenceVec slices).Sorted (· < ·) ∧
    (multiDifferenceVec slices).Sorted (· < ·) := by
  refine ⟨(duoUnionVec_spec a b ha hb).1, (duoIntersectionVec_spec a b ha hb).1,
    (duoDifferenceVec_spec a b ha hb).1, (duoSymmetricDifferenceVec_spec a b ha hb).1,
    (multiUnionVec_spec slices hslices).1, ?_,
    (multiSymmetricDifferenceVec_spec slices hslices).1,
    (multiDifferenceVec_spec slices hslices).1⟩
  by_cases hne : slices = []
  · subst hne
    simp [multiIntersectionVec, multi.Intersection.extend_collection]
  · exact (multiIntersectionVec_spec slices hne hslices).1

/-- Witness for C2 at concrete inputs. -/
theorem C2_strictly_increasing_witness :
    (([1, 3] : List Nat).Sorted (· < ·) ∧ ([2, 3] : List Nat).Sorted (· < ·) ∧
      (∀ sl ∈ ([[1, 2], [2, 3], [4]] : List (List Nat)), sl.Sorted (· < ·))) ∧
    ((duoUnionVec [1, 3] [2, 3]).Sorted (· < ·) ∧
      (duoIntersectionVec [1, 3] [2, 3]).Sorted (· < ·) ∧
      (duoDifferenceVec [1, 3] [2, 3]).Sorted (· < ·) ∧
      (duoSymmetricDifferenceVec [1, 3] [2, 3]).Sorted (· < ·) ∧
      (multiUnionVec [[1, 2], [2, 3], [4]]).Sorted (· < ·) ∧
      (multiIntersectionVec [[1, 2], [2, 3], [4]]).Sorted (· < ·) ∧
      (multiSymmetricDifferenceVec [[1, 2], [2, 3], [4]]).Sorted (· < ·) ∧
      (multiDifferenceVec [[1, 2], [2, 3], [4]]).Sorted (· < ·)) :=
  ⟨⟨by decide, by decide, by decide⟩,
    C2_strictly_increasing [1, 3] [2, 3] [[1, 2], [2, 3], [4]]
      (by decide) (by decide) (by decide)⟩

/-- C4: on strictly increasing deduplicated inputs, the multi symmetric
difference emits, in increasing order, exactly the elements occurring in an
odd number of the input slices. -/
theorem C4_multi_symmetric_difference {α : Type} [LinearOrder α]
    (slices : List (List α)) (hsort : ∀ sl ∈ slices, sl.Sorted (· < ·)) :
    (multiSymmetricDifferenceVec slices).Sorted (· < ·) ∧
    (∀ z, z ∈ multiSymmetricDifferenceVec slices ↔
      Odd (slices.countP (fun sl => decide (z ∈ sl)))) :=
  multiSymmetricDifferenceVec_spec slices hsort

/-- Witness for C4 at concrete inputs: on `[[1, 2], [2, 3], [3]]` the
elements in an odd number of slices are exactly `1`. -/
theorem C4_multi_symmetric_difference_witness :
    (∀ sl ∈ ([[1, 2], [2, 3], [3]] : List (List Nat)), sl.Sorted (· < ·)) ∧
    ((multiSymmetricDifferenceVec [[1, 2], [2, 3], [3]]).Sorted (· < ·) ∧
      (∀ z, z ∈ multiSymmetricDifferenceVec [[1, 2], [2, 3], [3]] ↔
        Odd (([[1, 2], [2, 3], [3]] : List (List Nat)).countP
          (fun sl => decide (z ∈ sl))))) :=
  ⟨by decide, C4_multi_symmetric_difference [[1, 2], [2, 3], [3]] (by decide)⟩

/-- C5: duo difference-by-key, with the base keys non-decreasing under `f`
(duplicates permitted) and the other keys strictly increasing under `g`,
emits in input order exactly the base elements whose key is absent from the
keys of `b`; and on a keyed match the loop drops a single base element while
keeping `b` where it stands. -/
theorem C5_difference_by_key {T U K : Type} [LinearOrder K] (f : T → K) (g : U → K)
    (a : List T) (b : List U)
    (haf : (a.map f).Sorted (· ≤ ·)) (hbg : (b.map g).Sorted (· < ·)) :
    duoDifferenceByKeyVec f g a b = a.filter (fun t => decide (f t ∉ b.map g)) ∧
    (∀ (fuel : Nat) (t : T) (a' : List T) (b₀ : List U) (out : List T),
      (exponential_offset_ge_by_key b₀ (f t) g).head?.map g = some (f t) →
      duo.DifferenceByKey.extendCollectionGo f g Vec.extend_from_slice (fuel + 1)
        (t :: a') b₀ out =
      duo.DifferenceByKey.extendCollectionGo f g Vec.extend_from_slice fuel a'
        (exponential_offset_ge_by_key b₀ (f t) g) out) := by
  constructor
  · exact duoDifferenceByKeyVec_spec f g a b haf hbg
  · intro fuel t a' b₀ out hmatch
    cases hb : (exponential_offset_ge_by_key b₀ (f t) g).head? with
    | none =>
      rw [hb] at hmatch
      exact absurd hmatch (by simp)
    | some u =>
      rw [hb] at hmatch
      simp only [Option.map_some', Option.some.injEq] at hmatch
      simp [duo.DifferenceByKey.extendCollectionGo, hb, hmatch]

/-- Witness for C5 at concrete inputs (the crate doctest:
relations keyed by their first component minus `[1, 3, 4]`). -/
theorem C5_difference_by_key_witness :
    ((([(1, 1), (2, 9), (2, 10), (3, 3)] : List (Nat × Nat)).map Prod.fst).Sorted
        (· ≤ ·) ∧
      (([1, 3, 4] : List Nat).map (fun u => u)).Sorted (· < ·)) ∧
    (duoDifferenceByKeyVec Prod.fst (fun u => u)
        [(1, 1), (2, 9), (2, 10), (3, 3)] [1, 3, 4] =
      ([(1, 1), (2, 9), (2, 10), (3, 3)] : List (Nat × Nat)).filter
        (fun t => decide (t.1 ∉ ([1, 3, 4] : List Nat).map (fun u => u))) ∧
      (∀ (fuel : Nat) (t : Nat × Nat) (a' : List (Nat × Nat)) (b₀ : List Nat)
          (out : List (Nat × Nat)),
        (exponential_offset_ge_by_key b₀ t.1 (fun u => u)).head?.map
            (fun u => u) = some t.1 →
        duo.DifferenceByKey.extendCollectionGo Prod.fst (fun u => u)
          Vec.extend_from_slice (fuel + 1) (t :: a') b₀ out =
        duo.DifferenceByKey.extendCollectionGo Prod.fst (fun u => u)
          Vec.extend_from_slice fuel a'
          (exponential_offset_ge_by_key b₀ t.1 (fun u => u)) out)) :=
  ⟨⟨by decide, by decide⟩,
    C5_difference_by_key Prod.fst (fun u => u)
      [(1, 1), (2, 9), (2, 10), (3, 3)] [1, 3, 4] (by decide) (by decide)⟩

/-- C8: driving any operator into the `Counter` collector leaves the counter
equal to the length of the output the same operator produces into a `Vec`
collector (under the `usize` bound, below which `saturating_add` is exact
addition). -/
theorem C8_counter_collector {α T U K : Type} [LinearOrder α] [LinearOrder K]
    (a b : List α) (slices : List (List α)) (f : T → K) (g : U → K)
    (ak : List T) (bk : List U)
    (h1 : (duoUnionVec a b).length ≤ USIZE_MAX)
    (h2 : (duoIntersectionVec a b).length ≤ USIZE_MAX)
    (h3 : (duoDifferenceVec a b).length ≤ USIZE_MAX)
    (h4 : (duoSymmetricDifferenceVec a b).length ≤ USIZE_MAX)
    (h5 : (duoDifferenceByKeyVec f g ak bk).length ≤ USIZE_MAX)
    (h6 : (multiUnionVec slices).length ≤ USIZE_MAX)
    (h7 : (multiIntersectionVec slices).length ≤ USIZE_MAX)
    (h8 : (multiSymmetricDifferenceVec slices).length ≤ USIZE_MAX)
    (h9 : (multiDifferenceVec slices).length ≤ USIZE_MAX) :
    duoUnionCounter a b = (duoUnionVec a b).length ∧
    duoIntersectionCounter a b = (duoIntersectionVec a b).length ∧
    duoDifferenceCounter a b = (duoDifferenceVec a b).length ∧
    duoSymmetricDifferenceCounter a b = (duoSymmetricDifferenceVec a b).length ∧
    duoDifferenceByKeyCounter f g ak bk = (duoDifferenceByKeyVec f g ak bk).length ∧
    multiUnionCounter slices = (multiUnionVec slices).length ∧
    multiIntersectionCounter slices = (multiIntersectionVec slices).length ∧
    multiSymmetricDifferenceCounter slices = (multiSymmetricDifferenceVec slices).length ∧
    multiDifferenceCounter slices = (multiDifferenceVec slices).length := by
  refine ⟨?_, ?_, ?_, ?_, ?_, ?_, ?_, ?_, ?_⟩
  · rw [duoUnionCounter_eq]; exact min_eq_left h1
  · rw [duoIntersectionCounter_eq]; exact min_eq_left h2
  · rw [duoDifferenceCounter_eq]; exact min_eq_left h3
  · rw [duoSymmetricDifferenceCounter_eq]; exact min_eq_left h4
  · rw [duoDifferenceByKeyCounter_eq]; exact min_eq_left h5
  · rw [multiUnionCounter_eq]; exact min_eq_left h6
  · rw [multiIntersectionCounter_eq]; exact min_eq_left h7
  · rw [multiSymmetricDifferenceCounter_eq]; exact min_eq_left h8
  · rw [multiDifferenceCounter_eq]; exact min_eq_left h9

/-- Witness for C8 at concrete inputs. -/
theorem C8_counter_collector_witness :
    ((duoUnionVec [1, 2, 3] [2, 4]).length ≤ USIZE_MAX ∧
      (duoIntersectionVec [1, 2, 3] [2, 4]).length ≤ USIZE_MAX ∧
      (duoDifferenceVec [1, 2, 3] [2, 4]).length ≤ USIZE_MAX ∧
      (duoSymmetricDifferenceVec [1, 2, 3] [2, 4]).length ≤ USIZE_MAX ∧
      (duoDifferenceByKeyVec (fun t => t) (fun u => u) [1, 2] [2]).length ≤ USIZE_MAX ∧
      (multiUnionVec [[1, 2], [2, 3]]).length ≤ USIZE_MAX ∧
      (multiIntersectionVec [[1, 2], [2, 3]]).length ≤ USIZE_MAX ∧
      (multiSymmetricDifferenceVec [[1, 2], [2, 3]]).length ≤ USIZE_MAX ∧
      (multiDifferenceVec [[1, 2], [2, 3]]).length ≤ USIZE_MAX) ∧
    (duoUnionCounter [1, 2, 3] [2, 4] = (duoUnionVec [1, 2, 3] [2, 4]).length ∧
      duoIntersectionCounter [1, 2, 3] [2, 4] =
        (duoIntersectionVec [1, 2, 3] [2, 4]).length ∧
      duoDifferenceCounter [1, 2, 3] [2, 4] =
        (duoDifferenceVec [1, 2, 3] [2, 4]).length ∧
      duoSymmetricDifferenceCounter [1, 2, 3] [2, 4] =
        (duoSymmetricDifferenceVec [1, 2, 3] [2, 4]).length ∧
      duoDifferenceByKeyCounter (fun t => t) (fun u => u) [1, 2] [2] =
        (duoDifferenceByKeyVec (fun t : Nat => t) (fun u : Nat => u) [1, 2] [2]).length ∧
      multiUnionCounter [[1, 2], [2, 3]] = (multiUnionVec [[1, 2], [2, 3]]).length ∧
      multiIntersectionCounter [[1, 2], [2, 3]] =
        (multiIntersectionVec [[1, 2], [2, 3]]).length ∧
      multiSymmetricDifferenceCounter [[1, 2], [2, 3]] =
        (multiSymmetricDifferenceVec ([[1, 2], [2, 3]] : List (List Nat))).length ∧
      multiDifferenceCounter [[1, 2], [2, 3]] =
        (multiDifferenceVec ([[1, 2], [2, 3]] : List (List Nat))).length) :=
  ⟨⟨by decide, by decide, by decide, by decide, by decide, by decide, by decide,
      by decide, by decide⟩,
    C8_counter_collector [1, 2, 3] [2, 4] [[1, 2], [2, 3]]
      (fun t => t) (fun u => u) [1, 2] [2]
      (by decide) (by decide) (by decide) (by decide) (by decide)
      (by decide) (by decide) (by decide) (by decide)⟩

/-- C9: on strictly increasing deduplicated inputs, the duo symmetric
difference of `a` and `b` equals the duo union of `difference(a, b)` and
`difference(b, a)`. -/
theorem C9_symmetric_difference_as_union {α : Type} [LinearOrder α] (a b : List α)
    (ha : a.Sorted (· < ·)) (hb : b.Sorted (· < ·)) :
    duoSymmetricDifferenceVec a b =
      duoUnionVec (duoDifferenceVec a b) (duoDifferenceVec b a) := by
  obtain ⟨hs1, hm1⟩ := duoSymmetricDifferenceVec_spec a b ha hb
  obtain ⟨hsd1, hmd1⟩ := duoDifferenceVec_spec a b ha hb
  obtain ⟨hsd2, hmd2⟩ := duoDifferenceVec_spec b a hb ha
  obtain ⟨hsu, hmu⟩ := duoUnionVec_spec _ _ hsd1 hsd2
  refine sorted_eq_of_mem_iff hs1 hsu ?_
  intro z
  rw [hm1 z, hmu z, hmd1 z, hmd2 z]

/-- Witness for C9 at concrete inputs. -/
theorem C9_symmetric_difference_as_union_witness :
    (([1, 2, 3] : List Nat).Sorted (· < ·) ∧ ([2, 4] : List Nat).Sorted (· < ·)) ∧
    duoSymmetricDifferenceVec [1, 2, 3] [2, 4] =
      duoUnionVec (duoDifferenceVec [1, 2, 3] [2, 4])
        (duoDifferenceVec [2, 4] [1, 2, 3]) :=
  ⟨⟨by decide, by decide⟩,
    C9_symmetric_difference_as_union [1, 2, 3] [2, 4] (by decide) (by decide)⟩

/-- C10: the multi intersection of an empty list of input sets (k = 0)
emits nothing. -/
theorem C10_multi_intersection_empty {α : Type} [LinearOrder α] :
    multiIntersectionVec ([] : List (List α)) = [] := by
  simp [multiIntersectionVec, multi.Intersection.extend_collection]

end Sdset
